import Mathlib

/-!
# Verification of the library-system core (Sistema-para-biblioteca)

Shallow embedding, in Lean 4, of the data-structure and service core of the
repository: the Trie and AVL tree of
`src/lib/data-structures/trees/AVLTree.ts`, the singly linked list of
`src/lib/data-structures/LinkedList.ts`, the generic adjacency-list graph of
`src/lib/data-structures/graphs/Graph.ts`, the Jaccard similarity of
`src/lib/data-structures/graphs/algorithms/similarity.ts`, and the service
layer (`BookServiceV2`, `UserServiceV2`, `GraphService`).

Modelling conventions:
* A JavaScript string is modelled as `Str := List Char` (a JS string is a
  sequence of code units; `<` on JS strings is lexicographic, as is the
  `List Char` order used here).
* A JavaScript `Map` is modelled as an association list in insertion order
  (`jsGet` / `jsSet` / `jsDel` mirror `Map.get` / `Map.set` / `Map.delete`:
  `set` of an existing key overwrites in place, `set` of a fresh key appends).
* A JavaScript `Set` of strings is modelled as `Finset Str`.
* Numbers are modelled as `ℚ` (or a generic ordered type where only ordering
  and addition are used); `Infinity` is modelled as `none : Option _`.
* Mutation is modelled by explicit state passing; `throw new Error(msg)` is
  modelled with `Except String`.
-/

/-- A JavaScript string: a sequence of characters. -/
abbrev Str : Type := List Char

/-- Shorthand for writing `Str` literals. -/
def str (s : String) : Str := s.data

/-- `Map.get`: the value at the first (only) entry with the given key. -/
def jsGet {κ γ : Type} [DecidableEq κ] : List (κ × γ) → κ → Option γ
  | [], _ => none
  | (k', v) :: rest, k => if k' = k then some v else jsGet rest k

/-- `Map.set`: overwrite in place if the key exists, else append. -/
def jsSet {κ γ : Type} [DecidableEq κ] : List (κ × γ) → κ → γ → List (κ × γ)
  | [], k, v => [(k, v)]
  | (k', v') :: rest, k, v =>
      if k' = k then (k, v) :: rest else (k', v') :: jsSet rest k v

/-- `Map.delete`: remove the entry with the given key. -/
def jsDel {κ γ : Type} [DecidableEq κ] : List (κ × γ) → κ → List (κ × γ)
  | [], _ => []
  | (k', v') :: rest, k =>
      if k' = k then jsDel rest k else (k', v') :: jsDel rest k

/-- Keys of an association list. -/
def jsKeys {κ γ : Type} (l : List (κ × γ)) : List κ := l.map Prod.fst

/-! ## Text normalization (`Trie.normalize`)

The source normalizes text with
`str.toLowerCase().normalize('NFD').replace(/[̀-ͯ]/g, '')`:
lower-casing followed by stripping of combining diacritical marks.  We model
the composition character-by-character: the accented Latin letters that occur
in the repository's data (the Spanish vowels with acute accent, the
diaeresis'd u and the tilde'd n) are mapped to their lower-case base letter,
every other character is lower-cased (ASCII case folding). -/

/-- One character of `Trie.normalize`: lower-case and strip the diacritic. -/
def Trie.normalizeChar (c : Char) : Char :=
  if c = 'á' ∨ c = 'Á' then 'a'
  else if c = 'é' ∨ c = 'É' then 'e'
  else if c = 'í' ∨ c = 'Í' then 'i'
  else if c = 'ó' ∨ c = 'Ó' then 'o'
  else if c = 'ú' ∨ c = 'Ú' ∨ c = 'ü' ∨ c = 'Ü' then 'u'
  else if c = 'ñ' ∨ c = 'Ñ' then 'n'
  else c.toLower

/-- `Trie.normalize`: case-fold and strip diacritics. -/
def Trie.normalize (s : Str) : Str := s.map Trie.normalizeChar

/-! ## Trie (`Trie<T>` of `AVLTree.ts`)

`TrieNode` holds a children map (single character to child node, in insertion
order), an end-of-word flag and an optional value, exactly as the source. -/

/-- A node of the prefix tree. -/
inductive TrieNode (β : Type) : Type where
  | mk (children : List (Char × TrieNode β)) (isEndOfWord : Bool) (value : Option β)

/-- The children map of a trie node. -/
def TrieNode.children {β : Type} : TrieNode β → List (Char × TrieNode β)
  | .mk ch _ _ => ch

/-- The end-of-word flag of a trie node. -/
def TrieNode.isEndOfWord {β : Type} : TrieNode β → Bool
  | .mk _ e _ => e

/-- The stored value of a trie node. -/
def TrieNode.value {β : Type} : TrieNode β → Option β
  | .mk _ _ v => v

/-- A fresh trie node (`new TrieNode()`). -/
def TrieNode.empty {β : Type} : TrieNode β := .mk [] false none

/-- `Trie.findNode`: walk the trie along a (normalized) word. -/
def findNode {β : Type} : TrieNode β → Str → Option (TrieNode β)
  | n, [] => some n
  | n, c :: cs =>
      match jsGet n.children c with
      | none => none
      | some child => findNode child cs

/-- Node-level part of `Trie.insert`: walk the word, creating missing
children, then set the end-of-word flag and the value at the final node. -/
def insertW {β : Type} : TrieNode β → Str → β → TrieNode β
  | .mk ch _ _, [], val => .mk ch true (some val)
  | .mk ch e v, c :: cs, val =>
      let child := (jsGet ch c).getD TrieNode.empty
      .mk (jsSet ch c (insertW child cs val)) e v

/-- Node-level part of `Trie.search`. -/
def searchW {β : Type} (n : TrieNode β) (w : Str) : Option β :=
  match findNode n w with
  | some nd => if nd.isEndOfWord then nd.value else none
  | none => none

/-- `Trie.deleteHelper`.  Returns the updated node, the source's boolean
result (whether the parent should delete this child), and whether a terminal
was actually unmarked (i.e. whether `wordCount` was decremented). -/
def deleteW {β : Type} : TrieNode β → Str → TrieNode β × Bool × Bool
  | .mk ch e v, [] =>
      if e then (.mk ch false none, ch.isEmpty, true)
      else (.mk ch e v, false, false)
  | .mk ch e v, c :: cs =>
      match jsGet ch c with
      | none => (.mk ch e v, false, false)
      | some child =>
          let r := deleteW child cs
          if r.2.1 then
            let ch2 := jsDel ch c
            (.mk ch2 e v, ch2.isEmpty && !e, r.2.2)
          else
            (.mk (jsSet ch c r.1) e v, false, r.2.2)

mutual
/-- `Trie.collectWords`: this node's value (if it ends a word) followed by the
values collected from the children in insertion order. -/
def collectWords {β : Type} : TrieNode β → List β
  | .mk ch e v => (if e then v.toList else []) ++ collectWordsList ch
/-- `collectWords` folded over a children map. -/
def collectWordsList {β : Type} : List (Char × TrieNode β) → List β
  | [] => []
  | (_, n) :: rest => collectWords n ++ collectWordsList rest
end

/-- The trie: a root node plus the word count. -/
structure Trie (β : Type) : Type where
  root : TrieNode β
  wordCount : Nat

/-- `new Trie()`. -/
def Trie.empty {β : Type} : Trie β := ⟨TrieNode.empty, 0⟩

/-- Whether the walk of `Trie.insert` would find the end-of-word flag already
set at the terminal node (in which case `wordCount` is not incremented). -/
def containsEndNode {β : Type} (n : TrieNode β) (w : Str) : Bool :=
  match findNode n w with
  | some nd => nd.isEndOfWord
  | none => false

/-- `Trie.insert`: normalize, insert, and bump the word count only when the
terminal node was not already an end of word. -/
def Trie.insert {β : Type} (t : Trie β) (word : Str) (v : β) : Trie β :=
  let nw := Trie.normalize word
  { root := insertW t.root nw v
    wordCount := if containsEndNode t.root nw then t.wordCount else t.wordCount + 1 }

/-- `Trie.search`: exact lookup after normalization. -/
def Trie.search {β : Type} (t : Trie β) (word : Str) : Option β :=
  searchW t.root (Trie.normalize word)

/-- `Trie.delete`: normalize and run `deleteHelper` from the root; the root
itself is never removed.  Returns the new trie and the source's boolean. -/
def Trie.delete {β : Type} (t : Trie β) (word : Str) : Trie β × Bool :=
  let r := deleteW t.root (Trie.normalize word)
  ({ root := r.1
     wordCount := if r.2.2 then t.wordCount - 1 else t.wordCount }, r.2.1)

/-- `Trie.getAllWords`: every stored value, in pre-order. -/
def Trie.getAllWords {β : Type} (t : Trie β) : List β := collectWords t.root

/-- `Trie.size`: the word count. -/
def Trie.size {β : Type} (t : Trie β) : Nat := t.wordCount

/-! ## AVL tree (`AVLTree<T>` of `AVLTree.ts`)

The source tree is keyed by JS strings compared with `<` / `>` (lexicographic);
the embedding is generic over a linearly ordered key type `α`, instantiated at
`Str` by the services.  Each node stores its height, as in the source; the
source's `updateHeight` (recompute a node's height from the stored heights of
its children) appears here as the smart constructor `mkNode`. -/

/-- A node of the AVL tree (`AVLNode<T>`): key, value, children, stored height. -/
inductive AVLNode (α β : Type) : Type where
  | nil : AVLNode α β
  | node (key : α) (value : β) (left right : AVLNode α β) (height : Nat) : AVLNode α β

/-- `getHeight`: the stored height, `0` for a missing node. -/
def getHeight {α β : Type} : AVLNode α β → Nat
  | .nil => 0
  | .node _ _ _ _ h => h

/-- `getBalanceFactor`: stored height of the left child minus the right. -/
def getBalanceFactor {α β : Type} : AVLNode α β → Int
  | .nil => 0
  | .node _ _ l r _ => (getHeight l : Int) - (getHeight r : Int)

/-- Build a node with `updateHeight` applied (height recomputed from the
children's stored heights). -/
def mkNode {α β : Type} (k : α) (v : β) (l r : AVLNode α β) : AVLNode α β :=
  .node k v l r (max (getHeight l) (getHeight r) + 1)

/-- `rotateRight`.  The source asserts `y.left` non-null (`y.left!`); it is
only called in that situation, and the embedding returns the input unchanged
otherwise. -/
def rotateRight {α β : Type} : AVLNode α β → AVLNode α β
  | .node k v (.node lk lv ll lr _) r _ => mkNode lk lv ll (mkNode k v lr r)
  | t => t

/-- `rotateLeft`, mirror image of `rotateRight`. -/
def rotateLeft {α β : Type} : AVLNode α β → AVLNode α β
  | .node k v l (.node rk rv rl rr _) _ => mkNode rk rv (mkNode k v l rl) rr
  | t => t

/-- `balance`: update the height, then dispatch on the four rotation cases
(left-left, left-right, right-right, right-left). -/
def balanceN {α β : Type} : AVLNode α β → AVLNode α β
  | .nil => .nil
  | .node k v l r _ =>
      let bf : Int := (getHeight l : Int) - (getHeight r : Int)
      if 1 < bf then
        if 0 ≤ getBalanceFactor l then rotateRight (mkNode k v l r)
        else rotateRight (mkNode k v (rotateLeft l) r)
      else if bf < -1 then
        if getBalanceFactor r ≤ 0 then rotateLeft (mkNode k v l r)
        else rotateLeft (mkNode k v l (rotateRight r))
      else mkNode k v l r

/-- `insertNode`: BST insert; an existing key has its value overwritten and
the node is returned without rebalancing, otherwise `balance` runs on the way
back up. -/
def insertNode {α β : Type} [LinearOrder α] : AVLNode α β → α → β → AVLNode α β
  | .nil, k, v => .node k v .nil .nil 1
  | .node nk nv l r h, k, v =>
      if k < nk then balanceN (.node nk nv (insertNode l k v) r h)
      else if nk < k then balanceN (.node nk nv l (insertNode r k v) h)
      else .node nk v l r h

/-- `searchNode`. -/
def searchNode {α β : Type} [LinearOrder α] : AVLNode α β → α → Option β
  | .nil, _ => none
  | .node nk nv l r _, k =>
      if k = nk then some nv
      else if k < nk then searchNode l k
      else searchNode r k

/-- `findMinNode`: the leftmost entry. -/
def findMinNode {α β : Type} : AVLNode α β → Option (α × β)
  | .nil => none
  | .node k v l _ _ =>
      match findMinNode l with
      | none => some (k, v)
      | some p => some p

/-- `deleteNode`: three-way delete (leaf / one child / two children, the last
replacing the node with its in-order successor), rebalancing on the way up.
As in the source, the leaf and one-child cases return the replacement
directly, without a `balance` call at this level. -/
def deleteNode {α β : Type} [LinearOrder α] : AVLNode α β → α → AVLNode α β
  | .nil, _ => .nil
  | .node nk nv l r h, k =>
      if k < nk then balanceN (.node nk nv (deleteNode l k) r h)
      else if nk < k then balanceN (.node nk nv l (deleteNode r k) h)
      else
        match l, r with
        | .nil, .nil => .nil
        | .nil, .node rk rv rl rr rh => .node rk rv rl rr rh
        | .node lk lv ll lr lh, .nil => .node lk lv ll lr lh
        | .node lk lv ll lr lh, .node rk rv rl rr rh =>
            match findMinNode (.node rk rv rl rr rh) with
            | none => .node nk nv l r h
            | some (mk, mv) =>
                balanceN (.node mk mv (.node lk lv ll lr lh)
                  (deleteNode (.node rk rv rl rr rh) mk) h)

/-- `inOrder` / `inOrderTraversal`: values in key order. -/
def inOrderN {α β : Type} : AVLNode α β → List β
  | .nil => []
  | .node _ v l r _ => inOrderN l ++ v :: inOrderN r

/-- `countNodes` (used by `size()`). -/
def sizeN {α β : Type} : AVLNode α β → Nat
  | .nil => 0
  | .node _ _ l r _ => 1 + sizeN l + sizeN r

/-- The AVL tree object: a root pointer. -/
structure AVLTree (α β : Type) : Type where
  root : AVLNode α β

/-- `new AVLTree()` (also the state after `clear()`). -/
def AVLTree.empty {α β : Type} : AVLTree α β := ⟨.nil⟩

/-- `AVLTree.insert`. -/
def AVLTree.insert {α β : Type} [LinearOrder α] (t : AVLTree α β) (k : α) (v : β) :
    AVLTree α β := ⟨insertNode t.root k v⟩

/-- `AVLTree.search`. -/
def AVLTree.search {α β : Type} [LinearOrder α] (t : AVLTree α β) (k : α) : Option β :=
  searchNode t.root k

/-- `AVLTree.delete`: the boolean result compares sizes before and after. -/
def AVLTree.delete {α β : Type} [LinearOrder α] (t : AVLTree α β) (k : α) :
    AVLTree α β × Bool :=
  let newRoot := deleteNode t.root k
  (⟨newRoot⟩, sizeN newRoot < sizeN t.root)

/-- `AVLTree.inOrderTraversal`. -/
def AVLTree.inOrderTraversal {α β : Type} (t : AVLTree α β) : List β :=
  inOrderN t.root

/-! ### Specification predicates for the AVL tree -/

/-- The true height of a tree, ignoring the stored `height` fields. -/
def realHeight {α β : Type} : AVLNode α β → Nat
  | .nil => 0
  | .node _ _ l r _ => max (realHeight l) (realHeight r) + 1

/-- Every stored `height` field equals the true height. -/
def HeightsOk {α β : Type} : AVLNode α β → Prop
  | .nil => True
  | .node _ _ l r h => HeightsOk l ∧ HeightsOk r ∧ h = max (realHeight l) (realHeight r) + 1

/-- The AVL balance invariant: at every node the true heights of the two
subtrees differ by at most one. -/
def BalancedT {α β : Type} : AVLNode α β → Prop
  | .nil => True
  | .node _ _ l r _ => BalancedT l ∧ BalancedT r ∧
      (realHeight l : Int) - (realHeight r : Int) ≤ 1 ∧
      (realHeight r : Int) - (realHeight l : Int) ≤ 1

/-- The entries of the tree, in symmetric (in-order) order. -/
def entriesN {α β : Type} : AVLNode α β → List (α × β)
  | .nil => []
  | .node k v l r _ => entriesN l ++ (k, v) :: entriesN r

/-- The keys of the tree, in symmetric order. -/
def keysN {α β : Type} (t : AVLNode α β) : List α := (entriesN t).map Prod.fst

/-- The binary-search-tree ordering invariant. -/
def OrderedT {α β : Type} [LinearOrder α] : AVLNode α β → Prop
  | .nil => True
  | .node k _ l r _ =>
      (∀ k' ∈ keysN l, k' < k) ∧ (∀ k' ∈ keysN r, k < k') ∧ OrderedT l ∧ OrderedT r

/-- Balanced with accurate height fields. -/
def AvlT {α β : Type} (t : AVLNode α β) : Prop := HeightsOk t ∧ BalancedT t

/-- One mutating operation on an `AVLTree`. -/
inductive TreeOp (α β : Type) : Type where
  | insert (k : α) (v : β) : TreeOp α β
  | delete (k : α) : TreeOp α β

/-- Run a sequence of insert/delete operations. -/
def applyTreeOps {α β : Type} [LinearOrder α] : AVLTree α β → List (TreeOp α β) → AVLTree α β
  | t, [] => t
  | t, .insert k v :: rest => applyTreeOps (t.insert k v) rest
  | t, .delete k :: rest => applyTreeOps (t.delete k).1 rest

/-! ## Linked list (`LinkedList<T>` of `LinkedList.ts`)

The singly linked list is modelled as a `List`; `append` is `· ++ [x]`,
`toArray`/`find`/`filter` are the evident list functions.  `removeBy` removes
the first element matching the predicate. -/

/-- `LinkedList.removeBy` (restricted to the resulting list; the source also
returns the removed element, which no caller in the core uses). -/
def removeBy {T : Type} : List T → (T → Bool) → List T
  | [], _ => []
  | x :: rest, p => if p x then rest else x :: removeBy rest p

/-! ## Book service (`BookServiceV2.ts`)

State of a `BookServiceV2` instance: an AVL tree keyed by ISBN, two tries over
title and author, and the insertion-order linked list.  Scalar fields of
`Book` that never influence control flow in the core (publication year,
publisher, page count, description, registration date) are omitted from the
record.  `generateId` (built from `Date.now()` and `Math.random()`) is
nondeterministic in the source, so the fresh id is taken as an argument.

In the source the same mutable `Book` object is referenced by all four
indices; the embedding stores by-value snapshots.  Operations key the indices
exactly as the source does, and `updateBook` refreshes `insertionOrder` (the
only index whose payloads the service reads back); tree/trie payloads of
*other* keys may go stale in the model, which no theorem below depends on --
they depend only on the keys of the indices and on the immutable `id` field
of the payloads. -/

/-- A book entity (the fields the core reads). -/
structure Book : Type where
  id : Str
  isbn : Str
  titulo : Str
  autor : Str
  categoria : Str
  copias : Nat
  copiasDisponibles : Nat
  estado : Str
deriving DecidableEq

/-- `CreateBookDTO` (the fields the core reads). -/
structure CreateBookDTO : Type where
  titulo : Str
  autor : Str
  isbn : Str
  categoria : Str
  copias : Nat
deriving DecidableEq

/-- The state of the `BookServiceV2` singleton. -/
structure BookServiceV2 : Type where
  booksByISBN : AVLTree Str Book
  booksByTitle : Trie Book
  booksByAuthor : Trie Book
  insertionOrder : List Book

/-- The state after `clear()` (also the state before sample data is seeded). -/
def BookServiceV2.clearState : BookServiceV2 :=
  ⟨AVLTree.empty, Trie.empty, Trie.empty, []⟩

/-- `addBook`: build the new book and insert it into all four indices.
There is no duplicate-ISBN check. -/
def BookServiceV2.addBook (s : BookServiceV2) (data : CreateBookDTO) (newId : Str) :
    Book × BookServiceV2 :=
  let newBook : Book :=
    { id := newId
      isbn := data.isbn
      titulo := data.titulo
      autor := data.autor
      categoria := data.categoria
      copias := data.copias
      copiasDisponibles := data.copias
      estado := str "disponible" }
  (newBook,
    { booksByISBN := s.booksByISBN.insert newBook.isbn newBook
      booksByTitle := s.booksByTitle.insert newBook.titulo newBook
      booksByAuthor := s.booksByAuthor.insert newBook.autor newBook
      insertionOrder := s.insertionOrder ++ [newBook] })

/-- `getAllBooks`: the insertion-order enumeration. -/
def BookServiceV2.getAllBooks (s : BookServiceV2) : List Book := s.insertionOrder

/-- `getAllBooksSorted`: in-order traversal of the ISBN tree. -/
def BookServiceV2.getAllBooksSorted (s : BookServiceV2) : List Book :=
  s.booksByISBN.inOrderTraversal

/-- `findBookById`: linear search of the insertion-order list. -/
def BookServiceV2.findBookById (s : BookServiceV2) (id : Str) : Option Book :=
  s.insertionOrder.find? (fun b => b.id == id)

/-- `searchByISBN`. -/
def BookServiceV2.searchByISBN (s : BookServiceV2) (isbn : Str) : Option Book :=
  s.booksByISBN.search isbn

/-- JavaScript truthiness of a string: non-empty. -/
def jsTruthy (s : Str) : Bool := !s.isEmpty

/-- `Partial<Book>` as consumed by `updateBook` (the indexed fields plus the
scalar fields the service may overwrite). -/
structure BookUpdate : Type where
  isbn : Option Str := none
  titulo : Option Str := none
  autor : Option Str := none
  categoria : Option Str := none
  copiasDisponibles : Option Nat := none
  estado : Option Str := none

/-- `Object.assign(book, updates)`. -/
def applyBookUpdate (b : Book) (u : BookUpdate) : Book :=
  { b with
    isbn := u.isbn.getD b.isbn
    titulo := u.titulo.getD b.titulo
    autor := u.autor.getD b.autor
    categoria := u.categoria.getD b.categoria
    copiasDisponibles := u.copiasDisponibles.getD b.copiasDisponibles
    estado := u.estado.getD b.estado }

/-- `updateBook`: re-key the ISBN tree / title trie / author trie when the
corresponding field is present (truthy) and different, then apply the update
to the book object (shared by reference in the source, modelled by refreshing
`insertionOrder` and inserting the updated snapshot under the new keys). -/
def BookServiceV2.updateBook (s : BookServiceV2) (id : Str) (u : BookUpdate) :
    Option Book × BookServiceV2 :=
  match s.findBookById id with
  | none => (none, s)
  | some book =>
      let newBook := applyBookUpdate book u
      let tree :=
        match u.isbn with
        | some ni =>
            if jsTruthy ni && ni != book.isbn then
              ((s.booksByISBN.delete book.isbn).1).insert ni newBook
            else s.booksByISBN
        | none => s.booksByISBN
      let titleTrie :=
        match u.titulo with
        | some nt =>
            if jsTruthy nt && nt != book.titulo then
              ((s.booksByTitle.delete book.titulo).1).insert nt newBook
            else s.booksByTitle
        | none => s.booksByTitle
      let authorTrie :=
        match u.autor with
        | some na =>
            if jsTruthy na && na != book.autor then
              ((s.booksByAuthor.delete book.autor).1).insert na newBook
            else s.booksByAuthor
        | none => s.booksByAuthor
      (some newBook,
        { booksByISBN := tree
          booksByTitle := titleTrie
          booksByAuthor := authorTrie
          insertionOrder := s.insertionOrder.map (fun b => if b.id == id then newBook else b) })

/-- `deleteBook`: remove the book from all four indices; `false` when the id
is unknown.  No business rule (loan status etc.) is consulted. -/
def BookServiceV2.deleteBook (s : BookServiceV2) (id : Str) : Bool × BookServiceV2 :=
  match s.findBookById id with
  | none => (false, s)
  | some book =>
      (true,
        { booksByISBN := (s.booksByISBN.delete book.isbn).1
          booksByTitle := (s.booksByTitle.delete book.titulo).1
          booksByAuthor := (s.booksByAuthor.delete book.autor).1
          insertionOrder := removeBy s.insertionOrder (fun b => b.id == id) })

/-! ## User service (`UserServiceV2.ts`) -/

/-- A user entity (the fields the core reads; phone and address omitted). -/
structure User : Type where
  id : Str
  nombre : Str
  apellido : Str
  email : Str
  activo : Bool
  prestamosActivos : Nat
  historialPrestamos : Nat
deriving DecidableEq

/-- `CreateUserDTO` (the fields the core reads). -/
structure CreateUserDTO : Type where
  nombre : Str
  apellido : Str
  email : Str
deriving DecidableEq

/-- `String.prototype.toLowerCase`, modelled as ASCII case folding (the
e-mail keys it is applied to are ASCII). -/
def jsToLowerCase (s : Str) : Str := s.map Char.toLower

/-- The state of the `UserServiceV2` singleton. -/
structure UserServiceV2 : Type where
  usersByEmail : AVLTree Str User
  usersByName : Trie User
  insertionOrder : List User

/-- The state after `clear()`. -/
def UserServiceV2.clearState : UserServiceV2 := ⟨AVLTree.empty, Trie.empty, []⟩

/-- `getFullName`. -/
def UserServiceV2.getFullName (nombre apellido : Str) : Str :=
  nombre ++ ' ' :: apellido

/-- `findUserById`. -/
def UserServiceV2.findUserById (s : UserServiceV2) (id : Str) : Option User :=
  s.insertionOrder.find? (fun u => u.id == id)

/-- `findByEmail`: case-insensitive lookup in the e-mail tree. -/
def UserServiceV2.findByEmail (s : UserServiceV2) (email : Str) : Option User :=
  s.usersByEmail.search (jsToLowerCase email)

/-- `getAllUsers`. -/
def UserServiceV2.getAllUsers (s : UserServiceV2) : List User := s.insertionOrder

/-- `addUser`: throws on a duplicate (case-insensitive) e-mail *before*
touching any index; otherwise inserts into all three indices. -/
def UserServiceV2.addUser (s : UserServiceV2) (data : CreateUserDTO) (newId : Str) :
    Except String (User × UserServiceV2) :=
  match s.findByEmail data.email with
  | some _ => .error "Ya existe un usuario con este email"
  | none =>
      let newUser : User :=
        { id := newId
          nombre := data.nombre
          apellido := data.apellido
          email := data.email
          activo := true
          prestamosActivos := 0
          historialPrestamos := 0 }
      .ok (newUser,
        { usersByEmail := s.usersByEmail.insert (jsToLowerCase data.email) newUser
          usersByName := s.usersByName.insert
            (UserServiceV2.getFullName newUser.nombre newUser.apellido) newUser
          insertionOrder := s.insertionOrder ++ [newUser] })

/-- `deleteUser`: `false` when the id is unknown; throws when the user has
active loans; otherwise removes the user from all three indices. -/
def UserServiceV2.deleteUser (s : UserServiceV2) (id : Str) :
    Except String (Bool × UserServiceV2) :=
  match s.findUserById id with
  | none => .ok (false, s)
  | some user =>
      if user.prestamosActivos > 0 then
        .error "No se puede eliminar un usuario con préstamos activos"
      else
        .ok (true,
          { usersByEmail := (s.usersByEmail.delete (jsToLowerCase user.email)).1
            usersByName := (s.usersByName.delete
              (UserServiceV2.getFullName user.nombre user.apellido)).1
            insertionOrder := removeBy s.insertionOrder (fun u => u.id == id) })

/-- `incrementActiveLoans`: bump the loan counters of the user object
(shared by reference in the source; the model refreshes the insertion-order
copy, the one every service read goes through). -/
def UserServiceV2.incrementActiveLoans (s : UserServiceV2) (userId : Str) :
    Bool × UserServiceV2 :=
  match s.findUserById userId with
  | none => (false, s)
  | some _ =>
      (true,
        { s with insertionOrder := s.insertionOrder.map (fun u =>
            if u.id == userId then
              { u with prestamosActivos := u.prestamosActivos + 1
                       historialPrestamos := u.historialPrestamos + 1 }
            else u) })

/-! ## Generic graph (`Graph<T>` of `graphs/Graph.ts`)

Node ids are JS strings (`Str`); the payload type `ν` and the numeric weight
type `W` are parameters (`number` in the source; the claims below use only
ordering, addition and -- for centrality and similarity -- exact division, so
they are stated over `Int` or `ℚ`).  The three `Map`s of the class become
association lists in insertion order. -/

/-- Adjacency-list graph: nodes, forward adjacency, reverse adjacency (used
by directed graphs), and the two configuration flags. -/
structure Graph (ν W : Type) : Type where
  nodes : List (Str × ν)
  adjacencyList : List (Str × List (Str × W))
  reverseAdjacencyList : List (Str × List (Str × W))
  isDirected : Bool
  isWeighted : Bool

/-- `new Graph(directed, weighted)`. -/
def Graph.mkEmpty {ν W : Type} (directed weighted : Bool) : Graph ν W :=
  ⟨[], [], [], directed, weighted⟩

/-- `hasNode`. -/
def Graph.hasNode {ν W : Type} (g : Graph ν W) (id : Str) : Bool :=
  (jsGet g.nodes id).isSome

/-- `addNode`: no-op when the id already exists. -/
def Graph.addNode {ν W : Type} (g : Graph ν W) (id : Str) (data : ν) : Graph ν W :=
  if g.hasNode id then g
  else
    { g with
      nodes := jsSet g.nodes id data
      adjacencyList := jsSet g.adjacencyList id []
      reverseAdjacencyList :=
        if g.isDirected then jsSet g.reverseAdjacencyList id []
        else g.reverseAdjacencyList }

/-- `getNeighbors`: the adjacency entry, or an empty map. -/
def Graph.getNeighbors {ν W : Type} (g : Graph ν W) (id : Str) : List (Str × W) :=
  (jsGet g.adjacencyList id).getD []

/-- `getEdgeWeight`. -/
def Graph.getEdgeWeight {ν W : Type} (g : Graph ν W) (source target : Str) : Option W :=
  jsGet (g.getNeighbors source) target

/-- `addEdge`: `false` when either endpoint is missing; an undirected graph
stores the edge in both adjacency entries, a directed one also updates the
reverse adjacency. -/
def Graph.addEdge {ν W : Type} [One W] (g : Graph ν W) (source target : Str) (weight : W) :
    Bool × Graph ν W :=
  if g.hasNode source && g.hasNode target then
    let finalWeight := if g.isWeighted then weight else 1
    let adj1 := jsSet g.adjacencyList source
      (jsSet ((jsGet g.adjacencyList source).getD []) target finalWeight)
    if g.isDirected then
      (true,
        { g with
          adjacencyList := adj1
          reverseAdjacencyList := jsSet g.reverseAdjacencyList target
            (jsSet ((jsGet g.reverseAdjacencyList target).getD []) source finalWeight) })
    else
      (true,
        { g with
          adjacencyList := jsSet adj1 target
            (jsSet ((jsGet adj1 target).getD []) source finalWeight) })
  else (false, g)

/-- `getDegree`. -/
def Graph.getDegree {ν W : Type} (g : Graph ν W) (id : Str) : Nat :=
  (g.getNeighbors id).length

/-- `getAllNodeIds`. -/
def Graph.getAllNodeIds {ν W : Type} (g : Graph ν W) : List Str := jsKeys g.nodes

/-- `getNodeCount`. -/
def Graph.getNodeCount {ν W : Type} (g : Graph ν W) : Nat := g.nodes.length

/-- `clear`. -/
def Graph.clear {ν W : Type} (g : Graph ν W) : Graph ν W :=
  ⟨[], [], [], g.isDirected, g.isWeighted⟩

/-- `getDegreeCentrality`: degree over `|V| - 1`, an *empty* map whenever
`|V| - 1 ≤ 0` (the division-by-zero guard returns before writing any entry). -/
def Graph.getDegreeCentrality {ν W : Type} (g : Graph ν W) : List (Str × ℚ) :=
  let maxPossibleDegree : Int := (g.nodes.length : Int) - 1
  if maxPossibleDegree ≤ 0 then []
  else (Graph.getAllNodeIds g).map
    (fun id => (id, (g.getDegree id : ℚ) / (maxPossibleDegree : ℚ)))

/-! ### Dijkstra (`Graph.dijkstra`)

`Infinity` is `none : Option W`; `jsLt` is the JS `<` on
distances.  The `while (true)` loop runs on fuel `|V| + 1`; a later lemma
shows the fuel is never exhausted (each iteration visits a fresh node), so
the fueled loop equals the source's unbounded loop. -/

/-- JS `<` on distances with `Infinity` as `none`. -/
def jsLt {W : Type} [LT W] [∀ a b : W, Decidable (a < b)] : Option W → Option W → Bool
  | none, _ => false
  | some _, none => true
  | some a, some b => decide (a < b)

/-- `getMinNode`'s scan: walk the distance map in insertion order, keeping
the first strict improvement over the best so far. -/
def getMinLoop {W : Type} [LT W] [∀ a b : W, Decidable (a < b)]
    (dist : Str → Option W) (visited : List Str) :
    List Str → Option Str → Option W → Option Str
  | [], best, _ => best
  | id :: rest, best, bestD =>
      if !(visited.contains id) && jsLt (dist id) bestD then
        getMinLoop dist visited rest (some id) (dist id)
      else getMinLoop dist visited rest best bestD

/-- `getMinNode`: the unvisited node of minimal finite distance (`none` when
every unvisited node is at `Infinity`). -/
def getMinNode {W : Type} [LT W] [∀ a b : W, Decidable (a < b)]
    (nodeIds : List Str) (dist : Str → Option W) (visited : List Str) : Option Str :=
  getMinLoop dist visited nodeIds none none

/-- Pointwise update of a function. -/
def updFn {γ : Type} [DecidableEq Str] (f : Str → γ) (k : Str) (v : γ) : Str → γ :=
  fun x => if x = k then v else f x

/-- The neighbor loop of one Dijkstra iteration: relax every unvisited
neighbor of `current`. -/
def relaxNeighbors {W : Type} [Add W] [LT W] [∀ a b : W, Decidable (a < b)]
    (nbrs : List (Str × W)) (current : Str) (curDist : W)
    (dist : Str → Option W) (prev : Str → Option Str) (visited : List Str) :
    (Str → Option W) × (Str → Option Str) :=
  nbrs.foldl
    (fun dp nb =>
      if visited.contains nb.1 then dp
      else
        let newDist := curDist + nb.2
        if jsLt (some newDist) (dp.1 nb.1) then
          (updFn dp.1 nb.1 (some newDist), updFn dp.2 nb.1 (some current))
        else dp)
    (dist, prev)

/-- Truthiness test of the optional `endId` followed by `current === endId`
(an empty-string `endId` is falsy in JS and never triggers the early exit). -/
def endReached (endId : Option Str) (current : Str) : Bool :=
  match endId with
  | some e => jsTruthy e && e == current
  | none => false

/-- The `while (true)` loop of `dijkstra`, on fuel. -/
def dijkstraLoop {ν W : Type} [Add W] [LT W] [∀ a b : W, Decidable (a < b)]
    (g : Graph ν W) (endId : Option Str) :
    Nat → (Str → Option W) → (Str → Option Str) → List Str →
    (Str → Option W) × (Str → Option Str)
  | 0, dist, prev, _ => (dist, prev)
  | fuel + 1, dist, prev, visited =>
      match getMinNode (Graph.getAllNodeIds g) dist visited with
      | none => (dist, prev)
      | some current =>
          if endReached endId current then (dist, prev)
          else
            match dist current with
            | none => (dist, prev)
            | some cd =>
                let dp := relaxNeighbors (g.getNeighbors current) current cd
                  dist prev (current :: visited)
                dijkstraLoop g endId fuel dp.1 dp.2 (current :: visited)

/-- Rebuild the path to `n` by walking the `previous` pointers (the source's
`while (current !== null) path.unshift(current)`), on fuel. -/
def buildPath (prev : Str → Option Str) : Nat → Str → List Str
  | 0, n => [n]
  | fuel + 1, n =>
      match prev n with
      | none => [n]
      | some p => buildPath prev fuel p ++ [n]

/-- `dijkstra(startId, endId?)`: empty result when the start node is absent;
otherwise the finite-distance entries, each with its distance and its
reconstructed path, in node insertion order. -/
def Graph.dijkstra {ν W : Type} [Zero W] [Add W] [LT W] [∀ a b : W, Decidable (a < b)]
    (g : Graph ν W) (startId : Str) (endId : Option Str) :
    List (Str × W × List Str) :=
  if g.hasNode startId then
    let dist0 : Str → Option W := fun n => if n = startId then some 0 else none
    let prev0 : Str → Option Str := fun _ => none
    let dp := dijkstraLoop g endId (g.nodes.length + 1) dist0 prev0 []
    (Graph.getAllNodeIds g).filterMap (fun n =>
      match dp.1 n with
      | none => none
      | some d => some (n, d, buildPath dp.2 g.nodes.length n))
  else []

/-- `getShortestPath`: the `target` entry of `dijkstra(source, target)`. -/
def Graph.getShortestPath {ν W : Type} [Zero W] [Add W] [LT W]
    [∀ a b : W, Decidable (a < b)] (g : Graph ν W) (source target : Str) :
    Option (W × List Str) :=
  jsGet (g.dijkstra source (some target)) target

/-! ### Specification predicates for graphs -/

/-- A walk through existing edges (a single present node is a valid walk). -/
def chainOk {ν W : Type} (g : Graph ν W) : List Str → Prop
  | [] => False
  | [n] => g.hasNode n = true
  | a :: b :: rest => (g.getEdgeWeight a b).isSome = true ∧ chainOk g (b :: rest)

/-- The summed edge weights along a walk. -/
def pathWeight {ν W : Type} [Add W] [Zero W] (g : Graph ν W) : List Str → W
  | a :: b :: rest => (g.getEdgeWeight a b).getD 0 + pathWeight g (b :: rest)
  | _ => 0

/-- All stored edge weights are positive. -/
def Graph.positiveWeights {ν W : Type} [Zero W] [LT W] (g : Graph ν W) : Prop :=
  ∀ p ∈ g.adjacencyList, ∀ q ∈ p.2, (0 : W) < q.2

/-- Class invariant of `Graph` (maintained by the mutators): node keys and
adjacency keys are duplicate-free and every adjacency entry references
existing nodes. -/
def Graph.wellFormed {ν W : Type} (g : Graph ν W) : Prop :=
  (jsKeys g.nodes).Nodup ∧ (jsKeys g.adjacencyList).Nodup ∧
    (∀ p ∈ g.adjacencyList,
      p.1 ∈ jsKeys g.nodes ∧ (jsKeys p.2).Nodup ∧ ∀ q ∈ p.2, q.1 ∈ jsKeys g.nodes)

/-- A walk from `s` to `n` through existing edges. -/
def isPath {ν W : Type} (g : Graph ν W) (s n : Str) (p : List Str) : Prop :=
  chainOk g p ∧ p.head? = some s ∧ p.getLast? = some n

/-- `p` is the node list obtained by following `previous` pointers from `n`
back to the source `s` (in forward order, as `buildPath` produces it). -/
inductive PrevPath (prev : Str → Option Str) (s : Str) : Str → List Str → Prop where
  | base : prev s = none → PrevPath prev s s [s]
  | step {m n : Str} {p : List Str} :
      PrevPath prev s m p → prev n = some m → PrevPath prev s n (p ++ [n])

/-- The loop invariant of `dijkstra` (weights specialized to `Int`): visited
nodes are distinct graph nodes with finite distances; the source is pinned at
distance `0`; every finite distance is witnessed by a `previous`-chain that is
a duplicate-free walk from the source with matching total weight and visited
interior; every edge out of a visited node is relaxed; visited distances are
no larger than unvisited ones; and visited distances are optimal. -/
def DijkInv {ν : Type} (g : Graph ν Int) (s : Str) (dist : Str → Option Int)
    (prev : Str → Option Str) (visited : List Str) : Prop :=
  visited.Nodup ∧ (∀ v ∈ visited, v ∈ jsKeys g.nodes) ∧
  dist s = some 0 ∧ prev s = none ∧
  (∀ v ∈ visited, (dist v).isSome = true) ∧
  (∀ n w, dist n = some w → ∃ p, PrevPath prev s n p ∧ chainOk g p ∧
      p.head? = some s ∧ p.getLast? = some n ∧ pathWeight g p = w ∧ p.Nodup ∧
      (∀ x ∈ p.dropLast, x ∈ visited)) ∧
  (∀ v ∈ visited, ∀ dv, dist v = some dv → ∀ u wuv, g.getEdgeWeight v u = some wuv →
      ∃ du, dist u = some du ∧ du ≤ dv + wuv) ∧
  (∀ v ∈ visited, ∀ u, u ∈ jsKeys g.nodes → u ∉ visited →
      jsLt (dist u) (dist v) = false) ∧
  (∀ v ∈ visited, ∀ dv, dist v = some dv → ∀ q, isPath g s v q → dv ≤ pathWeight g q)

/-! ## Jaccard similarity (`similarity.ts`) -/

/-- `jaccardIndex`: `|A ∩ B| / (|A| + |B| - |A ∩ B|)`, `0` when both sets are
empty (and when the union is empty). -/
def jaccardIndex (setA setB : Finset Str) : ℚ :=
  if setA.card = 0 ∧ setB.card = 0 then 0
  else
    let intersection : ℚ := ((setA ∩ setB).card : ℚ)
    let union : ℚ := (setA.card : ℚ) + (setB.card : ℚ) - intersection
    if union = 0 then 0 else intersection / union

/-! ## Graph service (`GraphService.ts`)

Three graphs (the directed user-to-book bipartite graph and the two
undirected similarity graphs) plus the two membership maps.  Weights are
`ℚ`. -/

/-- Node payload: classification plus entity id. -/
structure NodeData : Type where
  type : Str
  entityId : Str
deriving DecidableEq

/-- The state of the `GraphService` singleton. -/
structure GraphService : Type where
  userBookGraph : Graph NodeData ℚ
  bookSimilarityGraph : Graph NodeData ℚ
  userSimilarityGraph : Graph NodeData ℚ
  userBooks : List (Str × Finset Str)
  bookUsers : List (Str × Finset Str)

/-- The freshly constructed service: a directed weighted bipartite graph and
two undirected weighted similarity graphs. -/
def GraphService.initState : GraphService :=
  ⟨Graph.mkEmpty true true, Graph.mkEmpty false true, Graph.mkEmpty false true, [], []⟩

/-- `GraphService.addUser`: register the node lazily and initialize the
membership set if absent. -/
def GraphService.addUser (s : GraphService) (userId : Str) : GraphService :=
  let nodeData : NodeData := ⟨str "user", userId⟩
  { s with
    userBookGraph := s.userBookGraph.addNode userId nodeData
    userSimilarityGraph := s.userSimilarityGraph.addNode userId nodeData
    userBooks :=
      if (jsGet s.userBooks userId).isSome then s.userBooks
      else jsSet s.userBooks userId ∅ }

/-- `GraphService.addBook`. -/
def GraphService.addBook (s : GraphService) (bookId : Str) : GraphService :=
  let nodeData : NodeData := ⟨str "book", bookId⟩
  { s with
    userBookGraph := s.userBookGraph.addNode bookId nodeData
    bookSimilarityGraph := s.bookSimilarityGraph.addNode bookId nodeData
    bookUsers :=
      if (jsGet s.bookUsers bookId).isSome then s.bookUsers
      else jsSet s.bookUsers bookId ∅ }

/-- `updateBookSimilarities`: recompute the Jaccard similarity of the changed
book against every other book with a non-empty reader set, writing an edge
when it is positive. -/
def GraphService.updateBookSimilarities (s : GraphService) (bookId : Str) : GraphService :=
  match jsGet s.bookUsers bookId with
  | none => s
  | some usersOfBook =>
      if usersOfBook.card = 0 then s
      else
        { s with
          bookSimilarityGraph :=
            s.bookUsers.foldl
              (fun g p =>
                if p.1 == bookId then g
                else if p.2.card = 0 then g
                else
                  let similarity := jaccardIndex usersOfBook p.2
                  if 0 < similarity then (g.addEdge bookId p.1 similarity).2 else g)
              s.bookSimilarityGraph }

/-- `updateUserSimilarities`, the mirror image on the user side. -/
def GraphService.updateUserSimilarities (s : GraphService) (userId : Str) : GraphService :=
  match jsGet s.userBooks userId with
  | none => s
  | some booksOfUser =>
      if booksOfUser.card = 0 then s
      else
        { s with
          userSimilarityGraph :=
            s.userBooks.foldl
              (fun g p =>
                if p.1 == userId then g
                else if p.2.card = 0 then g
                else
                  let similarity := jaccardIndex booksOfUser p.2
                  if 0 < similarity then (g.addEdge userId p.1 similarity).2 else g)
              s.userSimilarityGraph }

/-- `recordLoan`: lazy node creation, bipartite edge-weight increment,
membership update, then the two incremental similarity recomputations. -/
def GraphService.recordLoan (s : GraphService) (userId bookId : Str) : GraphService :=
  let s1 := (s.addUser userId).addBook bookId
  let currentWeight := (s1.userBookGraph.getEdgeWeight userId bookId).getD 0
  let s2 := { s1 with
    userBookGraph := (s1.userBookGraph.addEdge userId bookId (currentWeight + 1)).2 }
  let s3 := { s2 with
    userBooks := jsSet s2.userBooks userId
      (insert bookId ((jsGet s2.userBooks userId).getD ∅))
    bookUsers := jsSet s2.bookUsers bookId
      (insert userId ((jsGet s2.bookUsers bookId).getD ∅)) }
  (s3.updateBookSimilarities bookId).updateUserSimilarities userId

/-- The ordered pairs `i < j` of a list, as iterated by the double loops of
`rebuildSimilarityGraphs`. -/
def allPairs {T : Type} : List T → List (T × T)
  | [] => []
  | x :: rest => rest.map (fun y => (x, y)) ++ allPairs rest

/-- `rebuildSimilarityGraphs`: clear both similarity graphs, re-add one node
per membership key, then write an edge for every unordered pair with positive
Jaccard similarity.  (The source reads each pair's sets back out of the
membership map by key; keys are unique, so iterating the entry pairs is the
same.) -/
def GraphService.rebuildSimilarityGraphs (s : GraphService) : GraphService :=
  let bookSim0 := s.bookUsers.foldl
    (fun g p => g.addNode p.1 ⟨str "book", p.1⟩) s.bookSimilarityGraph.clear
  let userSim0 := s.userBooks.foldl
    (fun g p => g.addNode p.1 ⟨str "user", p.1⟩) s.userSimilarityGraph.clear
  let bookSim1 := (allPairs s.bookUsers).foldl
    (fun g pq =>
      let similarity := jaccardIndex pq.1.2 pq.2.2
      if 0 < similarity then (g.addEdge pq.1.1 pq.2.1 similarity).2 else g)
    bookSim0
  let userSim1 := (allPairs s.userBooks).foldl
    (fun g pq =>
      let similarity := jaccardIndex pq.1.2 pq.2.2
      if 0 < similarity then (g.addEdge pq.1.1 pq.2.1 similarity).2 else g)
    userSim0
  { s with bookSimilarityGraph := bookSim1, userSimilarityGraph := userSim1 }

/-- The middle section of `recordLoan` (bipartite edge increment and the two
membership-set insertions), split out so the loan pipeline can be named
stage by stage. -/
def GraphService.withLoanData (s : GraphService) (userId bookId : Str) : GraphService :=
  { s with
    userBookGraph := (s.userBookGraph.addEdge userId bookId
      (((s.userBookGraph.getEdgeWeight userId bookId).getD 0) + 1)).2
    userBooks := jsSet s.userBooks userId
      (insert bookId ((jsGet s.userBooks userId).getD ∅))
    bookUsers := jsSet s.bookUsers bookId
      (insert userId ((jsGet s.bookUsers bookId).getD ∅)) }

/-- Record a batch of loan events one by one (the incremental path). -/
def GraphService.applyLoans : GraphService → List (Str × Str) → GraphService
  | s, [] => s
  | s, (u, b) :: rest => GraphService.applyLoans (s.recordLoan u b) rest

/-- Specification of `insertNode` at the level of sorted entry lists: insert
at position, overwriting an equal key. -/
def insertSorted {α β : Type} [LinearOrder α] : List (α × β) → α → β → List (α × β)
  | [], k, v => [(k, v)]
  | (k', v') :: rest, k, v =>
      if k < k' then (k, v) :: (k', v') :: rest
      else if k' < k then (k', v') :: insertSorted rest k v
      else (k, v) :: rest

/-- Specification of `deleteNode` at the level of entry lists: erase the
first entry with the given key. -/
def eraseKey {α β : Type} [DecidableEq α] : List (α × β) → α → List (α × β)
  | [], _ => []
  | (k', v') :: rest, k => if k' = k then rest else (k', v') :: eraseKey rest k

/-- Specification of both similarity paths: the similarity graph over a
membership map `m` has an edge between two distinct keys exactly when their
Jaccard index is positive, weighted by that index. -/
def simEdgeSpec (m : List (Str × Finset Str)) (a b : Str) : Option ℚ :=
  match jsGet m a, jsGet m b with
  | some sa, some sb =>
      if a ≠ b ∧ 0 < jaccardIndex sa sb then some (jaccardIndex sa sb) else none
  | _, _ => none

/-- Adjacency keys reference existing nodes (part of the `Graph` class
invariant, preserved by the mutators). -/
def adjSub {ν W : Type} (g : Graph ν W) : Prop :=
  ∀ p ∈ g.adjacencyList, (jsGet g.nodes p.1).isSome = true

/-- Replay a list of `(source, target, weight)` edge writes through
`Graph.addEdge` — the elementary shape shared by the two similarity-update
folds and by the rebuild double loop. -/
def applyWrites {ν : Type} (g : Graph ν ℚ) : List (Str × Str × ℚ) → Graph ν ℚ
  | [] => g
  | w :: rest => applyWrites ((g.addEdge w.1 w.2.1 w.2.2).2) rest

/-- The edge writes performed by the fold of
`updateBookSimilarities`/`updateUserSimilarities` for a changed key `base`
whose membership set is `U`: one write per other non-empty entry with
positive Jaccard similarity. -/
def simWrites (base : Str) (U : Finset Str) : List (Str × Finset Str) → List (Str × Str × ℚ)
  | [] => []
  | p :: rest =>
      if p.1 = base then simWrites base U rest
      else if p.2.card = 0 then simWrites base U rest
      else if 0 < jaccardIndex U p.2 then
        (base, p.1, jaccardIndex U p.2) :: simWrites base U rest
      else simWrites base U rest

/-- The edge writes performed by the double loop of
`rebuildSimilarityGraphs`: for every ordered pair of entries, a write when the
Jaccard similarity is positive. -/
def rebuildWrites : List (Str × Finset Str) → List (Str × Str × ℚ)
  | [] => []
  | p :: rest =>
      rest.filterMap (fun q =>
        if 0 < jaccardIndex p.2 q.2 then some (p.1, q.1, jaccardIndex p.2 q.2)
        else none)
      ++ rebuildWrites rest

/-- `optOr o d`: the first option if present, else the second. -/
def optOr {γ : Type} : Option γ → Option γ → Option γ
  | some x, _ => some x
  | none, y => y

/-- What one row of similarity writes leaves at a queried pair: the fresh
Jaccard value when the other endpoint's set is present with positive
similarity, the previous weight otherwise. -/
def entryAdj (U : Finset Str) (o : Option (Finset Str)) (dflt : Option ℚ) : Option ℚ :=
  match o with
  | some S => if 0 < jaccardIndex U S then some (jaccardIndex U S) else dflt
  | none => dflt

/-- Pointwise description of the graph produced by one similarity-update fold
(`simWrites base U l` applied to `g`). -/
def simFoldSpec {ν : Type} (b : Str) (U : Finset Str) (l : List (Str × Finset Str))
    (g : Graph ν ℚ) (a c : Str) : Option ℚ :=
  if a = b ∧ c ≠ b then entryAdj U (jsGet l c) (g.getEdgeWeight a c)
  else if c = b ∧ a ≠ b then entryAdj U (jsGet l a) (g.getEdgeWeight a c)
  else g.getEdgeWeight a c

/-- The invariant tying an incremental similarity graph to its membership
map: configuration flags, adjacency well-formedness, node set = key set, and
edge weights given pointwise by `simEdgeSpec`. -/
def simInv (g : Graph NodeData ℚ) (m : List (Str × Finset Str)) : Prop :=
  g.isDirected = false ∧ g.isWeighted = true ∧ adjSub g ∧ (jsKeys m).Nodup ∧
  (∀ x : Str, g.hasNode x = (jsGet m x).isSome) ∧
  (∀ a c : Str, g.getEdgeWeight a c = simEdgeSpec m a c)

/-- The service-level invariant of the incremental path. -/
def srvInv (s : GraphService) : Prop :=
  simInv s.bookSimilarityGraph s.bookUsers ∧ simInv s.userSimilarityGraph s.userBooks

/-! ### Index consistency of the book store (claim C2)

`trieWF` is the structural class invariant of the trie (duplicate-free
children keys at every level; `insert` and `delete` touch children maps only
through `jsSet`/`jsDel`).  `treeAgrees`/`trieAgrees` say that an index holds
exactly the live entities under a key function, at the level of entity ids
(payload snapshots of other keys may be stale, but the `id` field is
immutable).  `bookOpOk` is the precondition under which an operation keeps
the indices in sync: fresh id and fresh (normalized) keys for `add`; for
`update`, a changed indexed field must be truthy and collision-free.  The
similarity of two entities' natural keys is exactly what the counterexample
violates. -/

mutual
/-- Duplicate-free children keys, at every level of the trie. -/
def trieWF {β : Type} : TrieNode β → Prop
  | .mk ch _ _ => (jsKeys ch).Nodup ∧ trieWFList ch
/-- `trieWF` over a children map. -/
def trieWFList {β : Type} : List (Char × TrieNode β) → Prop
  | [] => True
  | (_, n) :: rest => trieWF n ∧ trieWFList rest
end

mutual
/-- Node count of a trie (an induction measure). -/
def trieSize {β : Type} : TrieNode β → Nat
  | .mk ch _ _ => 1 + trieSizeList ch
/-- `trieSize` over a children map. -/
def trieSizeList {β : Type} : List (Char × TrieNode β) → Nat
  | [] => 0
  | (_, n) :: rest => trieSize n + trieSizeList rest
end

/-- One operation on the book store. -/
inductive BookOp : Type where
  | add (data : CreateBookDTO) (newId : Str)
  | update (id : Str) (u : BookUpdate)
  | delete (id : Str)

/-- Apply one operation, dropping the returned entity/boolean. -/
def applyBookOp (s : BookServiceV2) : BookOp → BookServiceV2
  | .add data newId => (s.addBook data newId).2
  | .update id u => (s.updateBook id u).2
  | .delete id => (s.deleteBook id).2

/-- Apply a sequence of operations. -/
def applyBookOps (s : BookServiceV2) : List BookOp → BookServiceV2
  | [] => s
  | op :: rest => applyBookOps (applyBookOp s op) rest

/-- The normalized title key of a book in the title trie. -/
def titleKey (b : Book) : Str := Trie.normalize b.titulo

/-- The normalized author key of a book in the author trie. -/
def autorKey (b : Book) : Str := Trie.normalize b.autor

/-- The tree holds exactly the live entities, keyed by `key` (id-level). -/
def treeAgrees (t : AVLNode Str Book) (L : List Book) (key : Book → Str) : Prop :=
  (∀ b ∈ L, ∃ v, searchNode t (key b) = some v ∧ v.id = b.id)
  ∧ (∀ k v, searchNode t k = some v → ∃ b ∈ L, key b = k ∧ b.id = v.id)

/-- The trie holds exactly the live entities, keyed by `key` (id-level). -/
def trieAgrees (n : TrieNode Book) (L : List Book) (key : Book → Str) : Prop :=
  (∀ b ∈ L, ∃ v, searchW n (key b) = some v ∧ v.id = b.id)
  ∧ (∀ w v, searchW n w = some v → ∃ b ∈ L, key b = w ∧ b.id = v.id)

/-- The store invariant behind index consistency: well-formed indices,
duplicate-free ids and (normalized) natural keys, and id-level agreement of
the three keyed indices with the insertion-order list. -/
def storeInv (s : BookServiceV2) : Prop :=
  OrderedT s.booksByISBN.root
  ∧ trieWF s.booksByTitle.root ∧ trieWF s.booksByAuthor.root
  ∧ (s.insertionOrder.map Book.id).Nodup
  ∧ (s.insertionOrder.map Book.isbn).Nodup
  ∧ (s.insertionOrder.map titleKey).Nodup
  ∧ (s.insertionOrder.map autorKey).Nodup
  ∧ treeAgrees s.booksByISBN.root s.insertionOrder Book.isbn
  ∧ trieAgrees s.booksByTitle.root s.insertionOrder titleKey
  ∧ trieAgrees s.booksByAuthor.root s.insertionOrder autorKey

/-- Freshness precondition of one operation against the current state. -/
def bookOpOk (s : BookServiceV2) : BookOp → Prop
  | .add data newId =>
      (∀ b ∈ s.insertionOrder, b.id ≠ newId)
      ∧ (∀ b ∈ s.insertionOrder, b.isbn ≠ data.isbn)
      ∧ (∀ b ∈ s.insertionOrder, titleKey b ≠ Trie.normalize data.titulo)
      ∧ (∀ b ∈ s.insertionOrder, autorKey b ≠ Trie.normalize data.autor)
  | .update id u =>
      (match s.findBookById id with
       | none => True
       | some book =>
          (∀ ni, u.isbn = some ni → ni ≠ book.isbn →
            jsTruthy ni = true ∧ ∀ b ∈ s.insertionOrder, b.id ≠ book.id → b.isbn ≠ ni)
          ∧ (∀ nt, u.titulo = some nt → nt ≠ book.titulo →
            jsTruthy nt = true ∧ ∀ b ∈ s.insertionOrder, b.id ≠ book.id →
              titleKey b ≠ Trie.normalize nt)
          ∧ (∀ na, u.autor = some na → na ≠ book.autor →
            jsTruthy na = true ∧ ∀ b ∈ s.insertionOrder, b.id ≠ book.id →
              autorKey b ≠ Trie.normalize na))
  | .delete _ => True

/-- `bookOpOk` holding at every intermediate state of a sequence. -/
def opsOk (s : BookServiceV2) : List BookOp → Prop
  | [] => True
  | op :: rest => bookOpOk s op ∧ opsOk (applyBookOp s op) rest

/-- The `Book` record built by `addBook`. -/
def mkBook (data : CreateBookDTO) (newId : Str) : Book :=
  { id := newId
    isbn := data.isbn
    titulo := data.titulo
    autor := data.autor
    categoria := data.categoria
    copias := data.copias
    copiasDisponibles := data.copias
    estado := str "disponible" }

/-- A three-operation scenario (two fresh adds and a delete) for the amended
index-consistency theorem. -/
def c2WitnessOps : List BookOp :=
  [BookOp.add ⟨str "T1", str "A1", str "I1", str "C", 1⟩ (str "B1"),
   BookOp.add ⟨str "T2", str "A2", str "I2", str "C", 1⟩ (str "B2"),
   BookOp.delete (str "B1")]

/-- Two books with distinct ISBNs and authors but the *same* title, added in
sequence (the C2 counterexample state). -/
def bookStoreSameTitle : BookServiceV2 :=
  ((BookServiceV2.clearState.addBook
      ⟨str "T", str "A1", str "I1", str "C", 1⟩ (str "B1")).2.addBook
      ⟨str "T", str "A2", str "I2", str "C", 1⟩ (str "B2")).2

/-- A concrete weighted undirected graph exercising `dijkstra`'s early exit:
nodes `s`, `e`, `x`, edges `s–e` (1), `s–x` (10), `e–x` (1). -/
def dijkCounterGraph : Graph Unit Int :=
  let g3 := (((Graph.mkEmpty false true).addNode (str "s") ()).addNode
      (str "e") ()).addNode (str "x") ()
  let g4 := (g3.addEdge (str "s") (str "e") 1).2
  let g5 := (g4.addEdge (str "s") (str "x") 10).2
  (g5.addEdge (str "e") (str "x") 1).2

/-- A single-node weighted undirected graph. -/
def dijkWitnessGraph : Graph Unit Int :=
  (Graph.mkEmpty false true).addNode (str "s") ()

/-! ********************************************************************
## Proof part

Everything below this line is a theorem; everything above is a definition.
******************************************************************** -/

/-! ### Association-list (`Map`) lemmas -/

theorem jsGet_jsSet_self {κ γ : Type} [DecidableEq κ] (l : List (κ × γ)) (k : κ) (v : γ) :
    jsGet (jsSet l k v) k = some v := by
  induction l with
  | nil => simp [jsSet, jsGet]
  | cons p rest ih =>
    obtain ⟨pk, pv⟩ := p
    by_cases h : pk = k <;> simp [jsSet, jsGet, h, ih]

theorem jsGet_jsSet_ne {κ γ : Type} [DecidableEq κ] (l : List (κ × γ)) {k k' : κ} (v : γ)
    (h : k' ≠ k) : jsGet (jsSet l k v) k' = jsGet l k' := by
  induction l with
  | nil =>
    have hkk : ¬ (k = k') := fun h' => h h'.symm
    simp [jsSet, jsGet, hkk]
  | cons p rest ih =>
    obtain ⟨pk, pv⟩ := p
    by_cases h1 : pk = k
    · subst h1
      have h2 : ¬ (pk = k') := fun h' => h h'.symm
      simp [jsSet, jsGet, h2]
    · simp [jsSet, jsGet, h1, ih]

theorem jsGet_jsSet {κ γ : Type} [DecidableEq κ] (l : List (κ × γ)) (k k' : κ) (v : γ) :
    jsGet (jsSet l k v) k' = if k' = k then some v else jsGet l k' := by
  by_cases h : k' = k
  · subst h; simp [jsGet_jsSet_self]
  · simp [h, jsGet_jsSet_ne l v h]

theorem jsGet_jsDel {κ γ : Type} [DecidableEq κ] (l : List (κ × γ)) (k k' : κ) :
    jsGet (jsDel l k) k' = if k' = k then none else jsGet l k' := by
  induction l with
  | nil => simp [jsDel, jsGet]
  | cons p rest ih =>
    obtain ⟨pk, pv⟩ := p
    by_cases h1 : pk = k
    · subst h1
      rw [show jsDel ((pk, pv) :: rest) pk = jsDel rest pk from by simp [jsDel], ih]
      split_ifs with h2
      · rfl
      · have h3 : ¬ (pk = k') := fun hh => h2 hh.symm
        simp [jsGet, h3]
    · rw [show jsDel ((pk, pv) :: rest) k = (pk, pv) :: jsDel rest k from by simp [jsDel, h1]]
      simp only [jsGet, ih]
      split_ifs with h2 h3
      · exact absurd (h2.trans h3) h1
      · rfl
      · rfl
      · rfl

theorem jsSet_jsSet {κ γ : Type} [DecidableEq κ] (l : List (κ × γ)) (k : κ) (a b : γ) :
    jsSet (jsSet l k a) k b = jsSet l k b := by
  induction l with
  | nil => simp [jsSet]
  | cons p rest ih =>
    obtain ⟨pk, pv⟩ := p
    by_cases h : pk = k <;> simp [jsSet, h, ih]

theorem jsGet_eq_none_of_not_mem {κ γ : Type} [DecidableEq κ]
    (l : List (κ × γ)) (k : κ) (h : k ∉ jsKeys l) : jsGet l k = none := by
  induction l with
  | nil => rfl
  | cons p rest ih =>
    simp [jsKeys] at h
    have h1 : ¬ p.1 = k := fun h' => h.1 h'.symm
    have h2 := ih (by simp [jsKeys]; exact h.2)
    obtain ⟨pk, pv⟩ := p
    simp_all [jsGet]

theorem mem_of_jsGet_eq_some {κ γ : Type} [DecidableEq κ]
    {l : List (κ × γ)} {k : κ} {v : γ} (h : jsGet l k = some v) : (k, v) ∈ l := by
  induction l with
  | nil => simp [jsGet] at h
  | cons p rest ih =>
    obtain ⟨pk, pv⟩ := p
    by_cases h1 : pk = k
    · subst h1
      simp [jsGet] at h
      simp [h]
    · simp [jsGet, h1] at h
      exact List.mem_cons_of_mem _ (ih h)


/-! ### Trie lemmas -/

theorem searchW_nil {β : Type} (n : TrieNode β) :
    searchW n [] = if n.isEndOfWord then n.value else none := by
  cases n
  rfl

theorem searchW_cons {β : Type} (n : TrieNode β) (c : Char) (cs : Str) :
    searchW n (c :: cs) =
      match jsGet n.children c with
      | some child => searchW child cs
      | none => none := by
  cases n with
  | mk ch e v =>
    show (match (match jsGet ch c with
                 | none => none
                 | some child => findNode child cs : Option (TrieNode β)) with
          | some nd => if nd.isEndOfWord then nd.value else none
          | none => none) = _
    cases h : jsGet ch c <;> simp [searchW, TrieNode.children, h]

theorem searchW_of_no_children {β : Type} (n : TrieNode β)
    (h1 : n.children = []) (h2 : n.isEndOfWord = false) (w : Str) :
    searchW n w = none := by
  cases w with
  | nil => simp [searchW_nil, h2]
  | cons c cs => simp [searchW_cons, h1, jsGet]

theorem findNode_insertW {β : Type} (n : TrieNode β) (w : Str) (v : β) :
    ∃ nd : TrieNode β, findNode (insertW n w v) w = some nd ∧
      nd.isEndOfWord = true ∧ nd.value = some v := by
  induction w generalizing n with
  | nil =>
    cases n with
    | mk ch e vv =>
      exact ⟨.mk ch true (some v), rfl, rfl, rfl⟩
  | cons c cs ih =>
    cases n with
    | mk ch e vv =>
      obtain ⟨nd, h1, h2, h3⟩ := ih ((jsGet ch c).getD TrieNode.empty)
      refine ⟨nd, ?_, h2, h3⟩
      show (match jsGet (jsSet ch c _) c with
            | none => none
            | some child => findNode child cs) = some nd
      rw [jsGet_jsSet_self]
      exact h1

theorem searchW_insertW {β : Type} (n : TrieNode β) (w : Str) (v : β) :
    searchW (insertW n w v) w = some v := by
  obtain ⟨nd, h1, h2, h3⟩ := findNode_insertW n w v
  simp [searchW, h1, h2, h3]

theorem searchW_insertW_ne {β : Type} (n : TrieNode β) {w w' : Str} (v : β)
    (h : w' ≠ w) : searchW (insertW n w v) w' = searchW n w' := by
  induction w generalizing n w' with
  | nil =>
    cases n with
    | mk ch e vv =>
      cases w' with
      | nil => exact absurd rfl h
      | cons c' cs' =>
        show searchW (.mk ch true (some v)) (c' :: cs') = _
        simp [searchW_cons, TrieNode.children]
  | cons c cs ih =>
    cases n with
    | mk ch e vv =>
      cases w' with
      | nil =>
        show searchW (.mk (jsSet ch c _) e vv) [] = _
        simp [searchW_nil, TrieNode.isEndOfWord, TrieNode.value]
  
      | cons c' cs' =>
        show searchW (.mk (jsSet ch c (insertW ((jsGet ch c).getD TrieNode.empty) cs v)) e vv)
              (c' :: cs') = _
        by_cases hc : c' = c
        · subst hc
          have hcs : cs' ≠ cs := fun hh => h (by rw [hh])
          rw [searchW_cons, searchW_cons]
          show (match jsGet (jsSet ch c' _) c' with
                | some child => searchW child cs'
                | none => none) = _
          rw [jsGet_jsSet_self]
          cases hg : jsGet ch c' with
          | none =>
            simp [hg, ih _ hcs, searchW_of_no_children TrieNode.empty rfl rfl,
              TrieNode.children]
          | some child =>
            simp [hg, ih _ hcs, TrieNode.children]
        · rw [searchW_cons, searchW_cons]
          show (match jsGet (jsSet ch c _) c' with
                | some child => searchW child cs'
                | none => none) = _
          rw [jsGet_jsSet_ne _ _ hc]
          simp [TrieNode.children]

theorem deleteW_shouldDelete {β : Type} (n : TrieNode β) (w : Str)
    (h : (deleteW n w).2.1 = true) :
    (deleteW n w).1.children = [] ∧ (deleteW n w).1.isEndOfWord = false := by
  cases w with
  | nil =>
    cases n with
    | mk ch e v =>
      by_cases he : e = true
      · simp [deleteW, he, List.isEmpty_iff] at h
        simp [deleteW, he, TrieNode.children, TrieNode.isEndOfWord, h]
      · simp [deleteW, he] at h
  | cons c cs =>
    cases n with
    | mk ch e v =>
      cases hg : jsGet ch c with
      | none => simp [deleteW, hg] at h
      | some child =>
        by_cases hsd : (deleteW child cs).2.1 = true
        · simp [deleteW, hg, hsd, List.isEmpty_iff] at h
          simp [deleteW, hg, hsd, TrieNode.children, TrieNode.isEndOfWord, h]
        · simp [deleteW, hg, hsd] at h

theorem searchW_deleteW_self {β : Type} (n : TrieNode β) (w : Str) :
    searchW (deleteW n w).1 w = none := by
  induction w generalizing n with
  | nil =>
    cases n with
    | mk ch e v =>
      by_cases he : e = true <;>
        simp [deleteW, he, searchW_nil, TrieNode.isEndOfWord]
  | cons c cs ih =>
    cases n with
    | mk ch e v =>
      cases hg : jsGet ch c with
      | none => simp [deleteW, hg, searchW_cons, TrieNode.children]
      | some child =>
        by_cases hsd : (deleteW child cs).2.1 = true
        · simp [deleteW, hg, hsd, searchW_cons, TrieNode.children, jsGet_jsDel]
        · simp [deleteW, hg, hsd, searchW_cons, TrieNode.children,
            jsGet_jsSet_self, ih]

theorem searchW_deleteW_ne {β : Type} (n : TrieNode β) {w w' : Str}
    (h : w' ≠ w) : searchW (deleteW n w).1 w' = searchW n w' := by
  induction w generalizing n w' with
  | nil =>
    cases n with
    | mk ch e v =>
      cases w' with
      | nil => exact absurd rfl h
      | cons c' cs' =>
        by_cases he : e = true <;>
          simp [deleteW, he, searchW_cons, TrieNode.children]
  | cons c cs ih =>
    cases n with
    | mk ch e v =>
      cases hg : jsGet ch c with
      | none => simp [deleteW, hg]
      | some child =>
        by_cases hsd : (deleteW child cs).2.1 = true
        · cases w' with
          | nil =>
            simp [deleteW, hg, hsd, searchW_nil, TrieNode.isEndOfWord,
              TrieNode.value]
          | cons c' cs' =>
            by_cases hc : c' = c
            · subst hc
              have hcs : cs' ≠ cs := fun hh => h (by rw [hh])
              have hempty := deleteW_shouldDelete child cs hsd
              simp [deleteW, hg, hsd, searchW_cons, TrieNode.children,
                jsGet_jsDel, hg]
              rw [← ih child hcs]
              exact (searchW_of_no_children _ hempty.1 hempty.2 cs').symm
            · simp [deleteW, hg, hsd, searchW_cons, TrieNode.children,
                jsGet_jsDel, hc]
        · cases w' with
          | nil =>
            simp [deleteW, hg, hsd, searchW_nil, TrieNode.isEndOfWord,
              TrieNode.value]
          | cons c' cs' =>
            by_cases hc : c' = c
            · subst hc
              have hcs : cs' ≠ cs := fun hh => h (by rw [hh])
              simp [deleteW, hg, hsd, searchW_cons, TrieNode.children,
                jsGet_jsSet_self, ih child hcs]
            · simp [deleteW, hg, hsd, searchW_cons, TrieNode.children,
                jsGet_jsSet_ne _ _ hc]

theorem insertW_insertW {β : Type} (n : TrieNode β) (w : Str) (v1 v2 : β) :
    insertW (insertW n w v1) w v2 = insertW n w v2 := by
  induction w generalizing n with
  | nil =>
    cases n with
    | mk ch e v => rfl
  | cons c cs ih =>
    cases n with
    | mk ch e v =>
      show TrieNode.mk
          (jsSet (jsSet ch c (insertW ((jsGet ch c).getD TrieNode.empty) cs v1)) c _) e v =
        TrieNode.mk (jsSet ch c _) e v
      rw [jsGet_jsSet_self]
      simp only [Option.getD_some]
      rw [jsSet_jsSet, ih]

theorem containsEndNode_insertW {β : Type} (n : TrieNode β) (w : Str) (v : β) :
    containsEndNode (insertW n w v) w = true := by
  obtain ⟨nd, h1, h2, _⟩ := findNode_insertW n w v
  simp [containsEndNode, h1, h2]

/-! ### AVL tree lemmas: entries, ordering, search -/

theorem entriesN_mkNode {α β : Type} (k : α) (v : β) (l r : AVLNode α β) :
    entriesN (mkNode k v l r) = entriesN l ++ (k, v) :: entriesN r := rfl

theorem entriesN_rotateRight {α β : Type} (t : AVLNode α β) :
    entriesN (rotateRight t) = entriesN t := by
  cases t with
  | nil => rfl
  | node k v l r h =>
    cases l with
    | nil => rfl
    | node lk lv ll lr lh => simp [rotateRight, mkNode, entriesN]

theorem entriesN_rotateLeft {α β : Type} (t : AVLNode α β) :
    entriesN (rotateLeft t) = entriesN t := by
  cases t with
  | nil => rfl
  | node k v l r h =>
    cases r with
    | nil => rfl
    | node rk rv rl rr rh => simp [rotateLeft, mkNode, entriesN]

theorem entriesN_balanceN {α β : Type} (t : AVLNode α β) :
    entriesN (balanceN t) = entriesN t := by
  cases t with
  | nil => rfl
  | node k v l r h =>
    show entriesN (if _ then _ else _) = _
    split_ifs <;>
      simp [entriesN_rotateRight, entriesN_rotateLeft, entriesN_mkNode, entriesN,
        mkNode]

theorem keysN_balanceN {α β : Type} (t : AVLNode α β) :
    keysN (balanceN t) = keysN t := by
  simp [keysN, entriesN_balanceN]

theorem keysN_node {α β : Type} (k : α) (v : β) (l r : AVLNode α β) (h : Nat) :
    keysN (AVLNode.node k v l r h) = keysN l ++ k :: keysN r := by
  simp [keysN, entriesN]

/-- The BST invariant is exactly strict sortedness of the in-order key list. -/
theorem orderedT_iff_pairwise {α β : Type} [LinearOrder α] (t : AVLNode α β) :
    OrderedT t ↔ (keysN t).Pairwise (· < ·) := by
  induction t with
  | nil => simp [OrderedT, keysN, entriesN]
  | node k v l r h ihl ihr =>
    rw [keysN_node, List.pairwise_append]
    simp only [OrderedT, ihl, ihr, List.pairwise_cons]
    constructor
    · rintro ⟨hlk, hkr, hl, hr⟩
      refine ⟨hl, ⟨hkr, hr⟩, ?_⟩
      intro x hx y hy
      rcases List.mem_cons.mp hy with hy | hy
      · exact hy ▸ hlk x hx
      · exact lt_trans (hlk x hx) (hkr y hy)
    · rintro ⟨hl, ⟨hkr, hr⟩, hcross⟩
      exact ⟨fun x hx => hcross x hx k (List.mem_cons_self k _), hkr, hl, hr⟩

theorem orderedT_balanceN {α β : Type} [LinearOrder α] (t : AVLNode α β)
    (h : OrderedT t) : OrderedT (balanceN t) := by
  rw [orderedT_iff_pairwise] at h ⊢
  rwa [keysN_balanceN]

/-- `searchNode` agrees with membership in the sorted entry list. -/
theorem searchNode_mem {α β : Type} [LinearOrder α] (t : AVLNode α β)
    (ht : OrderedT t) (k : α) (v : β) :
    searchNode t k = some v ↔ (k, v) ∈ entriesN t := by
  induction t with
  | nil => simp [searchNode, entriesN]
  | node nk nv l r h ihl ihr =>
    obtain ⟨hlk, hkr, hl, hr⟩ := ht
    rw [show entriesN (AVLNode.node nk nv l r h) = entriesN l ++ (nk, nv) :: entriesN r
      from rfl]
    by_cases h1 : k = nk
    · subst h1
      simp only [searchNode, if_pos rfl, List.mem_append, List.mem_cons]
      constructor
      · rintro h2
        exact Or.inr (Or.inl (by simpa using h2.symm))
      · rintro (h2 | h2 | h2)
        · have : k ∈ keysN l := by simp [keysN]; exact ⟨v, h2⟩
          exact absurd (hlk k this) (lt_irrefl k)
        · simp at h2
          simp [h2]
        · have : k ∈ keysN r := by simp [keysN]; exact ⟨v, h2⟩
          exact absurd (hkr k this) (lt_irrefl k)
    · by_cases h2 : k < nk
      · rw [show searchNode (AVLNode.node nk nv l r h) k = searchNode l k from by
          simp [searchNode, h1, h2]]
        rw [ihl hl]
        simp only [List.mem_append, List.mem_cons]
        constructor
        · exact fun h3 => Or.inl h3
        · rintro (h3 | h3 | h3)
          · exact h3
          · exact absurd (Prod.mk.injEq .. ▸ h3).1 h1
          · have : k ∈ keysN r := by simp [keysN]; exact ⟨v, h3⟩
            exact absurd (hkr k this) (lt_asymm h2)
      · have h3 : nk < k := lt_of_le_of_ne (not_lt.mp h2) (Ne.symm h1)
        rw [show searchNode (AVLNode.node nk nv l r h) k = searchNode r k from by
          simp [searchNode, h1, not_lt.mpr (le_of_lt h3)]]
        rw [ihr hr]
        simp only [List.mem_append, List.mem_cons]
        constructor
        · exact fun h4 => Or.inr (Or.inr h4)
        · rintro (h4 | h4 | h4)
          · have : k ∈ keysN l := by simp [keysN]; exact ⟨v, h4⟩
            exact absurd (hlk k this) (not_lt_of_gt h3)
          · exact absurd (Prod.mk.injEq .. ▸ h4).1 h1
          · exact h4

theorem option_ext {γ : Type} {o₁ o₂ : Option γ}
    (h : ∀ v, o₁ = some v ↔ o₂ = some v) : o₁ = o₂ := by
  cases o₁ with
  | none =>
    cases o₂ with
    | none => rfl
    | some v => exact ((h v).mpr rfl).symm ▸ rfl
  | some v => exact ((h v).mp rfl).symm

theorem entriesN_node {α β : Type} (k : α) (v : β) (l r : AVLNode α β) (h : Nat) :
    entriesN (AVLNode.node k v l r h) = entriesN l ++ (k, v) :: entriesN r := rfl

theorem insertSorted_append_of_forall_lt {α β : Type} [LinearOrder α]
    (A B : List (α × β)) (k : α) (v : β) (h : ∀ x ∈ A.map Prod.fst, x < k) :
    insertSorted (A ++ B) k v = A ++ insertSorted B k v := by
  induction A with
  | nil => rfl
  | cons p rest ih =>
    obtain ⟨pk, pv⟩ := p
    have h1 : pk < k := h pk (by simp)
    simp only [List.cons_append, insertSorted, if_neg (lt_asymm h1), if_pos h1,
      List.append_eq]
    rw [ih (fun x hx => h x (by simp only [List.map_cons, List.mem_cons]; exact Or.inr hx))]

theorem insertSorted_append_cons_of_lt {α β : Type} [LinearOrder α]
    (A B : List (α × β)) (nk k : α) (nv : β) (v : β) (h : k < nk) :
    insertSorted (A ++ (nk, nv) :: B) k v = insertSorted A k v ++ (nk, nv) :: B := by
  induction A with
  | nil => simp [insertSorted, h]
  | cons p rest ih =>
    obtain ⟨pk, pv⟩ := p
    by_cases h1 : k < pk
    · simp [insertSorted, h1]
    · by_cases h2 : pk < k
      · simp only [List.cons_append, insertSorted, if_neg h1, if_pos h2,
          List.append_eq]
        rw [ih]
      · simp [insertSorted, h1, h2]

theorem entriesN_insertNode {α β : Type} [LinearOrder α] (t : AVLNode α β)
    (ht : OrderedT t) (k : α) (v : β) :
    entriesN (insertNode t k v) = insertSorted (entriesN t) k v := by
  induction t with
  | nil => rfl
  | node nk nv l r h ihl ihr =>
    obtain ⟨hlk, hkr, hl, hr⟩ := ht
    rw [entriesN_node]
    show entriesN (if k < nk then _ else if nk < k then _ else _) = _
    by_cases h1 : k < nk
    · rw [if_pos h1, entriesN_balanceN]
      show entriesN (insertNode l k v) ++ (nk, nv) :: entriesN r = _
      rw [ihl hl]
      exact (insertSorted_append_cons_of_lt _ _ _ _ _ _ h1).symm
    · by_cases h2 : nk < k
      · rw [if_neg h1, if_pos h2, entriesN_balanceN]
        show entriesN l ++ (nk, nv) :: entriesN (insertNode r k v) = _
        rw [ihr hr]
        have h3 : ∀ x ∈ (entriesN l ++ [(nk, nv)]).map Prod.fst, x < k := by
          intro x hx
          simp only [List.map_append, List.mem_append] at hx
          rcases hx with hx | hx
          · exact lt_trans (hlk x hx) h2
          · simp only [List.map_cons, List.map_nil, List.mem_cons,
              List.not_mem_nil, or_false] at hx
            rw [hx]
            exact h2
        have h4 := insertSorted_append_of_forall_lt (entriesN l ++ [(nk, nv)])
          (entriesN r) k v h3
        simpa using h4.symm
      · rw [if_neg h1, if_neg h2]
        have hk : k = nk := le_antisymm (not_lt.mp h2) (not_lt.mp h1)
        subst hk
        rw [entriesN_node,
          insertSorted_append_of_forall_lt _ _ _ _ (fun x hx => hlk x hx)]
        simp [insertSorted, lt_irrefl]

theorem keys_insertSorted_subset {α β : Type} [LinearOrder α]
    (l : List (α × β)) (k : α) (v : β) :
    ∀ x ∈ (insertSorted l k v).map Prod.fst, x = k ∨ x ∈ l.map Prod.fst := by
  induction l with
  | nil => simp [insertSorted]
  | cons p rest ih =>
    obtain ⟨pk, pv⟩ := p
    intro x hx
    by_cases h1 : k < pk
    · simp only [insertSorted, if_pos h1, List.map_cons, List.mem_cons] at hx
      rcases hx with hx | hx | hx
      · exact Or.inl hx
      · exact Or.inr (by simp only [List.map_cons, List.mem_cons]; exact Or.inl hx)
      · exact Or.inr (by simp only [List.map_cons, List.mem_cons]; exact Or.inr hx)
    · by_cases h2 : pk < k
      · simp only [insertSorted, if_neg h1, if_pos h2, List.map_cons,
          List.mem_cons] at hx
        rcases hx with hx | hx
        · exact Or.inr (by simp only [List.map_cons, List.mem_cons]; exact Or.inl hx)
        · rcases ih x hx with hx | hx
          · exact Or.inl hx
          · exact Or.inr (by simp only [List.map_cons, List.mem_cons]; exact Or.inr hx)
      · simp only [insertSorted, if_neg h1, if_neg h2, List.map_cons,
          List.mem_cons] at hx
        rcases hx with hx | hx
        · exact Or.inl hx
        · exact Or.inr (by simp only [List.map_cons, List.mem_cons]; exact Or.inr hx)

theorem pairwise_insertSorted {α β : Type} [LinearOrder α]
    (l : List (α × β)) (k : α) (v : β)
    (hl : (l.map Prod.fst).Pairwise (· < ·)) :
    ((insertSorted l k v).map Prod.fst).Pairwise (· < ·) := by
  induction l with
  | nil => simp [insertSorted]
  | cons p rest ih =>
    obtain ⟨pk, pv⟩ := p
    rw [List.map_cons, List.pairwise_cons] at hl
    obtain ⟨hpk, hrest⟩ := hl
    by_cases h1 : k < pk
    · simp only [insertSorted, if_pos h1, List.map_cons, List.pairwise_cons]
      refine ⟨?_, ?_⟩
      · intro x hx
        rcases List.mem_cons.mp hx with hx | hx
        · rw [hx]; exact h1
        · exact lt_trans h1 (hpk x hx)
      · exact ⟨hpk, hrest⟩
    · by_cases h2 : pk < k
      · simp only [insertSorted, if_neg h1, if_pos h2, List.map_cons,
          List.pairwise_cons]
        refine ⟨?_, ih hrest⟩
        intro x hx
        rcases keys_insertSorted_subset rest k v x hx with hx | hx
        · rw [hx]; exact h2
        · exact hpk x hx
      · have hk : k = pk := le_antisymm (not_lt.mp h2) (not_lt.mp h1)
        simp only [insertSorted, if_neg h1, if_neg h2, List.map_cons,
          List.pairwise_cons]
        exact ⟨fun x hx => hk ▸ hpk x hx, hrest⟩

theorem orderedT_insertNode {α β : Type} [LinearOrder α] (t : AVLNode α β)
    (ht : OrderedT t) (k : α) (v : β) : OrderedT (insertNode t k v) := by
  have ht' := ht
  rw [orderedT_iff_pairwise] at ht ⊢
  rw [keysN, entriesN_insertNode t ht' k v]
  exact pairwise_insertSorted _ k v ht

theorem eraseKey_of_not_mem {α β : Type} [DecidableEq α] (l : List (α × β)) (k : α)
    (h : k ∉ l.map Prod.fst) : eraseKey l k = l := by
  induction l with
  | nil => rfl
  | cons p rest ih =>
    obtain ⟨pk, pv⟩ := p
    simp only [List.map_cons, List.mem_cons] at h
    push_neg at h
    have h1 : ¬ (pk = k) := fun hh => h.1 hh.symm
    simp [eraseKey, h1, ih h.2]

theorem eraseKey_append_right {α β : Type} [DecidableEq α] (A B : List (α × β)) (k : α)
    (h : k ∉ A.map Prod.fst) : eraseKey (A ++ B) k = A ++ eraseKey B k := by
  induction A with
  | nil => rfl
  | cons p rest ih =>
    obtain ⟨pk, pv⟩ := p
    simp only [List.map_cons, List.mem_cons] at h
    push_neg at h
    simp only [List.cons_append, eraseKey, if_neg (fun hh : pk = k => h.1 hh.symm),
      List.append_eq]
    rw [ih h.2]

theorem eraseKey_append_left {α β : Type} [DecidableEq α] (A B : List (α × β)) (k : α)
    (h : k ∈ A.map Prod.fst) : eraseKey (A ++ B) k = eraseKey A k ++ B := by
  induction A with
  | nil => simp at h
  | cons p rest ih =>
    obtain ⟨pk, pv⟩ := p
    by_cases h1 : pk = k
    · simp [eraseKey, h1]
    · simp only [List.map_cons, List.mem_cons] at h
      rcases h with h | h
      · exact absurd h.symm h1
      · simp only [List.cons_append, eraseKey, if_neg h1, List.append_eq]
        rw [ih h]

theorem eraseKey_sublist {α β : Type} [DecidableEq α] (l : List (α × β)) (k : α) :
    (eraseKey l k).Sublist l := by
  induction l with
  | nil => simp [eraseKey]
  | cons p rest ih =>
    obtain ⟨pk, pv⟩ := p
    by_cases h : pk = k
    · simp only [eraseKey, if_pos h]
      exact List.sublist_cons_of_sublist _ (List.Sublist.refl rest)
    · simp only [eraseKey, if_neg h]
      exact List.Sublist.cons₂ _ ih

theorem mem_eraseKey {α β : Type} [DecidableEq α] (l : List (α × β)) (k k' : α) (v : β)
    (hnd : (l.map Prod.fst).Nodup) :
    (k', v) ∈ eraseKey l k ↔ (k' ≠ k ∧ (k', v) ∈ l) := by
  induction l with
  | nil => simp [eraseKey]
  | cons p rest ih =>
    obtain ⟨pk, pv⟩ := p
    simp only [List.map_cons, List.nodup_cons] at hnd
    obtain ⟨hpk, hnd'⟩ := hnd
    by_cases h : pk = k
    · subst h
      simp only [eraseKey, if_pos rfl, List.mem_cons]
      constructor
      · intro hm
        refine ⟨?_, Or.inr hm⟩
        intro hk
        subst hk
        exact hpk (List.mem_map.mpr ⟨(k', v), hm, rfl⟩)
      · rintro ⟨hne, hm | hm⟩
        · exact absurd (congrArg Prod.fst hm) hne
        · exact hm
    · simp only [eraseKey, if_neg h, List.mem_cons, ih hnd']
      constructor
      · rintro (hm | ⟨hne, hm⟩)
        · obtain ⟨he1, he2⟩ := Prod.mk.injEq .. ▸ hm
          exact ⟨fun hk => h (he1 ▸ hk), Or.inl hm⟩
        · exact ⟨hne, Or.inr hm⟩
      · rintro ⟨hne, hm | hm⟩
        · exact Or.inl hm
        · exact Or.inr ⟨hne, hm⟩

theorem findMinNode_eq_head {α β : Type} (t : AVLNode α β) :
    findMinNode t = (entriesN t).head? := by
  induction t with
  | nil => rfl
  | node k v l r h ihl ihr =>
    rw [entriesN_node]
    show (match findMinNode l with
          | none => some (k, v)
          | some p => some p) = _
    rw [ihl]
    cases he : entriesN l with
    | nil => simp
    | cons p tail => simp

theorem entriesN_deleteNode {α β : Type} [LinearOrder α] (t : AVLNode α β)
    (ht : OrderedT t) : ∀ k : α, entriesN (deleteNode t k) = eraseKey (entriesN t) k := by
  induction t with
  | nil => intro k; rfl
  | node nk nv l r h ihl ihr =>
    intro k
    obtain ⟨hlk, hkr, hl, hr⟩ := ht
    rw [deleteNode.eq_def]
    dsimp only
    by_cases h1 : k < nk
    · rw [if_pos h1, entriesN_balanceN]
      show entriesN (deleteNode l k) ++ (nk, nv) :: entriesN r = _
      rw [ihl hl k, entriesN_node]
      by_cases h2 : k ∈ (entriesN l).map Prod.fst
      · rw [eraseKey_append_left _ _ _ h2]
      · rw [eraseKey_of_not_mem _ _ h2, eraseKey_append_right _ _ _ h2]
        have hnk : (nk : α) ≠ k := fun hh => (lt_irrefl k) (hh ▸ h1)
        have hnr : k ∉ (entriesN r).map Prod.fst :=
          fun hm => absurd (hkr k hm) (lt_asymm h1)
        simp [eraseKey, hnk, eraseKey_of_not_mem _ _ hnr]
    · by_cases h2 : nk < k
      · rw [if_neg h1, if_pos h2, entriesN_balanceN]
        show entriesN l ++ (nk, nv) :: entriesN (deleteNode r k) = _
        have hnl : k ∉ (entriesN l).map Prod.fst :=
          fun hm => absurd (lt_trans (hlk k hm) h2) (lt_irrefl k)
        rw [ihr hr k, entriesN_node, eraseKey_append_right _ _ _ hnl]
        have hnk : (nk : α) ≠ k := ne_of_lt h2
        simp [eraseKey, hnk]
      · rw [if_neg h1, if_neg h2]
        have hk : k = nk := le_antisymm (not_lt.mp h2) (not_lt.mp h1)
        subst hk
        have hnl : k ∉ (entriesN l).map Prod.fst :=
          fun hm => absurd (hlk k hm) (lt_irrefl k)
        rw [entriesN_node, eraseKey_append_right _ _ _ hnl,
          show eraseKey ((k, nv) :: entriesN r) k = entriesN r from by simp [eraseKey]]
        cases l with
        | nil =>
          cases r with
          | nil => rfl
          | node rk rv rl rr rh => simp [entriesN]
        | node lk lv ll lr lh =>
          cases r with
          | nil => simp [entriesN]
          | node rk rv rl rr rh =>
            dsimp only
            cases he : entriesN (AVLNode.node rk rv rl rr rh) with
            | nil =>
              rw [entriesN_node] at he
              exact absurd (congrArg List.length he) (by simp)
            | cons hd tail =>
              split
              · next hfm =>
                  rw [findMinNode_eq_head, he] at hfm
                  cases hfm
              · next mk mv hfm =>
                  rw [findMinNode_eq_head, he] at hfm
                  have hhd : hd = (mk, mv) := by
                    injection hfm with hh
                  rw [entriesN_balanceN, entriesN_node, ihr hr mk, he, hhd]
                  simp [eraseKey]

theorem orderedT_deleteNode {α β : Type} [LinearOrder α] (t : AVLNode α β)
    (ht : OrderedT t) (k : α) : OrderedT (deleteNode t k) := by
  have ht' := ht
  rw [orderedT_iff_pairwise] at ht ⊢
  rw [keysN, entriesN_deleteNode t ht' k]
  exact List.Pairwise.sublist ((eraseKey_sublist (entriesN t) k).map Prod.fst) ht

theorem mem_insertSorted {α β : Type} [LinearOrder α] (l : List (α × β)) (k k' : α)
    (v v' : β) (hnd : (l.map Prod.fst).Pairwise (· < ·)) :
    (k', v') ∈ insertSorted l k v ↔
      ((k' = k ∧ v' = v) ∨ (k' ≠ k ∧ (k', v') ∈ l)) := by
  induction l with
  | nil =>
    simp only [insertSorted, List.mem_singleton, List.not_mem_nil, and_false, or_false,
      Prod.mk.injEq]
  | cons p rest ih =>
    obtain ⟨pk, pv⟩ := p
    rw [List.map_cons, List.pairwise_cons] at hnd
    obtain ⟨hpk, hrest⟩ := hnd
    by_cases h1 : k < pk
    · simp only [insertSorted, if_pos h1, List.mem_cons, Prod.mk.injEq]
      constructor
      · rintro (⟨he1, he2⟩ | hm)
        · exact Or.inl ⟨he1, he2⟩
        · refine Or.inr ⟨?_, hm⟩
          rcases hm with ⟨he1, _⟩ | hm'
          · intro hk
            rw [hk] at he1
            exact absurd (he1 ▸ h1) (lt_irrefl pk)
          · have hgt : pk < k' := hpk k' (List.mem_map.mpr ⟨(k', v'), hm', rfl⟩)
            intro hk
            rw [hk] at hgt
            exact absurd (lt_trans h1 hgt) (lt_irrefl k)
      · rintro (⟨he1, he2⟩ | ⟨_, hm⟩)
        · exact Or.inl ⟨he1, he2⟩
        · exact Or.inr hm
    · by_cases h2 : pk < k
      · simp only [insertSorted, if_neg h1, if_pos h2, List.mem_cons, ih hrest,
          Prod.mk.injEq]
        constructor
        · rintro (⟨he1, he2⟩ | ⟨he1, he2⟩ | ⟨hne, hm⟩)
          · refine Or.inr ⟨?_, Or.inl ⟨he1, he2⟩⟩
            intro hk
            rw [hk] at he1
            exact absurd (he1 ▸ h2) (lt_irrefl k)
          · exact Or.inl ⟨he1, he2⟩
          · exact Or.inr ⟨hne, Or.inr hm⟩
        · rintro (⟨he1, he2⟩ | ⟨hne, ⟨he1, he2⟩ | hm⟩)
          · exact Or.inr (Or.inl ⟨he1, he2⟩)
          · exact Or.inl ⟨he1, he2⟩
          · exact Or.inr (Or.inr ⟨hne, hm⟩)
      · have hk : k = pk := le_antisymm (not_lt.mp h2) (not_lt.mp h1)
        subst hk
        simp only [insertSorted, if_neg h1, if_neg h2, List.mem_cons, Prod.mk.injEq]
        constructor
        · rintro (⟨he1, he2⟩ | hm)
          · exact Or.inl ⟨he1, he2⟩
          · have hgt : k < k' := hpk k' (List.mem_map.mpr ⟨(k', v'), hm, rfl⟩)
            exact Or.inr ⟨ne_of_gt hgt, Or.inr hm⟩
        · rintro (⟨he1, he2⟩ | ⟨hne, ⟨he1, _⟩ | hm⟩)
          · exact Or.inl ⟨he1, he2⟩
          · exact absurd he1 hne
          · exact Or.inr hm

theorem searchNode_insertNode {α β : Type} [LinearOrder α] (t : AVLNode α β)
    (ht : OrderedT t) (k k' : α) (v : β) :
    searchNode (insertNode t k v) k' = if k' = k then some v else searchNode t k' := by
  have ho := orderedT_insertNode t ht k v
  have hpw := (orderedT_iff_pairwise t).mp ht
  apply option_ext
  intro w
  rw [searchNode_mem _ ho, entriesN_insertNode t ht,
    mem_insertSorted _ _ _ _ _ hpw]
  by_cases h : k' = k
  · subst h
    rw [if_pos rfl]
    constructor
    · rintro (⟨_, he⟩ | ⟨hne, _⟩)
      · rw [he]
      · exact absurd rfl hne
    · intro he
      injection he with he'
      exact Or.inl ⟨rfl, he'.symm⟩
  · rw [if_neg h, searchNode_mem t ht]
    simp [h]

theorem searchNode_deleteNode {α β : Type} [LinearOrder α] (t : AVLNode α β)
    (ht : OrderedT t) (k k' : α) :
    searchNode (deleteNode t k) k' = if k' = k then none else searchNode t k' := by
  have hod := orderedT_deleteNode t ht k
  have hpw := (orderedT_iff_pairwise t).mp ht
  have hnd : ((entriesN t).map Prod.fst).Nodup := hpw.imp ne_of_lt
  apply option_ext
  intro w
  rw [searchNode_mem _ hod, entriesN_deleteNode t ht k, mem_eraseKey _ _ _ _ hnd]
  by_cases h : k' = k
  · subst h
    simp
  · rw [if_neg h, searchNode_mem t ht]
    simp [h]

/-! ### Claim C7: trie round trip -/

/-- C7: for every (key, value) pair inserted into the prefix trie,
`search(key)` (after normalization) returns that value; after `delete(key)`,
`search(key)` returns not-found, and the reachability of every other inserted
key -- sibling keys sharing a prefix, and keys of which the deleted key is a
prefix -- is unaffected (`search` of any key with a different normalization is
unchanged by the delete). -/
theorem claim_C7_trie_round_trip {β : Type} (t : Trie β) (k k' : Str) (v : β)
    (h : Trie.normalize k' ≠ Trie.normalize k) :
    Trie.search (Trie.insert t k v) k = some v ∧
    Trie.search (Trie.delete t k).1 k = none ∧
    Trie.search (Trie.delete t k).1 k' = Trie.search t k' := by
  refine ⟨?_, ?_, ?_⟩
  · show searchW (insertW t.root (Trie.normalize k) v) (Trie.normalize k) = some v
    exact searchW_insertW _ _ _
  · show searchW (deleteW t.root (Trie.normalize k)).1 (Trie.normalize k) = none
    exact searchW_deleteW_self _ _
  · show searchW (deleteW t.root (Trie.normalize k)).1 (Trie.normalize k') = _
    exact searchW_deleteW_ne _ h

theorem claim_C7_witness :
    (Trie.normalize (str "Harp") ≠ Trie.normalize (str "Hárry")) ∧
    (Trie.search (Trie.insert (Trie.empty.insert (str "Harp") 3) (str "Hárry") 1)
        (str "Hárry") = some 1 ∧
      Trie.search ((Trie.empty.insert (str "Harp") 3).delete (str "Hárry")).1
        (str "Hárry") = none ∧
      Trie.search ((Trie.empty.insert (str "Harp") 3).delete (str "Hárry")).1
        (str "Harp") = Trie.search (Trie.empty.insert (str "Harp") 3) (str "Harp")) :=
  ⟨by decide, claim_C7_trie_round_trip (Trie.empty.insert (str "Harp") 3)
    (str "Hárry") (str "Harp") 1 (by decide)⟩

/-! ### Claim C10: one value per normalized trie key -/

/-- C10: the prefix trie holds at most one value per normalized key --
inserting `(k2, v2)` where `normalize k2 = normalize k1` of an earlier insert
`(k1, v1)` silently overwrites `v1` at the same terminal node, leaving the
whole trie (word count included) exactly as if only `(k2, v2)` had been
inserted; hence `search`, `searchByPrefix` and `getAllWords` see at most one
value per distinct normalized key. -/
theorem claim_C10_trie_overwrite {β : Type} (t : Trie β) (k1 k2 : Str) (v1 v2 : β)
    (h : Trie.normalize k1 = Trie.normalize k2) :
    Trie.insert (Trie.insert t k1 v1) k2 v2 = Trie.insert t k2 v2 := by
  show Trie.mk _ _ = Trie.mk _ _
  rw [show Trie.insert t k1 v1 =
    ⟨insertW t.root (Trie.normalize k1) v1,
     if containsEndNode t.root (Trie.normalize k1) then t.wordCount
     else t.wordCount + 1⟩ from rfl]
  rw [Trie.mk.injEq]
  constructor
  · show insertW (insertW t.root (Trie.normalize k1) v1) (Trie.normalize k2) v2 = _
    rw [← h, insertW_insertW, h]
  · show (if containsEndNode (insertW t.root (Trie.normalize k1) v1)
        (Trie.normalize k2) = true then _ else _) = _
    rw [← h, containsEndNode_insertW]
    simp

theorem claim_C10_witness :
    (Trie.normalize (str "Hárry") = Trie.normalize (str "HARRY")) ∧
    Trie.insert (Trie.insert (Trie.empty : Trie Nat) (str "Hárry") 1) (str "HARRY") 2 =
      Trie.insert Trie.empty (str "HARRY") 2 :=
  ⟨by decide, claim_C10_trie_overwrite Trie.empty (str "Hárry") (str "HARRY") 1 2
    (by decide)⟩

/-! ### Claim C8: degree centrality -/

/-- C8 counterexample: on a singleton graph `getDegreeCentrality()` returns an
*empty* map -- the node is not mapped to `0`, contradicting the claim that the
singleton graph "yields 0 for that node". -/
theorem claim_C8_counterexample :
    ((Graph.mkEmpty false true : Graph Unit ℚ).addNode (str "a") ()).getDegreeCentrality
        = [] ∧
    jsGet (((Graph.mkEmpty false true : Graph Unit ℚ).addNode
        (str "a") ()).getDegreeCentrality) (str "a") ≠ some 0 := by
  constructor
  · rfl
  · intro h
    cases h

theorem jsGet_map_self {γ : Type} (l : List Str) (f : Str → γ) (x : Str) (hx : x ∈ l) :
    jsGet (l.map (fun id => (id, f id))) x = some (f x) := by
  induction l with
  | nil => simp at hx
  | cons a rest ih =>
    by_cases h : a = x
    · subst h
      simp [jsGet]
    · rcases List.mem_cons.mp hx with hx' | hx'
      · exact absurd hx'.symm h
      · simp only [List.map_cons, jsGet, if_neg h]
        exact ih hx'

/-- C8 (amended): for a graph with at least two nodes, `getDegreeCentrality()`
maps every node to `degree / (|V| - 1)`; for a singleton (or empty) graph it
returns an *empty* map -- it does not fault on the division by zero, but
neither does it map the lone node to `0`. -/
theorem claim_C8_centrality {ν W : Type} (g : Graph ν W) :
    ((g.nodes.length : Int) - 1 ≤ 0 → g.getDegreeCentrality = []) ∧
    (1 < g.nodes.length → ∀ id ∈ Graph.getAllNodeIds g,
      jsGet g.getDegreeCentrality id =
        some ((g.getDegree id : ℚ) / ((g.nodes.length : ℚ) - 1))) := by
  constructor
  · intro h
    simp [Graph.getDegreeCentrality, h]
  · intro h id hid
    have h2 : ¬ ((g.nodes.length : Int) - 1 ≤ 0) := by omega
    rw [Graph.getDegreeCentrality]
    simp only [if_neg h2]
    rw [jsGet_map_self _ _ _ hid]
    congr 1
    congr 1
    push_cast
    ring

theorem claim_C8_witness :
    (1 < ((((Graph.mkEmpty false true : Graph Unit ℚ).addNode (str "a") ()).addNode
        (str "b") ()).nodes.length)) ∧
    jsGet ((((Graph.mkEmpty false true : Graph Unit ℚ).addNode (str "a") ()).addNode
        (str "b") ()).getDegreeCentrality) (str "a") =
      some (((((Graph.mkEmpty false true : Graph Unit ℚ).addNode (str "a") ()).addNode
        (str "b") ()).getDegree (str "a") : ℚ) /
        ((((((Graph.mkEmpty false true : Graph Unit ℚ).addNode (str "a") ()).addNode
        (str "b") ()).nodes.length) : ℚ) - 1)) :=
  ⟨by decide,
    (claim_C8_centrality ((((Graph.mkEmpty false true : Graph Unit ℚ).addNode
      (str "a") ()).addNode (str "b") ())) ).2 (by decide) (str "a") (by decide)⟩

/-! ### Claim C1: duplicate natural keys on add -/

/-- C1 counterexample: `BookServiceV2.addBook` performs *no* duplicate-ISBN
check.  Adding a second book with an ISBN already present in the store does
not fail and mutates state (the insertion-order sequence grows), contradicting
"for every entity store ... add fails with DuplicateKey ... and no state is
mutated". -/
theorem claim_C1_counterexample :
    (BookServiceV2.searchByISBN
      ((BookServiceV2.clearState.addBook
        ⟨str "T1", str "A1", str "946", str "Ficción", 1⟩ (str "B1")).2)
      (str "946")).isSome = true ∧
    ((((BookServiceV2.clearState.addBook
        ⟨str "T1", str "A1", str "946", str "Ficción", 1⟩ (str "B1")).2).addBook
        ⟨str "T2", str "A2", str "946", str "Ciencia", 1⟩ (str "B2")).1).id = str "B2" ∧
    ((((BookServiceV2.clearState.addBook
        ⟨str "T1", str "A1", str "946", str "Ficción", 1⟩ (str "B1")).2).addBook
        ⟨str "T2", str "A2", str "946", str "Ciencia", 1⟩ (str "B2")).2).insertionOrder.length
      = 2 := by
  refine ⟨rfl, rfl, rfl⟩

/-- C1 (amended): only the *user* store rejects a duplicate natural key:
`addUser` throws (before touching any index, so the state handed back to the
caller is unchanged) exactly when the case-insensitive e-mail is already
present, and otherwise inserts the new user into all three indices and
returns it.  The *book* store performs no duplicate check at all: `addBook`
always succeeds, inserting into the ISBN tree (overwriting the value at an
existing ISBN key), into both tries, and appending to the sequence. -/
theorem claim_C1_add_behavior
    (su : UserServiceV2) (d : CreateUserDTO) (uid : Str)
    (sb : BookServiceV2) (bd : CreateBookDTO) (bid : Str)
    (hOrdU : OrderedT su.usersByEmail.root)
    (hOrdB : OrderedT sb.booksByISBN.root) :
    ((su.findByEmail d.email).isSome = true →
        su.addUser d uid = .error "Ya existe un usuario con este email") ∧
    (su.findByEmail d.email = none →
      ∃ u s', su.addUser d uid = .ok (u, s') ∧ u.id = uid ∧ u.email = d.email ∧
        s'.findByEmail d.email = some u ∧
        s'.getAllUsers = su.getAllUsers ++ [u] ∧
        s'.usersByName.search (UserServiceV2.getFullName d.nombre d.apellido)
          = some u) ∧
    (∃ b s', sb.addBook bd bid = (b, s') ∧ b.id = bid ∧ b.isbn = bd.isbn ∧
      s'.searchByISBN bd.isbn = some b ∧
      s'.getAllBooks = sb.getAllBooks ++ [b] ∧
      s'.booksByTitle.search bd.titulo = some b ∧
      s'.booksByAuthor.search bd.autor = some b) := by
  refine ⟨?_, ?_, ?_⟩
  · intro h
    rw [UserServiceV2.addUser]
    cases he : su.findByEmail d.email with
    | none => rw [he] at h; cases h
    | some u0 => rfl
  · intro h
    rw [UserServiceV2.addUser, h]
    refine ⟨_, _, rfl, rfl, rfl, ?_, rfl, ?_⟩
    · show AVLTree.search (su.usersByEmail.insert (jsToLowerCase d.email) _)
        (jsToLowerCase d.email) = _
      show searchNode (insertNode su.usersByEmail.root (jsToLowerCase d.email) _)
        (jsToLowerCase d.email) = _
      rw [searchNode_insertNode _ hOrdU]
      simp
    · show searchW (insertW su.usersByName.root
        (Trie.normalize (UserServiceV2.getFullName d.nombre d.apellido)) _)
        (Trie.normalize (UserServiceV2.getFullName d.nombre d.apellido)) = _
      exact searchW_insertW _ _ _
  · refine ⟨_, _, rfl, rfl, rfl, ?_, rfl, ?_, ?_⟩
    · show searchNode (insertNode sb.booksByISBN.root bd.isbn _) bd.isbn = _
      rw [searchNode_insertNode _ hOrdB]
      simp
    · show searchW (insertW sb.booksByTitle.root (Trie.normalize bd.titulo) _)
        (Trie.normalize bd.titulo) = _
      exact searchW_insertW _ _ _
    · show searchW (insertW sb.booksByAuthor.root (Trie.normalize bd.autor) _)
        (Trie.normalize bd.autor) = _
      exact searchW_insertW _ _ _

theorem claim_C1_witness :
    (OrderedT (UserServiceV2.clearState.usersByEmail.root) ∧
     OrderedT (BookServiceV2.clearState.booksByISBN.root)) ∧
    (((UserServiceV2.clearState.findByEmail (str "ana@x.com")).isSome = true →
        UserServiceV2.clearState.addUser ⟨str "Ana", str "García", str "ana@x.com"⟩
          (str "U1") = .error "Ya existe un usuario con este email") ∧
     (UserServiceV2.clearState.findByEmail (str "ana@x.com") = none →
      ∃ u s', UserServiceV2.clearState.addUser
          ⟨str "Ana", str "García", str "ana@x.com"⟩ (str "U1") = .ok (u, s') ∧
        u.id = str "U1" ∧ u.email = str "ana@x.com" ∧
        s'.findByEmail (str "ana@x.com") = some u ∧
        s'.getAllUsers = UserServiceV2.clearState.getAllUsers ++ [u] ∧
        s'.usersByName.search (UserServiceV2.getFullName (str "Ana") (str "García"))
          = some u) ∧
     (∃ b s', BookServiceV2.clearState.addBook
          ⟨str "T1", str "A1", str "946", str "Ficción", 1⟩ (str "B1") = (b, s') ∧
        b.id = str "B1" ∧ b.isbn = str "946" ∧
        s'.searchByISBN (str "946") = some b ∧
        s'.getAllBooks = BookServiceV2.clearState.getAllBooks ++ [b] ∧
        s'.booksByTitle.search (str "T1") = some b ∧
        s'.booksByAuthor.search (str "A1") = some b)) :=
  ⟨⟨trivial, trivial⟩,
    claim_C1_add_behavior UserServiceV2.clearState
      ⟨str "Ana", str "García", str "ana@x.com"⟩ (str "U1")
      BookServiceV2.clearState ⟨str "T1", str "A1", str "946", str "Ficción", 1⟩
      (str "B1") trivial trivial⟩

/-! ### Claim C9: delete and the active-loan business rule -/

/-- C9 counterexample: `UserServiceV2.deleteUser` *does* enforce the
active-loan rule -- deleting a user with `prestamosActivos > 0` throws instead
of succeeding, contradicting "delete succeeds regardless of whether the entity
is referenced by an active loan". -/
theorem claim_C9_counterexample :
    (match UserServiceV2.clearState.addUser
        ⟨str "Ana", str "García", str "ana@x.com"⟩ (str "U1") with
      | .ok p => ((p.2.incrementActiveLoans (str "U1")).2.deleteUser
          (str "U1")).isOk
      | .error _ => true) = false := by
  rfl

/-- C9 (amended): `BookServiceV2.deleteBook` removes a found book from all
four indices with no business-rule check whatsoever, but
`UserServiceV2.deleteUser` is *not* unconditional: it throws when the user has
active loans, and only otherwise removes the user from all three indices. -/
theorem claim_C9_delete_behavior
    (su : UserServiceV2) (id : Str) (sb : BookServiceV2) (bid : Str)
    (hOrdU : OrderedT su.usersByEmail.root)
    (hOrdB : OrderedT sb.booksByISBN.root) :
    (su.findUserById id = none → su.deleteUser id = .ok (false, su)) ∧
    (∀ u, su.findUserById id = some u → 0 < u.prestamosActivos →
        su.deleteUser id =
          .error "No se puede eliminar un usuario con préstamos activos") ∧
    (∀ u, su.findUserById id = some u → u.prestamosActivos = 0 →
        ∃ s', su.deleteUser id = .ok (true, s') ∧
          s'.findByEmail u.email = none ∧
          s'.usersByName.search (UserServiceV2.getFullName u.nombre u.apellido)
            = none ∧
          s'.insertionOrder = removeBy su.insertionOrder (fun x => x.id == id)) ∧
    (∀ b, sb.findBookById bid = some b →
        ∃ s', sb.deleteBook bid = (true, s') ∧
          s'.searchByISBN b.isbn = none ∧
          s'.booksByTitle.search b.titulo = none ∧
          s'.booksByAuthor.search b.autor = none ∧
          s'.insertionOrder = removeBy sb.insertionOrder (fun x => x.id == bid)) := by
  refine ⟨?_, ?_, ?_, ?_⟩
  · intro h
    rw [UserServiceV2.deleteUser, h]
  · intro u hu hl
    rw [UserServiceV2.deleteUser, hu]
    have : u.prestamosActivos > 0 := hl
    simp [this]
  · intro u hu hl
    rw [UserServiceV2.deleteUser, hu]
    have h0 : ¬ (u.prestamosActivos > 0) := by omega
    simp only [h0, if_neg, ite_false]
    refine ⟨_, rfl, ?_, ?_, rfl⟩
    · show searchNode (deleteNode su.usersByEmail.root (jsToLowerCase u.email))
        (jsToLowerCase u.email) = none
      rw [searchNode_deleteNode _ hOrdU]
      simp
    · show searchW (deleteW su.usersByName.root
        (Trie.normalize (UserServiceV2.getFullName u.nombre u.apellido))).1
        (Trie.normalize (UserServiceV2.getFullName u.nombre u.apellido)) = none
      exact searchW_deleteW_self _ _
  · intro b hb
    rw [BookServiceV2.deleteBook, hb]
    refine ⟨_, rfl, ?_, ?_, ?_, rfl⟩
    · show searchNode (deleteNode sb.booksByISBN.root b.isbn) b.isbn = none
      rw [searchNode_deleteNode _ hOrdB]
      simp
    · show searchW (deleteW sb.booksByTitle.root (Trie.normalize b.titulo)).1
        (Trie.normalize b.titulo) = none
      exact searchW_deleteW_self _ _
    · show searchW (deleteW sb.booksByAuthor.root (Trie.normalize b.autor)).1
        (Trie.normalize b.autor) = none
      exact searchW_deleteW_self _ _

theorem claim_C9_witness :
    (OrderedT (UserServiceV2.clearState.usersByEmail.root) ∧
     OrderedT (BookServiceV2.clearState.booksByISBN.root)) ∧
    ((UserServiceV2.clearState.findUserById (str "U1") = none →
        UserServiceV2.clearState.deleteUser (str "U1")
          = .ok (false, UserServiceV2.clearState)) ∧
     (∀ u, UserServiceV2.clearState.findUserById (str "U1") = some u →
        0 < u.prestamosActivos →
        UserServiceV2.clearState.deleteUser (str "U1") =
          .error "No se puede eliminar un usuario con préstamos activos") ∧
     (∀ u, UserServiceV2.clearState.findUserById (str "U1") = some u →
        u.prestamosActivos = 0 →
        ∃ s', UserServiceV2.clearState.deleteUser (str "U1") = .ok (true, s') ∧
          s'.findByEmail u.email = none ∧
          s'.usersByName.search (UserServiceV2.getFullName u.nombre u.apellido)
            = none ∧
          s'.insertionOrder = removeBy UserServiceV2.clearState.insertionOrder
            (fun x => x.id == str "U1")) ∧
     (∀ b, BookServiceV2.clearState.findBookById (str "B1") = some b →
        ∃ s', BookServiceV2.clearState.deleteBook (str "B1") = (true, s') ∧
          s'.searchByISBN b.isbn = none ∧
          s'.booksByTitle.search b.titulo = none ∧
          s'.booksByAuthor.search b.autor = none ∧
          s'.insertionOrder = removeBy BookServiceV2.clearState.insertionOrder
            (fun x => x.id == str "B1"))) :=
  ⟨⟨trivial, trivial⟩,
    claim_C9_delete_behavior UserServiceV2.clearState (str "U1")
      BookServiceV2.clearState (str "B1") trivial trivial⟩

/-! ### AVL tree lemmas: heights and balance -/

theorem getHeight_eq_realHeight {α β : Type} (t : AVLNode α β) (h : HeightsOk t) :
    getHeight t = realHeight t := by
  cases t with
  | nil => rfl
  | node k v l r hh =>
    obtain ⟨_, _, he⟩ := h
    exact he

theorem heightsOk_mkNode {α β : Type} (k : α) (v : β) (l r : AVLNode α β)
    (hl : HeightsOk l) (hr : HeightsOk r) : HeightsOk (mkNode k v l r) :=
  ⟨hl, hr, by rw [getHeight_eq_realHeight l hl, getHeight_eq_realHeight r hr]⟩

theorem balanceN_spec {α β : Type} (k : α) (v : β) (l r : AVLNode α β) (h : Nat)
    (hl : AvlT l) (hr : AvlT r)
    (hd1 : (realHeight l : Int) - realHeight r ≤ 2)
    (hd2 : (realHeight r : Int) - realHeight l ≤ 2) :
    AvlT (balanceN (.node k v l r h)) ∧
    max (realHeight l) (realHeight r) ≤ realHeight (balanceN (.node k v l r h)) ∧
    realHeight (balanceN (.node k v l r h)) ≤ max (realHeight l) (realHeight r) + 1 ∧
    (((realHeight l : Int) - realHeight r).natAbs ≤ 1 →
      realHeight (balanceN (.node k v l r h)) = max (realHeight l) (realHeight r) + 1) := by
  obtain ⟨hlh, hlb⟩ := hl
  obtain ⟨hrh, hrb⟩ := hr
  have hgl : getHeight l = realHeight l := getHeight_eq_realHeight l hlh
  have hgr : getHeight r = realHeight r := getHeight_eq_realHeight r hrh
  rw [show balanceN (.node k v l r h) =
      (if 1 < (getHeight l : Int) - getHeight r then
        if 0 ≤ getBalanceFactor l then rotateRight (mkNode k v l r)
        else rotateRight (mkNode k v (rotateLeft l) r)
      else if (getHeight l : Int) - getHeight r < -1 then
        if getBalanceFactor r ≤ 0 then rotateLeft (mkNode k v l r)
        else rotateLeft (mkNode k v l (rotateRight r))
      else mkNode k v l r) from rfl]
  rw [hgl, hgr]
  by_cases hc1 : 1 < (realHeight l : Int) - realHeight r
  · rw [if_pos hc1]
    have hdeq : (realHeight l : Int) - realHeight r = 2 := by omega
    cases l with
    | nil =>
      exfalso
      have : realHeight (AVLNode.nil : AVLNode α β) = 0 := rfl
      omega
    | node lk lv ll lr lh2 =>
      obtain ⟨hllh, hlrh, hlheq⟩ := hlh
      obtain ⟨hllb, hlrb, hlb1, hlb2⟩ := hlb
      have hgll : getHeight ll = realHeight ll := getHeight_eq_realHeight ll hllh
      have hglr : getHeight lr = realHeight lr := getHeight_eq_realHeight lr hlrh
      have hbf : getBalanceFactor (AVLNode.node lk lv ll lr lh2) =
          (realHeight ll : Int) - realHeight lr := by
        show (getHeight ll : Int) - getHeight lr = _
        rw [hgll, hglr]
      have hL : realHeight (AVLNode.node lk lv ll lr lh2) =
          max (realHeight ll) (realHeight lr) + 1 := rfl
      by_cases hc2 : 0 ≤ getBalanceFactor (AVLNode.node lk lv ll lr lh2)
      · rw [if_pos hc2, hbf] at *
        rw [show rotateRight (mkNode k v (AVLNode.node lk lv ll lr lh2) r) =
          mkNode lk lv ll (mkNode k v lr r) from rfl]
        have hy : realHeight (mkNode k v lr r) =
          max (realHeight lr) (realHeight r) + 1 := rfl
        have hx : realHeight (mkNode lk lv ll (mkNode k v lr r)) =
          max (realHeight ll) (max (realHeight lr) (realHeight r) + 1) + 1 := rfl
        refine ⟨⟨heightsOk_mkNode _ _ _ _ hllh (heightsOk_mkNode _ _ _ _ hlrh hrh),
          hllb, ⟨hlrb, hrb, ?_, ?_⟩, ?_, ?_⟩, ?_, ?_, ?_⟩
        · omega
        · omega
        · rw [hy]; omega
        · rw [hy]; omega
        · rw [hx]; omega
        · rw [hx]; omega
        · intro hna; rw [hx]; omega
      · rw [if_neg hc2, hbf] at *
        cases lr with
        | nil =>
          exfalso
          have : realHeight (AVLNode.nil : AVLNode α β) = 0 := rfl
          omega
        | node mk2 mv2 ml mr mh2 =>
          obtain ⟨hmlh, hmrh, hmeq⟩ := hlrh
          obtain ⟨hmlb, hmrb, hmb1, hmb2⟩ := hlrb
          have hM : realHeight (AVLNode.node mk2 mv2 ml mr mh2) =
            max (realHeight ml) (realHeight mr) + 1 := rfl
          rw [show rotateLeft (AVLNode.node lk lv ll (AVLNode.node mk2 mv2 ml mr mh2) lh2) =
            mkNode mk2 mv2 (mkNode lk lv ll ml) mr from rfl]
          rw [show rotateRight (mkNode k v (mkNode mk2 mv2 (mkNode lk lv ll ml) mr) r) =
            mkNode mk2 mv2 (mkNode lk lv ll ml) (mkNode k v mr r) from rfl]
          have hp : realHeight (mkNode lk lv ll ml) =
            max (realHeight ll) (realHeight ml) + 1 := rfl
          have hq : realHeight (mkNode k v mr r) =
            max (realHeight mr) (realHeight r) + 1 := rfl
          have hx : realHeight (mkNode mk2 mv2 (mkNode lk lv ll ml) (mkNode k v mr r)) =
            max (max (realHeight ll) (realHeight ml) + 1)
              (max (realHeight mr) (realHeight r) + 1) + 1 := rfl
          have hmlOk : HeightsOk (mkNode lk lv ll ml) := heightsOk_mkNode _ _ _ _ hllh hmlh
          have hmrOk : HeightsOk (mkNode k v mr r) := heightsOk_mkNode _ _ _ _ hmrh hrh
          refine ⟨⟨heightsOk_mkNode _ _ _ _ hmlOk hmrOk,
            ⟨hllb, hmlb, ?_, ?_⟩, ⟨hmrb, hrb, ?_, ?_⟩, ?_, ?_⟩, ?_, ?_, ?_⟩
          · omega
          · omega
          · omega
          · omega
          · rw [hp, hq]; omega
          · rw [hp, hq]; omega
          · rw [hx]; omega
          · rw [hx]; omega
          · intro hna; rw [hx]; omega
  · rw [if_neg hc1]
    by_cases hc3 : (realHeight l : Int) - realHeight r < -1
    · rw [if_pos hc3]
      have hdeq : (realHeight r : Int) - realHeight l = 2 := by omega
      cases r with
      | nil =>
        exfalso
        have : realHeight (AVLNode.nil : AVLNode α β) = 0 := rfl
        omega
      | node rk rv rl rr rh2 =>
        obtain ⟨hrlh, hrrh, hrheq⟩ := hrh
        obtain ⟨hrlb, hrrb, hrb1, hrb2⟩ := hrb
        have hgrl : getHeight rl = realHeight rl := getHeight_eq_realHeight rl hrlh
        have hgrr : getHeight rr = realHeight rr := getHeight_eq_realHeight rr hrrh
        have hbf : getBalanceFactor (AVLNode.node rk rv rl rr rh2) =
            (realHeight rl : Int) - realHeight rr := by
          show (getHeight rl : Int) - getHeight rr = _
          rw [hgrl, hgrr]
        have hR : realHeight (AVLNode.node rk rv rl rr rh2) =
            max (realHeight rl) (realHeight rr) + 1 := rfl
        by_cases hc4 : getBalanceFactor (AVLNode.node rk rv rl rr rh2) ≤ 0
        · rw [if_pos hc4, hbf] at *
          rw [show rotateLeft (mkNode k v l (AVLNode.node rk rv rl rr rh2)) =
            mkNode rk rv (mkNode k v l rl) rr from rfl]
          have hy : realHeight (mkNode k v l rl) =
            max (realHeight l) (realHeight rl) + 1 := rfl
          have hx : realHeight (mkNode rk rv (mkNode k v l rl) rr) =
            max (max (realHeight l) (realHeight rl) + 1) (realHeight rr) + 1 := rfl
          refine ⟨⟨heightsOk_mkNode _ _ _ _ (heightsOk_mkNode _ _ _ _ hlh hrlh) hrrh,
            ⟨hlb, hrlb, ?_, ?_⟩, hrrb, ?_, ?_⟩, ?_, ?_, ?_⟩
          · omega
          · omega
          · rw [hy]; omega
          · rw [hy]; omega
          · rw [hx]; omega
          · rw [hx]; omega
          · intro hna; rw [hx]; omega
        · rw [if_neg hc4, hbf] at *
          cases rl with
          | nil =>
            exfalso
            have : realHeight (AVLNode.nil : AVLNode α β) = 0 := rfl
            omega
          | node mk2 mv2 ml mr mh2 =>
            obtain ⟨hmlh, hmrh, hmeq⟩ := hrlh
            obtain ⟨hmlb, hmrb, hmb1, hmb2⟩ := hrlb
            have hM : realHeight (AVLNode.node mk2 mv2 ml mr mh2) =
              max (realHeight ml) (realHeight mr) + 1 := rfl
            rw [show rotateRight (AVLNode.node rk rv (AVLNode.node mk2 mv2 ml mr mh2) rr rh2) =
              mkNode mk2 mv2 ml (mkNode rk rv mr rr) from rfl]
            rw [show rotateLeft (mkNode k v l (mkNode mk2 mv2 ml (mkNode rk rv mr rr))) =
              mkNode mk2 mv2 (mkNode k v l ml) (mkNode rk rv mr rr) from rfl]
            have hp : realHeight (mkNode k v l ml) =
              max (realHeight l) (realHeight ml) + 1 := rfl
            have hq : realHeight (mkNode rk rv mr rr) =
              max (realHeight mr) (realHeight rr) + 1 := rfl
            have hx : realHeight (mkNode mk2 mv2 (mkNode k v l ml) (mkNode rk rv mr rr)) =
              max (max (realHeight l) (realHeight ml) + 1)
                (max (realHeight mr) (realHeight rr) + 1) + 1 := rfl
            refine ⟨⟨heightsOk_mkNode _ _ _ _ (heightsOk_mkNode _ _ _ _ hlh hmlh)
              (heightsOk_mkNode _ _ _ _ hmrh hrrh),
              ⟨hlb, hmlb, ?_, ?_⟩, ⟨hmrb, hrrb, ?_, ?_⟩, ?_, ?_⟩, ?_, ?_, ?_⟩
            · omega
            · omega
            · omega
            · omega
            · rw [hp, hq]; omega
            · rw [hp, hq]; omega
            · rw [hx]; omega
            · rw [hx]; omega
            · intro hna; rw [hx]; omega
    · rw [if_neg hc3]
      have hx : realHeight (mkNode k v l r) =
        max (realHeight l) (realHeight r) + 1 := rfl
      refine ⟨⟨heightsOk_mkNode _ _ _ _ hlh hrh, hlb, hrb, ?_, ?_⟩, ?_, ?_, ?_⟩
      · omega
      · omega
      · rw [hx]; omega
      · rw [hx]
      · intro _; rw [hx]

theorem insertNode_avl {α β : Type} [LinearOrder α] (t : AVLNode α β) (ht : AvlT t)
    (k : α) (v : β) :
    AvlT (insertNode t k v) ∧
    realHeight t ≤ realHeight (insertNode t k v) ∧
    realHeight (insertNode t k v) ≤ realHeight t + 1 := by
  induction t with
  | nil =>
    refine ⟨⟨⟨trivial, trivial, rfl⟩, trivial, trivial, ?_, ?_⟩, ?_, ?_⟩ <;>
      simp [realHeight]
  | node nk nv l r hh ihl ihr =>
    obtain ⟨hH, hB⟩ := ht
    obtain ⟨hlh, hrh, hheq⟩ := hH
    obtain ⟨hlb, hrb, hb1, hb2⟩ := hB
    have hT : realHeight (AVLNode.node nk nv l r hh) =
      max (realHeight l) (realHeight r) + 1 := rfl
    by_cases h1 : k < nk
    · have he : insertNode (AVLNode.node nk nv l r hh) k v =
          balanceN (AVLNode.node nk nv (insertNode l k v) r hh) := by
        show (if k < nk then _ else if nk < k then _ else _) = _
        rw [if_pos h1]
      rw [he]
      obtain ⟨hl', hlo, hhi⟩ := ihl ⟨hlh, hlb⟩
      obtain ⟨hA, hLo, hHi, hEx⟩ := balanceN_spec nk nv (insertNode l k v) r hh hl'
        ⟨hrh, hrb⟩ (by omega) (by omega)
      refine ⟨hA, ?_, ?_⟩
      · by_cases hcase : ((realHeight (insertNode l k v) : Int) - realHeight r).natAbs ≤ 1
        · have := hEx hcase; omega
        · omega
      · omega
    · by_cases h2 : nk < k
      · have he : insertNode (AVLNode.node nk nv l r hh) k v =
            balanceN (AVLNode.node nk nv l (insertNode r k v) hh) := by
          show (if k < nk then _ else if nk < k then _ else _) = _
          rw [if_neg h1, if_pos h2]
        rw [he]
        obtain ⟨hr', hlo, hhi⟩ := ihr ⟨hrh, hrb⟩
        obtain ⟨hA, hLo, hHi, hEx⟩ := balanceN_spec nk nv l (insertNode r k v) hh
          ⟨hlh, hlb⟩ hr' (by omega) (by omega)
        refine ⟨hA, ?_, ?_⟩
        · by_cases hcase : ((realHeight l : Int) - realHeight (insertNode r k v)).natAbs ≤ 1
          · have := hEx hcase; omega
          · omega
        · omega
      · have he : insertNode (AVLNode.node nk nv l r hh) k v =
            AVLNode.node nk v l r hh := by
          show (if k < nk then _ else if nk < k then _ else _) = _
          rw [if_neg h1, if_neg h2]
        rw [he]
        have hT2 : realHeight (AVLNode.node nk v l r hh) =
          max (realHeight l) (realHeight r) + 1 := rfl
        exact ⟨⟨⟨hlh, hrh, hheq⟩, hlb, hrb, hb1, hb2⟩, by omega, by omega⟩

theorem deleteNode_avl {α β : Type} [LinearOrder α] (t : AVLNode α β) (ht : AvlT t) :
    ∀ k : α, AvlT (deleteNode t k) ∧
      realHeight (deleteNode t k) ≤ realHeight t ∧
      realHeight t ≤ realHeight (deleteNode t k) + 1 := by
  induction t with
  | nil =>
    intro k
    have hd : deleteNode (AVLNode.nil : AVLNode α β) k = AVLNode.nil := rfl
    rw [hd]
    exact ⟨⟨trivial, trivial⟩, le_refl _, by omega⟩
  | node nk nv l r hh ihl ihr =>
    intro k
    obtain ⟨hH, hB⟩ := ht
    obtain ⟨hlh, hrh, hheq⟩ := hH
    obtain ⟨hlb, hrb, hb1, hb2⟩ := hB
    have hT : realHeight (AVLNode.node nk nv l r hh) =
      max (realHeight l) (realHeight r) + 1 := rfl
    rw [deleteNode.eq_def]
    dsimp only
    by_cases h1 : k < nk
    · rw [if_pos h1]
      obtain ⟨hl', hlo, hhi⟩ := ihl ⟨hlh, hlb⟩ k
      obtain ⟨hA, hLo, hHi, hEx⟩ := balanceN_spec nk nv (deleteNode l k) r hh hl'
        ⟨hrh, hrb⟩ (by omega) (by omega)
      refine ⟨hA, ?_, ?_⟩
      · omega
      · by_cases hcase : ((realHeight (deleteNode l k) : Int) - realHeight r).natAbs ≤ 1
        · have := hEx hcase; omega
        · omega
    · rw [if_neg h1]
      by_cases h2 : nk < k
      · rw [if_pos h2]
        obtain ⟨hr', hlo, hhi⟩ := ihr ⟨hrh, hrb⟩ k
        obtain ⟨hA, hLo, hHi, hEx⟩ := balanceN_spec nk nv l (deleteNode r k) hh
          ⟨hlh, hlb⟩ hr' (by omega) (by omega)
        refine ⟨hA, ?_, ?_⟩
        · omega
        · by_cases hcase : ((realHeight l : Int) - realHeight (deleteNode r k)).natAbs ≤ 1
          · have := hEx hcase; omega
          · omega
      · rw [if_neg h2]
        cases l with
        | nil =>
          cases r with
          | nil =>
            dsimp only
            refine ⟨⟨trivial, trivial⟩, ?_, ?_⟩ <;> simp [realHeight]
          | node rk rv rl rr rh2 =>
            dsimp only
            have hR : realHeight (AVLNode.node rk rv rl rr rh2) =
              max (realHeight rl) (realHeight rr) + 1 := rfl
            refine ⟨⟨hrh, hrb⟩, ?_, ?_⟩ <;>
              · have hN : realHeight (AVLNode.nil : AVLNode α β) = 0 := rfl
                omega
        | node lk lv ll lr lh2 =>
          cases r with
          | nil =>
            dsimp only
            refine ⟨⟨hlh, hlb⟩, ?_, ?_⟩ <;>
              · have hN : realHeight (AVLNode.nil : AVLNode α β) = 0 := rfl
                omega
          | node rk rv rl rr rh2 =>
            dsimp only
            split
            · next hfm =>
                exfalso
                rw [findMinNode_eq_head, entriesN_node] at hfm
                cases he2 : entriesN rl with
                | nil => rw [he2] at hfm; simp at hfm
                | cons p tail => rw [he2] at hfm; simp at hfm
            · next mk mv hfm =>
                obtain ⟨hdA, hdLo, hdHi⟩ := ihr ⟨hrh, hrb⟩ mk
                obtain ⟨hA, hLo, hHi, hEx⟩ := balanceN_spec mk mv
                  (AVLNode.node lk lv ll lr lh2)
                  (deleteNode (AVLNode.node rk rv rl rr rh2) mk) hh
                  ⟨hlh, hlb⟩ hdA (by omega) (by omega)
                refine ⟨hA, ?_, ?_⟩
                · omega
                · by_cases hcase : ((realHeight (AVLNode.node lk lv ll lr lh2) : Int) -
                      realHeight (deleteNode (AVLNode.node rk rv rl rr rh2) mk)).natAbs ≤ 1
                  · have := hEx hcase; omega
                  · omega

theorem avlT_applyTreeOps {α β : Type} [LinearOrder α] (ops : List (TreeOp α β))
    (t : AVLTree α β) (ht : AvlT t.root) : AvlT (applyTreeOps t ops).root := by
  induction ops generalizing t with
  | nil => exact ht
  | cons op rest ih =>
    cases op with
    | insert k v => exact ih _ (insertNode_avl t.root ht k v).1
    | delete k => exact ih _ ((deleteNode_avl t.root ht) k).1

theorem orderedT_applyTreeOps {α β : Type} [LinearOrder α] (ops : List (TreeOp α β))
    (t : AVLTree α β) (ht : OrderedT t.root) : OrderedT (applyTreeOps t ops).root := by
  induction ops generalizing t with
  | nil => exact ht
  | cons op rest ih =>
    cases op with
    | insert k v => exact ih _ (orderedT_insertNode t.root ht k v)
    | delete k => exact ih _ (orderedT_deleteNode t.root ht k)

theorem inOrderN_eq_map_snd {α β : Type} (t : AVLNode α β) :
    inOrderN t = (entriesN t).map Prod.snd := by
  induction t with
  | nil => rfl
  | node k v l r h ihl ihr => simp [inOrderN, entriesN, ihl, ihr]

/-! ### Claim C5: AVL balance invariant -/

/-- C5: for every sequence of insert and delete operations on the balanced
tree, after each operation every node satisfies the AVL balance invariant --
the (true) heights of its left and right subtrees differ by at most 1 -- and
every stored height field is accurate.  Balance is restored by `balance`'s
four-case rotation dispatch, whose specification is `balanceN_spec`. -/
theorem claim_C5_avl_balance {α β : Type} [LinearOrder α] (ops : List (TreeOp α β)) :
    HeightsOk (applyTreeOps (AVLTree.empty : AVLTree α β) ops).root ∧
    BalancedT (applyTreeOps (AVLTree.empty : AVLTree α β) ops).root :=
  avlT_applyTreeOps ops AVLTree.empty ⟨trivial, trivial⟩

/-! ### Claim C6: in-order traversal is sorted -/

/-- C6: in every state of the balanced tree reachable by insert/delete
operations, `inOrderTraversal()` yields the stored values with their keys in
non-decreasing order (the traversal is exactly the value column of the
key-sorted entry list); in particular inserting values 10, 30, 20 under keys
"A", "C", "B" (in that order) makes `inOrderTraversal()` return them in key
order A, B, C, i.e. `[10, 20, 30]`. -/
theorem claim_C6_inorder_sorted {α β : Type} [LinearOrder α] (ops : List (TreeOp α β)) :
    List.Pairwise (· ≤ ·) (keysN (applyTreeOps (AVLTree.empty : AVLTree α β) ops).root) ∧
    AVLTree.inOrderTraversal (applyTreeOps (AVLTree.empty : AVLTree α β) ops) =
      (entriesN (applyTreeOps (AVLTree.empty : AVLTree α β) ops).root).map Prod.snd ∧
    AVLTree.inOrderTraversal (applyTreeOps (AVLTree.empty : AVLTree Str Nat)
        [TreeOp.insert (str "A") 10, TreeOp.insert (str "C") 30,
         TreeOp.insert (str "B") 20]) = [10, 20, 30] := by
  refine ⟨?_, inOrderN_eq_map_snd _, by decide⟩
  have ho := orderedT_applyTreeOps ops (AVLTree.empty : AVLTree α β) trivial
  exact ((orderedT_iff_pairwise _).mp ho).imp le_of_lt

/-! ### Graph operation lemmas (for the similarity claims) -/

theorem hasNode_addNode {ν W : Type} (g : Graph ν W) (id x : Str) (d : ν) :
    (g.addNode id d).hasNode x = (x = id || g.hasNode x) := by
  rw [Graph.addNode]
  by_cases h : g.hasNode id
  · rw [if_pos h]
    by_cases hx : x = id
    · subst hx; simp [h]
    · simp [hx]
  · rw [if_neg h]
    show (jsGet (jsSet g.nodes id d) x).isSome = _
    rw [jsGet_jsSet]
    by_cases hx : x = id
    · simp [hx]
    · simp [hx, Graph.hasNode]

theorem getEdgeWeight_addNode {ν W : Type} (g : Graph ν W) (id : Str) (d : ν)
    (hsub : adjSub g) (a b : Str) :
    (g.addNode id d).getEdgeWeight a b = g.getEdgeWeight a b := by
  rw [Graph.addNode]
  by_cases h : g.hasNode id
  · rw [if_pos h]
  · rw [if_neg h]
    show jsGet ((jsGet (jsSet g.adjacencyList id []) a).getD []) b = _
    rw [jsGet_jsSet]
    by_cases ha : a = id
    · subst ha
      have hnone : jsGet g.adjacencyList a = none := by
        cases hg : jsGet g.adjacencyList a with
        | none => rfl
        | some l =>
          exact absurd (hsub (a, l) (mem_of_jsGet_eq_some hg)) (by
            simpa [Graph.hasNode] using h)
      rw [if_pos rfl, Option.getD_some]
      rw [show Graph.getEdgeWeight g a b = jsGet ((jsGet g.adjacencyList a).getD []) b
        from rfl, hnone]
      rfl
    · simp only [ha, if_neg ha]
      rfl

theorem adjSub_addNode {ν W : Type} (g : Graph ν W) (id : Str) (d : ν)
    (hsub : adjSub g) : adjSub (g.addNode id d) := by
  rw [Graph.addNode]
  by_cases h : g.hasNode id
  · rw [if_pos h]; exact hsub
  · rw [if_neg h]
    intro p hp
    show (jsGet (jsSet g.nodes id d) p.1).isSome = true
    rw [jsGet_jsSet]
    by_cases hpid : p.1 = id
    · simp [hpid]
    · simp only [hpid, if_neg hpid]
      -- p came from jsSet adj id [] with p.1 ≠ id, so p ∈ old adjacency
      have hp' : p ∈ g.adjacencyList := by
        revert hp hpid
        show p ∈ jsSet g.adjacencyList id [] → ¬ p.1 = id → p ∈ g.adjacencyList
        clear hsub h
        induction g.adjacencyList with
        | nil =>
          intro hp hpid
          simp [jsSet] at hp
          exact absurd (congrArg Prod.fst hp) hpid
        | cons q rest ih =>
          intro hp hpid
          obtain ⟨qk, qv⟩ := q
          by_cases hq : qk = id
          · subst hq
            simp only [jsSet, if_pos rfl] at hp
            rcases List.mem_cons.mp hp with hp | hp
            · exact absurd (congrArg Prod.fst hp) hpid
            · exact List.mem_cons_of_mem _ hp
          · simp only [jsSet, if_neg hq] at hp
            rcases List.mem_cons.mp hp with hp | hp
            · exact hp ▸ List.mem_cons_self _ _
            · exact List.mem_cons_of_mem _ (ih hp hpid)
      exact hsub p hp'

theorem mem_jsSet_elim {κ γ : Type} [DecidableEq κ] {l : List (κ × γ)} {k : κ} {v : γ}
    {p : κ × γ} (hp : p ∈ jsSet l k v) : p = (k, v) ∨ p ∈ l := by
  induction l with
  | nil =>
    simp [jsSet] at hp
    exact Or.inl hp
  | cons q rest ih =>
    obtain ⟨qk, qv⟩ := q
    by_cases hq : qk = k
    · subst hq
      simp only [jsSet, if_pos rfl] at hp
      rcases List.mem_cons.mp hp with hp | hp
      · exact Or.inl hp
      · exact Or.inr (List.mem_cons_of_mem _ hp)
    · simp only [jsSet, if_neg hq] at hp
      rcases List.mem_cons.mp hp with hp | hp
      · exact Or.inr (hp ▸ List.mem_cons_self _ _)
      · rcases ih hp with hp | hp
        · exact Or.inl hp
        · exact Or.inr (List.mem_cons_of_mem _ hp)

theorem hasNode_addEdge {ν W : Type} [One W] (g : Graph ν W) (s t : Str) (w : W)
    (x : Str) : ((g.addEdge s t w).2).hasNode x = g.hasNode x := by
  rw [Graph.addEdge]
  by_cases h : g.hasNode s && g.hasNode t
  · rw [if_pos h]
    by_cases hd : g.isDirected <;> simp [hd, Graph.hasNode]
  · rw [if_neg h]

theorem adjSub_addEdge {ν W : Type} [One W] (g : Graph ν W) (s t : Str) (w : W)
    (hsub : adjSub g) : adjSub ((g.addEdge s t w).2) := by
  rw [Graph.addEdge]
  by_cases h : g.hasNode s && g.hasNode t
  · simp only [Bool.and_eq_true] at h
    obtain ⟨hs, ht⟩ := h
    rw [if_pos (by simp [hs, ht])]
    by_cases hd : g.isDirected
    · simp only [hd, if_pos rfl]
      intro p hp
      rcases mem_jsSet_elim hp with hp | hp
      · rw [hp]
        exact hs
      · exact hsub p hp
    · simp only [hd, Bool.false_eq_true, if_false]
      intro p hp
      rcases mem_jsSet_elim hp with hp | hp
      · rw [hp]
        exact ht
      · rcases mem_jsSet_elim hp with hp | hp
        · rw [hp]
          exact hs
        · exact hsub p hp
  · rw [if_neg h]
    exact hsub

theorem getEdgeWeight_addEdge_undirected {ν W : Type} [One W] (g : Graph ν W)
    (s t : Str) (w : W) (hD : g.isDirected = false) (hW : g.isWeighted = true)
    (hs : g.hasNode s = true) (ht : g.hasNode t = true) (a b : Str) :
    ((g.addEdge s t w).2).getEdgeWeight a b =
      if (a = s ∧ b = t) ∨ (a = t ∧ b = s) then some w else g.getEdgeWeight a b := by
  rw [Graph.addEdge]
  rw [if_pos (by simp [hs, ht]), hD]
  simp only [Bool.false_eq_true, if_false, hW, if_pos rfl]
  have hbase : ∀ x y : Str, g.getEdgeWeight x y =
      jsGet ((jsGet g.adjacencyList x).getD []) y := fun x y => rfl
  show jsGet ((jsGet (jsSet (jsSet g.adjacencyList s
      (jsSet ((jsGet g.adjacencyList s).getD []) t w)) t
      (jsSet ((jsGet (jsSet g.adjacencyList s
        (jsSet ((jsGet g.adjacencyList s).getD []) t w)) t).getD []) s w)) a).getD []) b
    = _
  by_cases hat : a = t
  · rw [show (jsGet (jsSet (jsSet g.adjacencyList s
        (jsSet ((jsGet g.adjacencyList s).getD []) t w)) t
        (jsSet ((jsGet (jsSet g.adjacencyList s
          (jsSet ((jsGet g.adjacencyList s).getD []) t w)) t).getD []) s w)) a)
      = some (jsSet ((jsGet (jsSet g.adjacencyList s
          (jsSet ((jsGet g.adjacencyList s).getD []) t w)) t).getD []) s w) from by
        rw [jsGet_jsSet, if_pos hat]]
    rw [Option.getD_some, jsGet_jsSet]
    by_cases hbs : b = s
    · rw [if_pos hbs, if_pos (Or.inr ⟨hat, hbs⟩)]
    · rw [if_neg hbs, jsGet_jsSet]
      by_cases hts : t = s
      · rw [if_pos hts, Option.getD_some, jsGet_jsSet]
        have hbt : ¬ (b = t) := fun hh => hbs (hh.trans hts)
        rw [if_neg hbt]
        have hno : ¬ ((a = s ∧ b = t) ∨ (a = t ∧ b = s)) := by
          rintro (⟨_, h2⟩ | ⟨_, h2⟩)
          · exact hbt h2
          · exact hbs h2
        rw [if_neg hno, hbase, hat, hts]
      · rw [if_neg hts]
        have has : ¬ (a = s) := fun hh => hts (hat.symm.trans hh)
        have hno : ¬ ((a = s ∧ b = t) ∨ (a = t ∧ b = s)) := by
          rintro (⟨h1, _⟩ | ⟨_, h2⟩)
          · exact has h1
          · exact hbs h2
        rw [if_neg hno, hbase, hat]
  · rw [show (jsGet (jsSet (jsSet g.adjacencyList s
        (jsSet ((jsGet g.adjacencyList s).getD []) t w)) t
        (jsSet ((jsGet (jsSet g.adjacencyList s
          (jsSet ((jsGet g.adjacencyList s).getD []) t w)) t).getD []) s w)) a)
      = jsGet (jsSet g.adjacencyList s
          (jsSet ((jsGet g.adjacencyList s).getD []) t w)) a from by
        rw [jsGet_jsSet, if_neg hat]]
    rw [jsGet_jsSet]
    by_cases has : a = s
    · rw [if_pos has, Option.getD_some, jsGet_jsSet]
      by_cases hbt : b = t
      · rw [if_pos hbt, if_pos (Or.inl ⟨has, hbt⟩)]
      · rw [if_neg hbt]
        have hno : ¬ ((a = s ∧ b = t) ∨ (a = t ∧ b = s)) := by
          rintro (⟨_, h2⟩ | ⟨h1, _⟩)
          · exact hbt h2
          · exact hat h1
        rw [if_neg hno, hbase, has]
    · rw [if_neg has]
      have hno : ¬ ((a = s ∧ b = t) ∨ (a = t ∧ b = s)) := by
        rintro (⟨h1, _⟩ | ⟨h1, _⟩)
        · exact has h1
        · exact hat h1
      rw [if_neg hno, hbase]

/-! ### Association-list and Jaccard lemmas for the similarity development -/

theorem jsGet_isSome_iff {κ γ : Type} [DecidableEq κ] (l : List (κ × γ)) (k : κ) :
    (jsGet l k).isSome = true ↔ k ∈ jsKeys l := by
  induction l with
  | nil => simp [jsGet, jsKeys]
  | cons p rest ih =>
    obtain ⟨pk, pv⟩ := p
    by_cases h : pk = k
    · subst h
      simp [jsGet, jsKeys]
    · have h' : ¬ k = pk := fun hh => h hh.symm
      simp [jsGet, jsKeys, h, h', ih]

theorem jsGet_eq_of_mem_nodup {κ γ : Type} [DecidableEq κ] {l : List (κ × γ)}
    (hnd : (jsKeys l).Nodup) {p : κ × γ} (hp : p ∈ l) : jsGet l p.1 = some p.2 := by
  induction l with
  | nil => simp at hp
  | cons q rest ih =>
    obtain ⟨qk, qv⟩ := q
    simp only [jsKeys, List.map_cons, List.nodup_cons] at hnd
    rcases List.mem_cons.mp hp with hp | hp
    · subst hp
      simp [jsGet]
    · have hne : ¬ qk = p.1 := by
        intro hh
        exact hnd.1 (by rw [hh]; exact List.mem_map.mpr ⟨p, hp, rfl⟩)
      simp only [jsGet, if_neg hne]
      exact ih hnd.2 hp

theorem mem_jsKeys_jsSet {κ γ : Type} [DecidableEq κ] (l : List (κ × γ)) (k x : κ) (v : γ) :
    x ∈ jsKeys (jsSet l k v) ↔ x ∈ jsKeys l ∨ x = k := by
  induction l with
  | nil => simp [jsSet, jsKeys]
  | cons p rest ih =>
    obtain ⟨pk, pv⟩ := p
    by_cases h : pk = k
    · subst h
      simp only [jsSet, if_pos rfl, jsKeys, List.map_cons]
      simp only [jsKeys] at ih
      simp [List.mem_cons]
      tauto
    · simp only [jsSet, if_neg h, jsKeys, List.map_cons]
      simp only [jsKeys] at ih
      simp [List.mem_cons, ih]
      tauto

theorem nodup_jsKeys_jsSet {κ γ : Type} [DecidableEq κ] (l : List (κ × γ)) (k : κ) (v : γ)
    (hnd : (jsKeys l).Nodup) : (jsKeys (jsSet l k v)).Nodup := by
  induction l with
  | nil => simp [jsSet, jsKeys]
  | cons p rest ih =>
    obtain ⟨pk, pv⟩ := p
    simp only [jsKeys, List.map_cons, List.nodup_cons] at hnd
    by_cases h : pk = k
    · subst h
      rw [show jsSet ((pk, pv) :: rest) pk v = (pk, v) :: rest from by simp [jsSet]]
      simp only [jsKeys, List.map_cons, List.nodup_cons]
      exact hnd
    · simp only [jsSet, if_neg h, jsKeys, List.map_cons, List.nodup_cons]
      refine ⟨?_, ih hnd.2⟩
      intro hc
      rcases (mem_jsKeys_jsSet rest k pk v).mp hc with hc | hc
      · exact hnd.1 hc
      · exact h hc

theorem jaccardIndex_nonneg (A B : Finset Str) : 0 ≤ jaccardIndex A B := by
  rw [jaccardIndex]
  dsimp only
  split_ifs with h1 h2
  · exact le_refl 0
  · exact le_refl 0
  · apply div_nonneg
    · positivity
    · have hA : (A ∩ B).card ≤ A.card := Finset.card_le_card Finset.inter_subset_left
      have hA' : ((A ∩ B).card : ℚ) ≤ (A.card : ℚ) := by exact_mod_cast hA
      have hB : (0 : ℚ) ≤ (B.card : ℚ) := by positivity
      linarith

theorem jaccardIndex_pos_iff (A B : Finset Str) :
    0 < jaccardIndex A B ↔ (A ∩ B).Nonempty := by
  rw [jaccardIndex]
  dsimp only
  by_cases h1 : A.card = 0 ∧ B.card = 0
  · rw [if_pos h1]
    simp only [lt_self_iff_false, false_iff]
    rintro ⟨x, hx⟩
    have hA : A = ∅ := Finset.card_eq_zero.mp h1.1
    rw [hA] at hx
    simp at hx
  · rw [if_neg h1]
    have hu : (0 : ℚ) < (A.card : ℚ) + (B.card : ℚ) - ((A ∩ B).card : ℚ) := by
      have hA : (A ∩ B).card ≤ A.card := Finset.card_le_card Finset.inter_subset_left
      have hB : (A ∩ B).card ≤ B.card := Finset.card_le_card Finset.inter_subset_right
      have hA' : ((A ∩ B).card : ℚ) ≤ (A.card : ℚ) := by exact_mod_cast hA
      have hB' : ((A ∩ B).card : ℚ) ≤ (B.card : ℚ) := by exact_mod_cast hB
      rcases Nat.eq_zero_or_pos A.card with hz | hp
      · rcases Nat.eq_zero_or_pos B.card with hz' | hp'
        · exact absurd ⟨hz, hz'⟩ h1
        · have hzq : (A.card : ℚ) = 0 := by exact_mod_cast hz
          have h1B : (1 : ℚ) ≤ (B.card : ℚ) := by exact_mod_cast hp'
          linarith
      · have h1A : (1 : ℚ) ≤ (A.card : ℚ) := by exact_mod_cast hp
        linarith
    rw [if_neg (ne_of_gt hu)]
    constructor
    · intro h
      by_contra hne
      have hi : (A ∩ B).card = 0 := by
        rcases Nat.eq_zero_or_pos (A ∩ B).card with h0 | h0
        · exact h0
        · exact absurd (Finset.card_pos.mp h0) hne
      rw [show ((A ∩ B).card : ℚ) = 0 from by exact_mod_cast hi, zero_div] at h
      exact lt_irrefl 0 h
    · intro hne
      apply div_pos _ hu
      have h0 : 0 < (A ∩ B).card := Finset.card_pos.mpr hne
      exact_mod_cast h0

theorem jaccardIndex_comm (A B : Finset Str) : jaccardIndex A B = jaccardIndex B A := by
  rw [jaccardIndex, jaccardIndex]
  dsimp only
  rw [Finset.inter_comm B A]
  rw [show (B.card : ℚ) + (A.card : ℚ) = (A.card : ℚ) + (B.card : ℚ) from add_comm _ _]
  by_cases h : A.card = 0 ∧ B.card = 0
  · rw [if_pos h, if_pos ⟨h.2, h.1⟩]
  · have h' : ¬ (B.card = 0 ∧ A.card = 0) := fun hh => h ⟨hh.2, hh.1⟩
    rw [if_neg h, if_neg h']

theorem jaccardIndex_right_empty (U S : Finset Str) (h : S.card = 0) :
    jaccardIndex U S = 0 := by
  have hnp : ¬ 0 < jaccardIndex U S := by
    rw [jaccardIndex_pos_iff]
    rintro ⟨x, hx⟩
    rw [Finset.card_eq_zero.mp h] at hx
    simp at hx
  have hge := jaccardIndex_nonneg U S
  linarith

theorem jaccardIndex_left_empty (U S : Finset Str) (h : U.card = 0) :
    jaccardIndex U S = 0 := by
  rw [jaccardIndex_comm]
  exact jaccardIndex_right_empty S U h

theorem jaccardIndex_pos_mono {X U S : Finset Str} (hsub : X ⊆ U)
    (h : 0 < jaccardIndex X S) : 0 < jaccardIndex U S := by
  rw [jaccardIndex_pos_iff] at h ⊢
  obtain ⟨x, hx⟩ := h
  exact ⟨x, Finset.mem_inter.mpr
    ⟨hsub (Finset.mem_inter.mp hx).1, (Finset.mem_inter.mp hx).2⟩⟩

theorem optOr_none {γ : Type} (o : Option γ) : optOr o none = o := by
  cases o <;> rfl

/-! ### Graph-mutator preservation lemmas -/

theorem addNode_isDirected {ν W : Type} (g : Graph ν W) (id : Str) (d : ν) :
    (g.addNode id d).isDirected = g.isDirected := by
  rw [Graph.addNode]
  split_ifs <;> rfl

theorem addNode_isWeighted {ν W : Type} (g : Graph ν W) (id : Str) (d : ν) :
    (g.addNode id d).isWeighted = g.isWeighted := by
  rw [Graph.addNode]
  split_ifs <;> rfl

theorem addEdge_isDirected {ν W : Type} [One W] (g : Graph ν W) (s t : Str) (w : W) :
    ((g.addEdge s t w).2).isDirected = g.isDirected := by
  rw [Graph.addEdge]
  split_ifs <;> rfl

theorem addEdge_isWeighted {ν W : Type} [One W] (g : Graph ν W) (s t : Str) (w : W) :
    ((g.addEdge s t w).2).isWeighted = g.isWeighted := by
  rw [Graph.addEdge]
  split_ifs <;> rfl

theorem applyWrites_isDirected {ν : Type} (ws : List (Str × Str × ℚ)) (g : Graph ν ℚ) :
    (applyWrites g ws).isDirected = g.isDirected := by
  induction ws generalizing g with
  | nil => rfl
  | cons w rest ih => rw [applyWrites, ih, addEdge_isDirected]

theorem applyWrites_isWeighted {ν : Type} (ws : List (Str × Str × ℚ)) (g : Graph ν ℚ) :
    (applyWrites g ws).isWeighted = g.isWeighted := by
  induction ws generalizing g with
  | nil => rfl
  | cons w rest ih => rw [applyWrites, ih, addEdge_isWeighted]

theorem applyWrites_hasNode {ν : Type} (ws : List (Str × Str × ℚ)) (g : Graph ν ℚ)
    (x : Str) : (applyWrites g ws).hasNode x = g.hasNode x := by
  induction ws generalizing g with
  | nil => rfl
  | cons w rest ih => rw [applyWrites, ih, hasNode_addEdge]

theorem applyWrites_adjSub {ν : Type} (ws : List (Str × Str × ℚ)) (g : Graph ν ℚ)
    (h : adjSub g) : adjSub (applyWrites g ws) := by
  induction ws generalizing g with
  | nil => exact h
  | cons w rest ih =>
    rw [applyWrites]
    exact ih _ (adjSub_addEdge _ _ _ _ h)

theorem applyWrites_append {ν : Type} (ws ws' : List (Str × Str × ℚ)) (g : Graph ν ℚ) :
    applyWrites g (ws ++ ws') = applyWrites (applyWrites g ws) ws' := by
  induction ws generalizing g with
  | nil => rfl
  | cons w rest ih =>
    rw [List.cons_append, applyWrites, applyWrites, ih]

/-! ### Pointwise description of one similarity-update fold -/

theorem getEdgeWeight_applyWrites_simWrites {ν : Type} (b : Str) (U : Finset Str)
    (l : List (Str × Finset Str)) (g : Graph ν ℚ)
    (hD : g.isDirected = false) (hW : g.isWeighted = true) (hsub : adjSub g)
    (hb : g.hasNode b = true) (hnd : (jsKeys l).Nodup)
    (hnodes : ∀ p ∈ l, g.hasNode p.1 = true) (a c : Str) :
    (applyWrites g (simWrites b U l)).getEdgeWeight a c = simFoldSpec b U l g a c := by
  revert hD hW hsub hb hnd hnodes
  revert g
  induction l with
  | nil =>
    intro g hD hW hsub hb hnd hnodes
    rw [simFoldSpec]
    split_ifs <;> rfl
  | cons p rest ih =>
    intro g hD hW hsub hb hnd hnodes
    obtain ⟨pk, S⟩ := p
    have hpk : pk ∉ jsKeys rest := by
      simp only [jsKeys, List.map_cons, List.nodup_cons] at hnd
      exact hnd.1
    have hnd' : (jsKeys rest).Nodup := by
      simp only [jsKeys, List.map_cons, List.nodup_cons] at hnd
      exact hnd.2
    have hnodes' : ∀ q ∈ rest, g.hasNode q.1 = true := fun q hq =>
      hnodes q (List.mem_cons_of_mem _ hq)
    have hget : ∀ x : Str, jsGet ((pk, S) :: rest) x =
        if pk = x then some S else jsGet rest x := fun x => rfl
    by_cases hpb : pk = b
    · rw [show simWrites b U ((pk, S) :: rest) = simWrites b U rest from by
        simp [simWrites, hpb]]
      rw [ih g hD hW hsub hb hnd' hnodes']
      rw [simFoldSpec, simFoldSpec]
      by_cases hab : a = b ∧ c ≠ b
      · rw [if_pos hab, if_pos hab, hget c,
          if_neg (fun hh : pk = c => hab.2 (hh.symm.trans hpb))]
      · rw [if_neg hab, if_neg hab]
        by_cases hcb : c = b ∧ a ≠ b
        · rw [if_pos hcb, if_pos hcb, hget a,
            if_neg (fun hh : pk = a => hcb.2 (hh.symm.trans hpb))]
        · rw [if_neg hcb, if_neg hcb]
    · by_cases hcard : S.card = 0
      · have hpos : ¬ 0 < jaccardIndex U S := by
          rw [jaccardIndex_right_empty U S hcard]
          exact lt_irrefl 0
        rw [show simWrites b U ((pk, S) :: rest) = simWrites b U rest from by
          simp [simWrites, hpb, hcard]]
        rw [ih g hD hW hsub hb hnd' hnodes']
        rw [simFoldSpec, simFoldSpec]
        by_cases hab : a = b ∧ c ≠ b
        · rw [if_pos hab, if_pos hab, hget c]
          by_cases hc : pk = c
          · rw [if_pos hc, jsGet_eq_none_of_not_mem rest c (hc ▸ hpk)]
            simp only [entryAdj]
            rw [if_neg hpos]
          · rw [if_neg hc]
        · rw [if_neg hab, if_neg hab]
          by_cases hcb : c = b ∧ a ≠ b
          · rw [if_pos hcb, if_pos hcb, hget a]
            by_cases ha : pk = a
            · rw [if_pos ha, jsGet_eq_none_of_not_mem rest a (ha ▸ hpk)]
              simp only [entryAdj]
              rw [if_neg hpos]
            · rw [if_neg ha]
          · rw [if_neg hcb, if_neg hcb]
      · by_cases hpos : 0 < jaccardIndex U S
        · rw [show simWrites b U ((pk, S) :: rest)
              = (b, pk, jaccardIndex U S) :: simWrites b U rest from by
            simp [simWrites, hpb, hcard, hpos]]
          rw [applyWrites]
          dsimp only
          have hedge : ∀ x y : Str,
              ((g.addEdge b pk (jaccardIndex U S)).2).getEdgeWeight x y =
                if (x = b ∧ y = pk) ∨ (x = pk ∧ y = b) then some (jaccardIndex U S)
                else g.getEdgeWeight x y :=
            fun x y => getEdgeWeight_addEdge_undirected g b pk _ hD hW hb
              (hnodes (pk, S) (List.mem_cons_self _ _)) x y
          have hD' : ((g.addEdge b pk (jaccardIndex U S)).2).isDirected = false := by
            rw [addEdge_isDirected]
            exact hD
          have hW' : ((g.addEdge b pk (jaccardIndex U S)).2).isWeighted = true := by
            rw [addEdge_isWeighted]
            exact hW
          have hsub' : adjSub ((g.addEdge b pk (jaccardIndex U S)).2) :=
            adjSub_addEdge _ _ _ _ hsub
          have hb' : ((g.addEdge b pk (jaccardIndex U S)).2).hasNode b = true := by
            rw [hasNode_addEdge]
            exact hb
          have hnodes'' : ∀ q ∈ rest,
              ((g.addEdge b pk (jaccardIndex U S)).2).hasNode q.1 = true := by
            intro q hq
            rw [hasNode_addEdge]
            exact hnodes' q hq
          rw [ih _ hD' hW' hsub' hb' hnd' hnodes'']
          rw [simFoldSpec, simFoldSpec]
          by_cases hab : a = b ∧ c ≠ b
          · rw [if_pos hab, if_pos hab, hget c]
            by_cases hc : pk = c
            · rw [if_pos hc, jsGet_eq_none_of_not_mem rest c (hc ▸ hpk)]
              simp only [entryAdj]
              rw [hedge, if_pos (Or.inl ⟨hab.1, hc.symm⟩), if_pos hpos]
            · rw [if_neg hc]
              have hgg : ((g.addEdge b pk (jaccardIndex U S)).2).getEdgeWeight a c
                  = g.getEdgeWeight a c := by
                rw [hedge]
                refine if_neg ?_
                rintro (⟨h1, h2⟩ | ⟨h1, h2⟩)
                · exact hc h2.symm
                · exact hpb (h1.symm.trans hab.1)
              rw [hgg]
          · rw [if_neg hab, if_neg hab]
            by_cases hcb : c = b ∧ a ≠ b
            · rw [if_pos hcb, if_pos hcb, hget a]
              by_cases ha : pk = a
              · rw [if_pos ha, jsGet_eq_none_of_not_mem rest a (ha ▸ hpk)]
                simp only [entryAdj]
                rw [hedge, if_pos (Or.inr ⟨ha.symm, hcb.1⟩), if_pos hpos]
              · rw [if_neg ha]
                have hgg : ((g.addEdge b pk (jaccardIndex U S)).2).getEdgeWeight a c
                    = g.getEdgeWeight a c := by
                  rw [hedge]
                  refine if_neg ?_
                  rintro (⟨h1, h2⟩ | ⟨h1, h2⟩)
                  · exact hcb.2 h1
                  · exact ha h1.symm
                rw [hgg]
            · rw [if_neg hcb, if_neg hcb]
              have hgg : ((g.addEdge b pk (jaccardIndex U S)).2).getEdgeWeight a c
                  = g.getEdgeWeight a c := by
                rw [hedge]
                refine if_neg ?_
                rintro (⟨h1, h2⟩ | ⟨h1, h2⟩)
                · exact hab ⟨h1, fun hh => hpb (h2.symm.trans hh)⟩
                · exact hcb ⟨h2, fun hh => hpb (h1.symm.trans hh)⟩
              rw [hgg]
        · rw [show simWrites b U ((pk, S) :: rest) = simWrites b U rest from by
            simp [simWrites, hpb, hcard, hpos]]
          rw [ih g hD hW hsub hb hnd' hnodes']
          rw [simFoldSpec, simFoldSpec]
          by_cases hab : a = b ∧ c ≠ b
          · rw [if_pos hab, if_pos hab, hget c]
            by_cases hc : pk = c
            · rw [if_pos hc, jsGet_eq_none_of_not_mem rest c (hc ▸ hpk)]
              simp only [entryAdj]
              rw [if_neg hpos]
            · rw [if_neg hc]
          · rw [if_neg hab, if_neg hab]
            by_cases hcb : c = b ∧ a ≠ b
            · rw [if_pos hcb, if_pos hcb, hget a]
              by_cases ha : pk = a
              · rw [if_pos ha, jsGet_eq_none_of_not_mem rest a (ha ▸ hpk)]
                simp only [entryAdj]
                rw [if_neg hpos]
              · rw [if_neg ha]
            · rw [if_neg hcb, if_neg hcb]

/-! ### `simEdgeSpec` case lemmas and invariant steps -/

theorem simEdgeSpec_none_left {m : List (Str × Finset Str)} {a : Str} (c : Str)
    (h : jsGet m a = none) : simEdgeSpec m a c = none := by
  rw [simEdgeSpec, h]

theorem simEdgeSpec_none_right {m : List (Str × Finset Str)} (a : Str) {c : Str}
    (h : jsGet m c = none) : simEdgeSpec m a c = none := by
  rw [simEdgeSpec, h]
  cases hj : jsGet m a <;> rfl

theorem simEdgeSpec_some_some {m : List (Str × Finset Str)} {a c : Str}
    {Sa Sc : Finset Str} (h1 : jsGet m a = some Sa) (h2 : jsGet m c = some Sc) :
    simEdgeSpec m a c =
      if a ≠ c ∧ 0 < jaccardIndex Sa Sc then some (jaccardIndex Sa Sc) else none := by
  rw [simEdgeSpec, h1, h2]

theorem simInv_register (g : Graph NodeData ℚ) (m : List (Str × Finset Str)) (k : Str)
    (d : NodeData) (h : simInv g m) :
    simInv (g.addNode k d) (if (jsGet m k).isSome then m else jsSet m k ∅) := by
  obtain ⟨hD, hW, hsub, hnd, hnode, hedge⟩ := h
  by_cases hk : (jsGet m k).isSome = true
  · rw [if_pos hk]
    refine ⟨?_, ?_, adjSub_addNode g k d hsub, hnd, ?_, ?_⟩
    · rw [addNode_isDirected]
      exact hD
    · rw [addNode_isWeighted]
      exact hW
    · intro x
      rw [hasNode_addNode]
      by_cases hx : x = k
      · rw [hx, hk]
        simp
      · simp [hx, hnode x]
    · intro a c
      rw [getEdgeWeight_addNode g k d hsub a c]
      exact hedge a c
  · rw [if_neg hk]
    have hknone : jsGet m k = none := by
      cases hj : jsGet m k with
      | none => rfl
      | some v => rw [hj] at hk; simp at hk
    refine ⟨?_, ?_, adjSub_addNode g k d hsub, nodup_jsKeys_jsSet m k ∅ hnd, ?_, ?_⟩
    · rw [addNode_isDirected]
      exact hD
    · rw [addNode_isWeighted]
      exact hW
    · intro x
      rw [hasNode_addNode, jsGet_jsSet]
      by_cases hx : x = k
      · simp [hx]
      · simp [hx, hnode x]
    · intro a c
      rw [getEdgeWeight_addNode g k d hsub a c, hedge a c]
      by_cases hak : a = k
      · subst hak
        rw [simEdgeSpec_none_left c hknone]
        cases hc : jsGet (jsSet m a ∅) c with
        | none => rw [simEdgeSpec_none_right a hc]
        | some Sc =>
          rw [simEdgeSpec_some_some (jsGet_jsSet_self m a ∅) hc]
          have hn : ¬ (a ≠ c ∧ 0 < jaccardIndex ∅ Sc) := by
            rintro ⟨_, hpos⟩
            rw [jaccardIndex_left_empty ∅ Sc Finset.card_empty] at hpos
            exact lt_irrefl 0 hpos
          rw [if_neg hn]
      · by_cases hck : c = k
        · subst hck
          rw [simEdgeSpec_none_right a hknone]
          cases ha2 : jsGet (jsSet m c ∅) a with
          | none => rw [simEdgeSpec_none_left c ha2]
          | some Sa =>
            rw [simEdgeSpec_some_some ha2 (jsGet_jsSet_self m c ∅)]
            have hn : ¬ (a ≠ c ∧ 0 < jaccardIndex Sa ∅) := by
              rintro ⟨_, hpos⟩
              rw [jaccardIndex_right_empty Sa ∅ Finset.card_empty] at hpos
              exact lt_irrefl 0 hpos
            rw [if_neg hn]
        · have h1 : jsGet (jsSet m k ∅) a = jsGet m a := jsGet_jsSet_ne m ∅ hak
          have h2 : jsGet (jsSet m k ∅) c = jsGet m c := jsGet_jsSet_ne m ∅ hck
          rw [simEdgeSpec, simEdgeSpec, h1, h2]

theorem simInv_update (g : Graph NodeData ℚ) (m : List (Str × Finset Str)) (b : Str)
    (X U : Finset Str) (h : simInv g m) (hX : jsGet m b = some X) (hXU : X ⊆ U) :
    simInv (applyWrites g (simWrites b U (jsSet m b U))) (jsSet m b U) := by
  obtain ⟨hD, hW, hsub, hnd, hnode, hedge⟩ := h
  have hnd' : (jsKeys (jsSet m b U)).Nodup := nodup_jsKeys_jsSet m b U hnd
  have hbnode : g.hasNode b = true := by rw [hnode b, hX]; rfl
  have hnodes : ∀ p ∈ jsSet m b U, g.hasNode p.1 = true := by
    intro p hp
    rcases mem_jsSet_elim hp with hp | hp
    · rw [hp]
      exact hbnode
    · rw [hnode p.1]
      exact (jsGet_isSome_iff m p.1).mpr (List.mem_map.mpr ⟨p, hp, rfl⟩)
  refine ⟨?_, ?_, applyWrites_adjSub _ _ hsub, hnd', ?_, ?_⟩
  · rw [applyWrites_isDirected]
    exact hD
  · rw [applyWrites_isWeighted]
    exact hW
  · intro x
    rw [applyWrites_hasNode, hnode x, jsGet_jsSet]
    by_cases hx : x = b
    · rw [if_pos hx, hx, hX]
      rfl
    · rw [if_neg hx]
  · intro a c
    rw [getEdgeWeight_applyWrites_simWrites b U (jsSet m b U) g hD hW hsub hbnode
      hnd' hnodes a c]
    rw [simFoldSpec]
    by_cases hab : a = b ∧ c ≠ b
    · rw [if_pos hab]
      have hgc : jsGet (jsSet m b U) c = jsGet m c := jsGet_jsSet_ne m U hab.2
      rw [hgc]
      cases hc : jsGet m c with
      | none =>
        simp only [entryAdj]
        rw [hedge a c, simEdgeSpec_none_right a hc,
          simEdgeSpec_none_right a (hgc.trans hc)]
      | some Sc =>
        simp only [entryAdj]
        have hma : jsGet (jsSet m b U) a = some U := by
          rw [hab.1]
          exact jsGet_jsSet_self m b U
        by_cases hpos : 0 < jaccardIndex U Sc
        · rw [if_pos hpos, simEdgeSpec_some_some hma (hgc.trans hc)]
          have hac : a ≠ c := fun hh => hab.2 (hh.symm.trans hab.1)
          rw [if_pos ⟨hac, hpos⟩]
        · rw [if_neg hpos, hedge a c]
          have hmaX : jsGet m a = some X := by
            rw [hab.1]
            exact hX
          rw [simEdgeSpec_some_some hmaX hc, simEdgeSpec_some_some hma (hgc.trans hc)]
          have hn1 : ¬ (a ≠ c ∧ 0 < jaccardIndex X Sc) := by
            rintro ⟨_, hp⟩
            exact hpos (jaccardIndex_pos_mono hXU hp)
          have hn2 : ¬ (a ≠ c ∧ 0 < jaccardIndex U Sc) := fun hcon => hpos hcon.2
          rw [if_neg hn1, if_neg hn2]
    · rw [if_neg hab]
      by_cases hcb : c = b ∧ a ≠ b
      · rw [if_pos hcb]
        have hga : jsGet (jsSet m b U) a = jsGet m a := jsGet_jsSet_ne m U hcb.2
        rw [hga]
        cases ha2 : jsGet m a with
        | none =>
          simp only [entryAdj]
          rw [hedge a c, simEdgeSpec_none_left c ha2,
            simEdgeSpec_none_left c (hga.trans ha2)]
        | some Sa =>
          simp only [entryAdj]
          have hmc : jsGet (jsSet m b U) c = some U := by
            rw [hcb.1]
            exact jsGet_jsSet_self m b U
          by_cases hpos : 0 < jaccardIndex U Sa
          · rw [if_pos hpos, simEdgeSpec_some_some (hga.trans ha2) hmc]
            have hac : a ≠ c := fun hh => hcb.2 (hh.trans hcb.1)
            rw [if_pos ⟨hac, by rw [jaccardIndex_comm]; exact hpos⟩, jaccardIndex_comm]
          · rw [if_neg hpos, hedge a c]
            have hmcX : jsGet m c = some X := by
              rw [hcb.1]
              exact hX
            rw [simEdgeSpec_some_some ha2 hmcX,
              simEdgeSpec_some_some (hga.trans ha2) hmc]
            have hn1 : ¬ (a ≠ c ∧ 0 < jaccardIndex Sa X) := by
              rintro ⟨_, hp⟩
              rw [jaccardIndex_comm] at hp
              exact hpos (jaccardIndex_pos_mono hXU hp)
            have hn2 : ¬ (a ≠ c ∧ 0 < jaccardIndex Sa U) := by
              rintro ⟨_, hp⟩
              rw [jaccardIndex_comm] at hp
              exact hpos hp
            rw [if_neg hn1, if_neg hn2]
      · rw [if_neg hcb, hedge a c]
        by_cases hb2 : a = b
        · have hcb2 : c = b := by
            by_contra hcc
            exact hab ⟨hb2, hcc⟩
          have hmaX : jsGet m a = some X := by rw [hb2]; exact hX
          have hmcX : jsGet m c = some X := by rw [hcb2]; exact hX
          have hma : jsGet (jsSet m b U) a = some U := by
            rw [hb2]
            exact jsGet_jsSet_self m b U
          have hmc : jsGet (jsSet m b U) c = some U := by
            rw [hcb2]
            exact jsGet_jsSet_self m b U
          rw [simEdgeSpec_some_some hmaX hmcX, simEdgeSpec_some_some hma hmc]
          have hac : ¬ a ≠ c := fun hh => hh (hb2.trans hcb2.symm)
          have hn1 : ¬ (a ≠ c ∧ 0 < jaccardIndex X X) := fun hcon => hac hcon.1
          have hn2 : ¬ (a ≠ c ∧ 0 < jaccardIndex U U) := fun hcon => hac hcon.1
          rw [if_neg hn1, if_neg hn2]
        · have hc2 : c ≠ b := fun hcc => hcb ⟨hcc, hb2⟩
          have hga : jsGet (jsSet m b U) a = jsGet m a := jsGet_jsSet_ne m U hb2
          have hgc : jsGet (jsSet m b U) c = jsGet m c := jsGet_jsSet_ne m U hc2
          rw [simEdgeSpec, simEdgeSpec, hga, hgc]

/-! ### Service-level plumbing for the incremental path -/

theorem foldl_simUpdate_eq_applyWrites (base : Str) (U : Finset Str)
    (l : List (Str × Finset Str)) (g : Graph NodeData ℚ) :
    l.foldl (fun g p =>
      if p.1 == base then g
      else if p.2.card = 0 then g
      else if 0 < jaccardIndex U p.2 then (g.addEdge base p.1 (jaccardIndex U p.2)).2
      else g) g
    = applyWrites g (simWrites base U l) := by
  induction l generalizing g with
  | nil => rfl
  | cons p rest ih =>
    simp only [List.foldl_cons]
    by_cases h1 : p.1 = base
    · rw [show simWrites base U (p :: rest) = simWrites base U rest from by
        simp [simWrites, h1]]
      rw [show (p.1 == base) = true from beq_iff_eq.mpr h1, if_pos (rfl : true = true)]
      exact ih g
    · rw [show (p.1 == base) = false from by simp [h1],
        if_neg Bool.false_ne_true]
      by_cases h2 : p.2.card = 0
      · rw [if_pos h2, show simWrites base U (p :: rest) = simWrites base U rest from by
          simp [simWrites, h1, h2]]
        exact ih g
      · rw [if_neg h2]
        by_cases h3 : 0 < jaccardIndex U p.2
        · rw [if_pos h3, show simWrites base U (p :: rest)
              = (base, p.1, jaccardIndex U p.2) :: simWrites base U rest from by
            simp [simWrites, h1, h2, h3]]
          rw [applyWrites]
          exact ih _
        · rw [if_neg h3, show simWrites base U (p :: rest) = simWrites base U rest from by
            simp [simWrites, h1, h2, h3]]
          exact ih g

theorem updateBookSimilarities_usg (s : GraphService) (b : Str) :
    (s.updateBookSimilarities b).userSimilarityGraph = s.userSimilarityGraph := by
  rw [GraphService.updateBookSimilarities.eq_def]
  cases hj : jsGet s.bookUsers b with
  | none => rfl
  | some S =>
    dsimp only
    split_ifs <;> rfl

theorem updateBookSimilarities_userBooks (s : GraphService) (b : Str) :
    (s.updateBookSimilarities b).userBooks = s.userBooks := by
  rw [GraphService.updateBookSimilarities.eq_def]
  cases hj : jsGet s.bookUsers b with
  | none => rfl
  | some S =>
    dsimp only
    split_ifs <;> rfl

theorem updateBookSimilarities_bookUsers (s : GraphService) (b : Str) :
    (s.updateBookSimilarities b).bookUsers = s.bookUsers := by
  rw [GraphService.updateBookSimilarities.eq_def]
  cases hj : jsGet s.bookUsers b with
  | none => rfl
  | some S =>
    dsimp only
    split_ifs <;> rfl

theorem updateUserSimilarities_bsg (s : GraphService) (u : Str) :
    (s.updateUserSimilarities u).bookSimilarityGraph = s.bookSimilarityGraph := by
  rw [GraphService.updateUserSimilarities.eq_def]
  cases hj : jsGet s.userBooks u with
  | none => rfl
  | some S =>
    dsimp only
    split_ifs <;> rfl

theorem updateUserSimilarities_bookUsers (s : GraphService) (u : Str) :
    (s.updateUserSimilarities u).bookUsers = s.bookUsers := by
  rw [GraphService.updateUserSimilarities.eq_def]
  cases hj : jsGet s.userBooks u with
  | none => rfl
  | some S =>
    dsimp only
    split_ifs <;> rfl

theorem updateUserSimilarities_userBooks (s : GraphService) (u : Str) :
    (s.updateUserSimilarities u).userBooks = s.userBooks := by
  rw [GraphService.updateUserSimilarities.eq_def]
  cases hj : jsGet s.userBooks u with
  | none => rfl
  | some S =>
    dsimp only
    split_ifs <;> rfl

theorem updateBookSimilarities_graph (s : GraphService) (b : Str) (S : Finset Str)
    (hj : jsGet s.bookUsers b = some S) (hS : S.card ≠ 0) :
    (s.updateBookSimilarities b).bookSimilarityGraph
      = applyWrites s.bookSimilarityGraph (simWrites b S s.bookUsers) := by
  rw [GraphService.updateBookSimilarities.eq_def, hj]
  dsimp only
  rw [if_neg hS]
  exact foldl_simUpdate_eq_applyWrites b S s.bookUsers s.bookSimilarityGraph

theorem updateUserSimilarities_graph (s : GraphService) (u : Str) (S : Finset Str)
    (hj : jsGet s.userBooks u = some S) (hS : S.card ≠ 0) :
    (s.updateUserSimilarities u).userSimilarityGraph
      = applyWrites s.userSimilarityGraph (simWrites u S s.userBooks) := by
  rw [GraphService.updateUserSimilarities.eq_def, hj]
  dsimp only
  rw [if_neg hS]
  exact foldl_simUpdate_eq_applyWrites u S s.userBooks s.userSimilarityGraph

theorem srvInv_recordLoan (s : GraphService) (u b : Str) (h : srvInv s) :
    srvInv (s.recordLoan u b) := by
  obtain ⟨hB, hU⟩ := h
  have hrl : s.recordLoan u b
      = ((((s.addUser u).addBook b).withLoanData u b).updateBookSimilarities
          b).updateUserSimilarities u := rfl
  have hregB : simInv ((s.addUser u).addBook b).bookSimilarityGraph
      ((s.addUser u).addBook b).bookUsers := by
    rw [show ((s.addUser u).addBook b).bookSimilarityGraph
        = s.bookSimilarityGraph.addNode b ⟨str "book", b⟩ from rfl]
    rw [show ((s.addUser u).addBook b).bookUsers
        = (if (jsGet s.bookUsers b).isSome then s.bookUsers
           else jsSet s.bookUsers b ∅) from rfl]
    exact simInv_register _ _ b _ hB
  have hregU : simInv ((s.addUser u).addBook b).userSimilarityGraph
      ((s.addUser u).addBook b).userBooks := by
    rw [show ((s.addUser u).addBook b).userSimilarityGraph
        = s.userSimilarityGraph.addNode u ⟨str "user", u⟩ from rfl]
    rw [show ((s.addUser u).addBook b).userBooks
        = (if (jsGet s.userBooks u).isSome then s.userBooks
           else jsSet s.userBooks u ∅) from rfl]
    exact simInv_register _ _ u _ hU
  have hkeyB : (jsGet ((s.addUser u).addBook b).bookUsers b).isSome = true := by
    rw [show ((s.addUser u).addBook b).bookUsers
        = (if (jsGet s.bookUsers b).isSome then s.bookUsers
           else jsSet s.bookUsers b ∅) from rfl]
    by_cases hk : (jsGet s.bookUsers b).isSome = true
    · rw [if_pos hk]
      exact hk
    · rw [if_neg hk, jsGet_jsSet_self]
      rfl
  have hkeyU : (jsGet ((s.addUser u).addBook b).userBooks u).isSome = true := by
    rw [show ((s.addUser u).addBook b).userBooks
        = (if (jsGet s.userBooks u).isSome then s.userBooks
           else jsSet s.userBooks u ∅) from rfl]
    by_cases hk : (jsGet s.userBooks u).isSome = true
    · rw [if_pos hk]
      exact hk
    · rw [if_neg hk, jsGet_jsSet_self]
      rfl
  have hXbeq : jsGet ((s.addUser u).addBook b).bookUsers b
      = some ((jsGet ((s.addUser u).addBook b).bookUsers b).getD ∅) := by
    obtain ⟨X0, h0⟩ := Option.isSome_iff_exists.mp hkeyB
    rw [h0]
    rfl
  have hXueq : jsGet ((s.addUser u).addBook b).userBooks u
      = some ((jsGet ((s.addUser u).addBook b).userBooks u).getD ∅) := by
    obtain ⟨X0, h0⟩ := Option.isSome_iff_exists.mp hkeyU
    rw [h0]
    rfl
  have ht_bu : (((s.addUser u).addBook b).withLoanData u b).bookUsers
      = jsSet ((s.addUser u).addBook b).bookUsers b
          (insert u ((jsGet ((s.addUser u).addBook b).bookUsers b).getD ∅)) := rfl
  have ht_ub : (((s.addUser u).addBook b).withLoanData u b).userBooks
      = jsSet ((s.addUser u).addBook b).userBooks u
          (insert b ((jsGet ((s.addUser u).addBook b).userBooks u).getD ∅)) := rfl
  have ht_bsg : (((s.addUser u).addBook b).withLoanData u b).bookSimilarityGraph
      = ((s.addUser u).addBook b).bookSimilarityGraph := rfl
  have ht_usg : (((s.addUser u).addBook b).withLoanData u b).userSimilarityGraph
      = ((s.addUser u).addBook b).userSimilarityGraph := rfl
  have hjB : jsGet ((((s.addUser u).addBook b).withLoanData u b)).bookUsers b
      = some (insert u ((jsGet ((s.addUser u).addBook b).bookUsers b).getD ∅)) := by
    rw [ht_bu, jsGet_jsSet_self]
  have hSB : (insert u ((jsGet ((s.addUser u).addBook b).bookUsers b).getD ∅)).card ≠ 0 :=
    (Finset.insert_nonempty _ _).card_pos.ne'
  have hjU : jsGet (((((s.addUser u).addBook b).withLoanData u
        b).updateBookSimilarities b)).userBooks u
      = some (insert b ((jsGet ((s.addUser u).addBook b).userBooks u).getD ∅)) := by
    rw [updateBookSimilarities_userBooks, ht_ub, jsGet_jsSet_self]
  have hSU : (insert b ((jsGet ((s.addUser u).addBook b).userBooks u).getD ∅)).card ≠ 0 :=
    (Finset.insert_nonempty _ _).card_pos.ne'
  constructor
  · have hg : (s.recordLoan u b).bookSimilarityGraph
        = applyWrites ((s.addUser u).addBook b).bookSimilarityGraph
            (simWrites b (insert u ((jsGet ((s.addUser u).addBook b).bookUsers b).getD ∅))
              (jsSet ((s.addUser u).addBook b).bookUsers b
                (insert u ((jsGet ((s.addUser u).addBook b).bookUsers b).getD ∅)))) := by
      rw [hrl, updateUserSimilarities_bsg, updateBookSimilarities_graph _ b _ hjB hSB,
        ht_bsg, ht_bu]
    have hm : (s.recordLoan u b).bookUsers
        = jsSet ((s.addUser u).addBook b).bookUsers b
            (insert u ((jsGet ((s.addUser u).addBook b).bookUsers b).getD ∅)) := by
      rw [hrl, updateUserSimilarities_bookUsers, updateBookSimilarities_bookUsers, ht_bu]
    rw [hg, hm]
    exact simInv_update _ _ b _ _ hregB hXbeq (Finset.subset_insert _ _)
  · have hg : (s.recordLoan u b).userSimilarityGraph
        = applyWrites ((s.addUser u).addBook b).userSimilarityGraph
            (simWrites u (insert b ((jsGet ((s.addUser u).addBook b).userBooks u).getD ∅))
              (jsSet ((s.addUser u).addBook b).userBooks u
                (insert b ((jsGet ((s.addUser u).addBook b).userBooks u).getD ∅)))) := by
      rw [hrl, updateUserSimilarities_graph _ u _ hjU hSU, updateBookSimilarities_usg,
        updateBookSimilarities_userBooks, ht_usg, ht_ub]
    have hm : (s.recordLoan u b).userBooks
        = jsSet ((s.addUser u).addBook b).userBooks u
            (insert b ((jsGet ((s.addUser u).addBook b).userBooks u).getD ∅)) := by
      rw [hrl, updateUserSimilarities_userBooks, updateBookSimilarities_userBooks, ht_ub]
    rw [hg, hm]
    exact simInv_update _ _ u _ _ hregU hXueq (Finset.subset_insert _ _)

theorem srvInv_init : srvInv GraphService.initState := by
  refine ⟨⟨rfl, rfl, ?_, ?_, fun x => rfl, fun a c => rfl⟩,
    ⟨rfl, rfl, ?_, ?_, fun x => rfl, fun a c => rfl⟩⟩
  · intro p hp
    simp [GraphService.initState, Graph.mkEmpty] at hp
  · simp [jsKeys, GraphService.initState]
  · intro p hp
    simp [GraphService.initState, Graph.mkEmpty] at hp
  · simp [jsKeys, GraphService.initState]

theorem srvInv_applyLoans (loans : List (Str × Str)) :
    ∀ s : GraphService, srvInv s → srvInv (GraphService.applyLoans s loans) := by
  induction loans with
  | nil =>
    intro s h
    exact h
  | cons e rest ih =>
    intro s h
    obtain ⟨eu, eb⟩ := e
    rw [show GraphService.applyLoans s ((eu, eb) :: rest)
        = GraphService.applyLoans (s.recordLoan eu eb) rest from rfl]
    exact ih _ (srvInv_recordLoan s eu eb h)

/-! ### The rebuild path -/

theorem foldl_rowWrites (k : Str) (P : Finset Str) (rest : List (Str × Finset Str))
    (g : Graph NodeData ℚ) :
    rest.foldl (fun g q =>
      if 0 < jaccardIndex P q.2 then (g.addEdge k q.1 (jaccardIndex P q.2)).2 else g) g
    = applyWrites g (rest.filterMap (fun q =>
        if 0 < jaccardIndex P q.2 then some (k, q.1, jaccardIndex P q.2) else none)) := by
  induction rest generalizing g with
  | nil => rfl
  | cons q rest ih =>
    rw [List.foldl_cons, List.filterMap_cons]
    by_cases hq : 0 < jaccardIndex P q.2
    · rw [if_pos hq, if_pos hq, applyWrites]
      exact ih _
    · rw [if_neg hq, if_neg hq]
      exact ih g

theorem filterMap_row_eq_simWrites (k : Str) (P : Finset Str)
    (rest : List (Str × Finset Str)) (hne : ∀ q ∈ rest, q.1 ≠ k) :
    rest.filterMap (fun q =>
      if 0 < jaccardIndex P q.2 then some (k, q.1, jaccardIndex P q.2) else none)
    = simWrites k P rest := by
  induction rest with
  | nil => rfl
  | cons q rest ih =>
    rw [List.filterMap_cons, simWrites]
    have hq1 : ¬ q.1 = k := hne q (List.mem_cons_self _ _)
    rw [if_neg hq1]
    have hne' : ∀ r ∈ rest, r.1 ≠ k := fun r hr => hne r (List.mem_cons_of_mem _ hr)
    by_cases hc : q.2.card = 0
    · rw [if_pos hc]
      have hnp : ¬ 0 < jaccardIndex P q.2 := by
        rw [jaccardIndex_right_empty P q.2 hc]
        exact lt_irrefl 0
      rw [if_neg hnp, ih hne']
    · rw [if_neg hc]
      by_cases hq : 0 < jaccardIndex P q.2
      · rw [if_pos hq, if_pos hq, ih hne']
      · rw [if_neg hq, if_neg hq, ih hne']

theorem foldl_rebuild_eq_applyWrites (l : List (Str × Finset Str))
    (g : Graph NodeData ℚ) :
    (allPairs l).foldl (fun g pq =>
      if 0 < jaccardIndex pq.1.2 pq.2.2 then
        (g.addEdge pq.1.1 pq.2.1 (jaccardIndex pq.1.2 pq.2.2)).2
      else g) g
    = applyWrites g (rebuildWrites l) := by
  induction l generalizing g with
  | nil => rfl
  | cons p rest ih =>
    rw [show allPairs (p :: rest) = rest.map (fun y => (p, y)) ++ allPairs rest from rfl]
    rw [List.foldl_append, List.foldl_map]
    rw [show rebuildWrites (p :: rest)
        = rest.filterMap (fun q =>
            if 0 < jaccardIndex p.2 q.2 then some (p.1, q.1, jaccardIndex p.2 q.2)
            else none)
          ++ rebuildWrites rest from rfl]
    rw [applyWrites_append, ih]
    congr 1
    dsimp only
    rw [foldl_rowWrites p.1 p.2 rest g]

theorem foldl_addNode_hasNode (l : List (Str × Finset Str))
    (d : (Str × Finset Str) → NodeData) :
    ∀ (g : Graph NodeData ℚ) (x : Str),
      ((l.foldl (fun g p => g.addNode p.1 (d p)) g).hasNode x) = true
        ↔ (x ∈ jsKeys l ∨ g.hasNode x = true) := by
  induction l with
  | nil =>
    intro g x
    simp [jsKeys]
  | cons p rest ih =>
    intro g x
    simp only [List.foldl_cons]
    rw [ih]
    rw [hasNode_addNode]
    simp only [Bool.or_eq_true, decide_eq_true_eq, jsKeys, List.map_cons, List.mem_cons]
    tauto

theorem foldl_addNode_base (l : List (Str × Finset Str))
    (d : (Str × Finset Str) → NodeData) :
    ∀ g : Graph NodeData ℚ, adjSub g →
      adjSub (l.foldl (fun g p => g.addNode p.1 (d p)) g)
      ∧ (l.foldl (fun g p => g.addNode p.1 (d p)) g).isDirected = g.isDirected
      ∧ (l.foldl (fun g p => g.addNode p.1 (d p)) g).isWeighted = g.isWeighted
      ∧ ∀ a c : Str, (l.foldl (fun g p => g.addNode p.1 (d p)) g).getEdgeWeight a c
          = g.getEdgeWeight a c := by
  induction l with
  | nil =>
    intro g hg
    exact ⟨hg, rfl, rfl, fun a c => rfl⟩
  | cons p rest ih =>
    intro g hg
    simp only [List.foldl_cons]
    obtain ⟨h1, h2, h3, h4⟩ := ih (g.addNode p.1 (d p)) (adjSub_addNode g p.1 (d p) hg)
    exact ⟨h1, h2.trans (addNode_isDirected g p.1 (d p)),
      h3.trans (addNode_isWeighted g p.1 (d p)),
      fun a c => (h4 a c).trans (getEdgeWeight_addNode g p.1 (d p) hg a c)⟩

theorem getEdgeWeight_applyWrites_rebuildWrites (l : List (Str × Finset Str))
    (g : Graph NodeData ℚ) (hD : g.isDirected = false) (hW : g.isWeighted = true)
    (hsub : adjSub g) (hnd : (jsKeys l).Nodup)
    (hnodes : ∀ p ∈ l, g.hasNode p.1 = true) (a c : Str) :
    (applyWrites g (rebuildWrites l)).getEdgeWeight a c
      = optOr (simEdgeSpec l a c) (g.getEdgeWeight a c) := by
  revert hD hW hsub hnd hnodes
  revert g
  induction l with
  | nil =>
    intro g hD hW hsub hnd hnodes
    rfl
  | cons p rest ih =>
    intro g hD hW hsub hnd hnodes
    obtain ⟨k, P⟩ := p
    have hpk : k ∉ jsKeys rest := by
      simp only [jsKeys, List.map_cons, List.nodup_cons] at hnd
      exact hnd.1
    have hnd' : (jsKeys rest).Nodup := by
      simp only [jsKeys, List.map_cons, List.nodup_cons] at hnd
      exact hnd.2
    have hk : g.hasNode k = true := hnodes (k, P) (List.mem_cons_self _ _)
    have hnodes' : ∀ q ∈ rest, g.hasNode q.1 = true := fun q hq =>
      hnodes q (List.mem_cons_of_mem _ hq)
    have hne : ∀ q ∈ rest, q.1 ≠ k := by
      intro q hq hqe
      exact hpk (hqe ▸ List.mem_map.mpr ⟨q, hq, rfl⟩)
    rw [show rebuildWrites ((k, P) :: rest)
        = rest.filterMap (fun q =>
            if 0 < jaccardIndex P q.2 then some (k, q.1, jaccardIndex P q.2) else none)
          ++ rebuildWrites rest from rfl]
    rw [filterMap_row_eq_simWrites k P rest hne, applyWrites_append]
    have hD' : (applyWrites g (simWrites k P rest)).isDirected = false := by
      rw [applyWrites_isDirected]
      exact hD
    have hW' : (applyWrites g (simWrites k P rest)).isWeighted = true := by
      rw [applyWrites_isWeighted]
      exact hW
    have hsub' : adjSub (applyWrites g (simWrites k P rest)) :=
      applyWrites_adjSub _ _ hsub
    have hnodes'' : ∀ q ∈ rest, (applyWrites g (simWrites k P rest)).hasNode q.1 = true := by
      intro q hq
      rw [applyWrites_hasNode]
      exact hnodes' q hq
    rw [ih (applyWrites g (simWrites k P rest)) hD' hW' hsub' hnd' hnodes'']
    rw [getEdgeWeight_applyWrites_simWrites k P rest g hD hW hsub hk hnd' hnodes' a c]
    rw [simFoldSpec]
    have hget : ∀ x : Str, jsGet ((k, P) :: rest) x
        = if k = x then some P else jsGet rest x := fun x => rfl
    by_cases hak : a = k
    · by_cases hck : c = k
      · have hnone_a : jsGet rest a = none :=
          jsGet_eq_none_of_not_mem rest a (by rw [← hak] at hpk; exact hpk)
        rw [simEdgeSpec_none_left c hnone_a]
        rw [if_neg (fun hcon : a = k ∧ c ≠ k => hcon.2 hck),
          if_neg (fun hcon : c = k ∧ a ≠ k => hcon.2 hak)]
        rw [simEdgeSpec_some_some
          (show jsGet ((k, P) :: rest) a = some P from by rw [hget a, if_pos hak.symm])
          (show jsGet ((k, P) :: rest) c = some P from by rw [hget c, if_pos hck.symm])]
        have hn : ¬ (a ≠ c ∧ 0 < jaccardIndex P P) :=
          fun hcon => hcon.1 (hak.trans hck.symm)
        rw [if_neg hn]
      · have hnone_a : jsGet rest a = none :=
          jsGet_eq_none_of_not_mem rest a (by rw [← hak] at hpk; exact hpk)
        rw [simEdgeSpec_none_left c hnone_a]
        rw [if_pos ⟨hak, hck⟩]
        cases hjc : jsGet rest c with
        | none =>
          rw [simEdgeSpec_none_right a (show jsGet ((k, P) :: rest) c = none from by
            rw [hget c, if_neg (fun hh => hck hh.symm)]
            exact hjc)]
          simp only [entryAdj]
        | some Sc =>
          rw [simEdgeSpec_some_some
            (show jsGet ((k, P) :: rest) a = some P from by rw [hget a, if_pos hak.symm])
            (show jsGet ((k, P) :: rest) c = some Sc from by
              rw [hget c, if_neg (fun hh => hck hh.symm)]
              exact hjc)]
          simp only [entryAdj]
          by_cases hpos : 0 < jaccardIndex P Sc
          · rw [if_pos hpos,
              if_pos ⟨fun hh => hck (hh.symm.trans hak), hpos⟩]
            rfl
          · rw [if_neg hpos]
            have hn : ¬ (a ≠ c ∧ 0 < jaccardIndex P Sc) := fun hcon => hpos hcon.2
            rw [if_neg hn]
    · by_cases hck : c = k
      · have hnone_c : jsGet rest c = none :=
          jsGet_eq_none_of_not_mem rest c (by rw [← hck] at hpk; exact hpk)
        rw [simEdgeSpec_none_right a hnone_c]
        rw [if_neg (fun hcon : a = k ∧ c ≠ k => hak hcon.1), if_pos ⟨hck, hak⟩]
        cases hja : jsGet rest a with
        | none =>
          rw [simEdgeSpec_none_left c (show jsGet ((k, P) :: rest) a = none from by
            rw [hget a, if_neg (fun hh => hak hh.symm)]
            exact hja)]
          simp only [entryAdj]
        | some Sa =>
          rw [simEdgeSpec_some_some
            (show jsGet ((k, P) :: rest) a = some Sa from by
              rw [hget a, if_neg (fun hh => hak hh.symm)]
              exact hja)
            (show jsGet ((k, P) :: rest) c = some P from by rw [hget c, if_pos hck.symm])]
          simp only [entryAdj]
          by_cases hpos : 0 < jaccardIndex P Sa
          · rw [if_pos hpos]
            have hac : a ≠ c := fun hh => hak (hh.trans hck)
            rw [if_pos ⟨hac, by rw [jaccardIndex_comm]; exact hpos⟩]
            rw [jaccardIndex_comm]
            rfl
          · rw [if_neg hpos]
            have hn : ¬ (a ≠ c ∧ 0 < jaccardIndex Sa P) := by
              rintro ⟨_, hp⟩
              rw [jaccardIndex_comm] at hp
              exact hpos hp
            rw [if_neg hn]
      · rw [if_neg (fun hcon : a = k ∧ c ≠ k => hak hcon.1),
          if_neg (fun hcon : c = k ∧ a ≠ k => hck hcon.1)]
        rw [show simEdgeSpec ((k, P) :: rest) a c = simEdgeSpec rest a c from by
          rw [simEdgeSpec, simEdgeSpec, hget a, hget c,
            if_neg (fun hh => hak hh.symm), if_neg (fun hh => hck hh.symm)]]

theorem rebuild_book_graph (s : GraphService) :
    (s.rebuildSimilarityGraphs).bookSimilarityGraph
      = applyWrites
          (s.bookUsers.foldl (fun g p => g.addNode p.1 ⟨str "book", p.1⟩)
            s.bookSimilarityGraph.clear)
          (rebuildWrites s.bookUsers) := by
  rw [GraphService.rebuildSimilarityGraphs]
  dsimp only
  rw [foldl_rebuild_eq_applyWrites]

theorem rebuild_user_graph (s : GraphService) :
    (s.rebuildSimilarityGraphs).userSimilarityGraph
      = applyWrites
          (s.userBooks.foldl (fun g p => g.addNode p.1 ⟨str "user", p.1⟩)
            s.userSimilarityGraph.clear)
          (rebuildWrites s.userBooks) := by
  rw [GraphService.rebuildSimilarityGraphs]
  dsimp only
  rw [foldl_rebuild_eq_applyWrites]

theorem rebuild_side_eq (g : Graph NodeData ℚ) (m : List (Str × Finset Str))
    (d : (Str × Finset Str) → NodeData) (h : simInv g m) (a c : Str) :
    (applyWrites (m.foldl (fun g' p => g'.addNode p.1 (d p)) g.clear)
        (rebuildWrites m)).getEdgeWeight a c
      = g.getEdgeWeight a c
    ∧ (applyWrites (m.foldl (fun g' p => g'.addNode p.1 (d p)) g.clear)
        (rebuildWrites m)).hasNode a
      = g.hasNode a := by
  obtain ⟨hD, hW, hsub, hnd, hnode, hedge⟩ := h
  have hCsub : adjSub (Graph.clear g) := fun p hp => absurd hp (List.not_mem_nil p)
  obtain ⟨hsub0, hdir0, hwt0, hedg0⟩ := foldl_addNode_base m d g.clear hCsub
  have hD0 : (m.foldl (fun g' p => g'.addNode p.1 (d p)) g.clear).isDirected = false :=
    hdir0.trans hD
  have hW0 : (m.foldl (fun g' p => g'.addNode p.1 (d p)) g.clear).isWeighted = true :=
    hwt0.trans hW
  have hnodes0 : ∀ p ∈ m,
      (m.foldl (fun g' p => g'.addNode p.1 (d p)) g.clear).hasNode p.1 = true :=
    fun p hp => (foldl_addNode_hasNode m d g.clear p.1).mpr
      (Or.inl (List.mem_map.mpr ⟨p, hp, rfl⟩))
  have hedge0 : ∀ x y : Str,
      (m.foldl (fun g' p => g'.addNode p.1 (d p)) g.clear).getEdgeWeight x y = none :=
    fun x y => hedg0 x y
  constructor
  · rw [getEdgeWeight_applyWrites_rebuildWrites m _ hD0 hW0 hsub0 hnd hnodes0 a c,
      hedge0 a c, optOr_none]
    exact (hedge a c).symm
  · rw [applyWrites_hasNode]
    have h1 : (m.foldl (fun g' p => g'.addNode p.1 (d p)) g.clear).hasNode a = true
        ↔ (jsGet m a).isSome = true := by
      rw [foldl_addNode_hasNode m d g.clear a]
      constructor
      · rintro (hmem | hfalse)
        · exact (jsGet_isSome_iff m a).mpr hmem
        · rw [show (Graph.clear g).hasNode a = false from rfl] at hfalse
          exact absurd hfalse Bool.false_ne_true
      · intro hs
        exact Or.inl ((jsGet_isSome_iff m a).mp hs)
    rw [hnode a]
    cases hj : (jsGet m a).isSome with
    | true => exact h1.mpr hj
    | false =>
      cases hb0 : (m.foldl (fun g' p => g'.addNode p.1 (d p)) g.clear).hasNode a with
      | false => rfl
      | true =>
        rw [h1.mp hb0] at hj
        exact Bool.noConfusion hj

/-- C3: for every batch of loan events, recording them one by one through the
incremental path (`recordLoan` with its per-event similarity recomputation)
leaves the two similarity graphs with exactly the same edge weights (including
edge absence) and the same node sets as one call to `rebuildSimilarityGraphs`
on the final state. -/
theorem claim_C3_incremental_equals_rebuild (loans : List (Str × Str)) (a c : Str) :
    ((GraphService.applyLoans GraphService.initState loans).bookSimilarityGraph.getEdgeWeight
        a c
      = ((GraphService.applyLoans GraphService.initState
          loans).rebuildSimilarityGraphs).bookSimilarityGraph.getEdgeWeight a c)
    ∧ ((GraphService.applyLoans GraphService.initState
          loans).userSimilarityGraph.getEdgeWeight a c
      = ((GraphService.applyLoans GraphService.initState
          loans).rebuildSimilarityGraphs).userSimilarityGraph.getEdgeWeight a c)
    ∧ ((GraphService.applyLoans GraphService.initState loans).bookSimilarityGraph.hasNode a
      = ((GraphService.applyLoans GraphService.initState
          loans).rebuildSimilarityGraphs).bookSimilarityGraph.hasNode a)
    ∧ ((GraphService.applyLoans GraphService.initState loans).userSimilarityGraph.hasNode a
      = ((GraphService.applyLoans GraphService.initState
          loans).rebuildSimilarityGraphs).userSimilarityGraph.hasNode a) := by
  obtain ⟨hBinv, hUinv⟩ := srvInv_applyLoans loans GraphService.initState srvInv_init
  have hb := rebuild_side_eq
    (GraphService.applyLoans GraphService.initState loans).bookSimilarityGraph
    (GraphService.applyLoans GraphService.initState loans).bookUsers
    (fun p => ⟨str "book", p.1⟩) hBinv a c
  have hu := rebuild_side_eq
    (GraphService.applyLoans GraphService.initState loans).userSimilarityGraph
    (GraphService.applyLoans GraphService.initState loans).userBooks
    (fun p => ⟨str "user", p.1⟩) hUinv a c
  refine ⟨?_, ?_, ?_, ?_⟩
  · rw [rebuild_book_graph]
    exact hb.1.symm
  · rw [rebuild_user_graph]
    exact hu.1.symm
  · rw [rebuild_book_graph]
    exact hb.2.symm
  · rw [rebuild_user_graph]
    exact hu.2.symm

/-! ### Dijkstra: order, membership and walk lemmas -/

theorem jsLt_trans_false {a b c : Option Int} (h1 : jsLt a b = false)
    (h2 : jsLt b c = false) : jsLt a c = false := by
  cases a with
  | none => rfl
  | some x =>
    cases b with
    | none => simp [jsLt] at h1
    | some y =>
      cases c with
      | none => simp [jsLt] at h2
      | some z =>
        simp only [jsLt, decide_eq_false_iff_not, not_lt] at h1 h2 ⊢
        exact le_trans h2 h1

theorem str_contains_iff (l : List Str) (x : Str) : l.contains x = true ↔ x ∈ l := by
  induction l with
  | nil => simp
  | cons a l ih =>
    simp only [List.contains_cons, Bool.or_eq_true, beq_iff_eq, List.mem_cons, ih]

theorem str_not_contains (l : List Str) (x : Str) (h : l.contains x = false) : x ∉ l := by
  intro hm
  rw [(str_contains_iff l x).mpr hm] at h
  exact Bool.noConfusion h

theorem prevPath_ne_nil {prev : Str → Option Str} {s n : Str} {p : List Str}
    (h : PrevPath prev s n p) : p ≠ [] := by
  cases h with
  | base _ => simp
  | step _ _ => simp

theorem buildPath_eq {prev : Str → Option Str} {s n : Str} {p : List Str}
    (h : PrevPath prev s n p) : ∀ fuel, p.length ≤ fuel + 1 → buildPath prev fuel n = p := by
  induction h with
  | base hs =>
    intro fuel _
    cases fuel with
    | zero => rfl
    | succ f =>
      rw [buildPath, hs]
  | step hm hn ih =>
    intro fuel hlen
    rw [List.length_append, List.length_singleton] at hlen
    cases fuel with
    | zero =>
      exfalso
      have h0 := prevPath_ne_nil hm
      have : List.length _ = 0 := Nat.le_zero.mp (Nat.le_of_succ_le_succ hlen)
      exact h0 (List.eq_nil_of_length_eq_zero this)
    | succ f =>
      rw [buildPath, hn]
      dsimp only
      rw [ih f (Nat.le_of_succ_le_succ hlen)]

theorem edge_pos {ν : Type} (g : Graph ν Int) (hpos : g.positiveWeights) {a b : Str}
    {w : Int} (h : g.getEdgeWeight a b = some w) : 0 < w := by
  have hmem : (b, w) ∈ Graph.getNeighbors g a := mem_of_jsGet_eq_some h
  rw [Graph.getNeighbors] at hmem
  cases hj : jsGet g.adjacencyList a with
  | none =>
    rw [hj] at hmem
    simp at hmem
  | some entry =>
    rw [hj] at hmem
    exact hpos (a, entry) (mem_of_jsGet_eq_some hj) (b, w) hmem

theorem edge_nodes {ν W : Type} (g : Graph ν W) (hwf : g.wellFormed) {a b : Str}
    (h : (g.getEdgeWeight a b).isSome = true) :
    a ∈ jsKeys g.nodes ∧ b ∈ jsKeys g.nodes := by
  obtain ⟨w, hw⟩ := Option.isSome_iff_exists.mp h
  have hmem : (b, w) ∈ Graph.getNeighbors g a := mem_of_jsGet_eq_some hw
  rw [Graph.getNeighbors] at hmem
  cases hj : jsGet g.adjacencyList a with
  | none =>
    rw [hj] at hmem
    simp at hmem
  | some entry =>
    rw [hj] at hmem
    obtain ⟨ha, hndk, hall⟩ := hwf.2.2 (a, entry) (mem_of_jsGet_eq_some hj)
    exact ⟨ha, hall (b, w) hmem⟩

theorem chainOk_mem_nodes {ν W : Type} (g : Graph ν W) (hwf : g.wellFormed) :
    ∀ p, chainOk g p → ∀ x ∈ p, x ∈ jsKeys g.nodes := by
  intro p
  induction p with
  | nil =>
    intro h
    exact h.elim
  | cons a p ih =>
    intro h x hx
    cases p with
    | nil =>
      rcases List.mem_cons.mp hx with hx | hx
      · subst hx
        exact (jsGet_isSome_iff g.nodes x).mp h
      · simp at hx
    | cons b rest =>
      rcases List.mem_cons.mp hx with hx | hx
      · subst hx
        exact (edge_nodes g hwf h.1).1
      · exact ih h.2 x hx

theorem chainOk_suffix {ν W : Type} (g : Graph ν W) :
    ∀ (q1 : List Str) (z : Str) (q2 : List Str),
      chainOk g (q1 ++ z :: q2) → chainOk g (z :: q2) := by
  intro q1
  induction q1 with
  | nil =>
    intro z q2 h
    exact h
  | cons a q1 ih =>
    intro z q2 h
    cases hq : q1 ++ z :: q2 with
    | nil => exact absurd hq (List.append_ne_nil_of_right_ne_nil q1 (List.cons_ne_nil z q2))
    | cons c rest =>
      rw [show (a :: q1) ++ z :: q2 = a :: (q1 ++ z :: q2) from rfl, hq] at h
      exact ih z q2 (by rw [hq]; exact h.2)

theorem chainOk_prefix {ν W : Type} (g : Graph ν W) (hwf : g.wellFormed) :
    ∀ (q1 : List Str) (z : Str) (q2 : List Str),
      chainOk g (q1 ++ z :: q2) → chainOk g (q1 ++ [z]) := by
  intro q1
  induction q1 with
  | nil =>
    intro z q2 h
    cases q2 with
    | nil => exact h
    | cons b rest =>
      show g.hasNode z = true
      rw [Graph.hasNode]
      exact ((jsGet_isSome_iff g.nodes z).mpr (edge_nodes g hwf h.1).1)
  | cons a q1 ih =>
    intro z q2 h
    cases q1 with
    | nil =>
      refine ⟨h.1, ?_⟩
      show g.hasNode z = true
      rw [Graph.hasNode]
      exact ((jsGet_isSome_iff g.nodes z).mpr (edge_nodes g hwf h.1).2)
    | cons b q1' =>
      exact ⟨h.1, ih z q2 h.2⟩

theorem chainOk_concat {ν W : Type} (g : Graph ν W) (hwf : g.wellFormed) :
    ∀ (p : List Str) (m n : Str), chainOk g p → p.getLast? = some m →
      (g.getEdgeWeight m n).isSome = true → chainOk g (p ++ [n]) := by
  intro p
  induction p with
  | nil =>
    intro m n h
    exact h.elim
  | cons a p ih =>
    intro m n h hl he
    cases p with
    | nil =>
      have ham : a = m := by
        simp at hl
        exact hl
      subst ham
      refine ⟨he, ?_⟩
      show g.hasNode n = true
      rw [Graph.hasNode]
      exact (jsGet_isSome_iff g.nodes n).mpr (edge_nodes g hwf he).2
    | cons b rest =>
      have hl' : (b :: rest).getLast? = some m := by
        rw [← hl]
        rfl
      exact ⟨h.1, ih m n h.2 hl' he⟩


theorem jsLt_false_of_false_of_true {x y z : Option Int} (h1 : jsLt y x = false)
    (h2 : jsLt y z = true) : jsLt z x = false := by
  cases y with
  | none => simp [jsLt] at h2
  | some y' =>
    cases x with
    | none => simp [jsLt] at h1
    | some x' =>
      cases z with
      | none => rfl
      | some z' =>
        simp only [jsLt, decide_eq_false_iff_not, not_lt, decide_eq_true_eq] at h1 h2 ⊢
        omega

theorem pathWeight_append {ν : Type} (g : Graph ν Int) :
    ∀ (q1 : List Str) (z : Str) (q2 : List Str),
      pathWeight g (q1 ++ z :: q2) = pathWeight g (q1 ++ [z]) + pathWeight g (z :: q2) := by
  intro q1
  induction q1 with
  | nil =>
    intro z q2
    rw [show pathWeight g ([] ++ [z]) = 0 from rfl]
    rw [List.nil_append, zero_add]
  | cons a q1 ih =>
    intro z q2
    cases q1 with
    | nil =>
      rw [show pathWeight g ([a] ++ z :: q2)
          = (g.getEdgeWeight a z).getD 0 + pathWeight g (z :: q2) from rfl]
      rw [show pathWeight g ([a] ++ [z]) = (g.getEdgeWeight a z).getD 0 + 0 from rfl]
      rw [add_zero]
    | cons b q1' =>
      rw [show pathWeight g ((a :: b :: q1') ++ z :: q2)
          = (g.getEdgeWeight a b).getD 0 + pathWeight g ((b :: q1') ++ z :: q2) from rfl]
      rw [show pathWeight g ((a :: b :: q1') ++ [z])
          = (g.getEdgeWeight a b).getD 0 + pathWeight g ((b :: q1') ++ [z]) from rfl]
      rw [ih z q2, add_assoc]

theorem pathWeight_nonneg {ν : Type} (g : Graph ν Int) (hpos : g.positiveWeights) :
    ∀ p, chainOk g p → 0 ≤ pathWeight g p := by
  intro p
  induction p with
  | nil =>
    intro h
    exact h.elim
  | cons a p ih =>
    intro h
    cases p with
    | nil => exact le_refl 0
    | cons b rest =>
      obtain ⟨w, hw⟩ := Option.isSome_iff_exists.mp h.1
      have hval : 0 < w := edge_pos g hpos hw
      have h2 := ih h.2
      rw [show pathWeight g (a :: b :: rest)
          = (g.getEdgeWeight a b).getD 0 + pathWeight g (b :: rest) from rfl, hw]
      rw [Option.getD_some]
      omega

theorem pathWeight_concat {ν : Type} (g : Graph ν Int) :
    ∀ (p : List Str) (m n : Str), p.getLast? = some m →
      pathWeight g (p ++ [n]) = pathWeight g p + (g.getEdgeWeight m n).getD 0 := by
  intro p
  induction p with
  | nil =>
    intro m n h
    simp at h
  | cons a p ih =>
    intro m n h
    cases p with
    | nil =>
      have ham : a = m := by
        simp at h
        exact h
      subst ham
      rw [show pathWeight g ([a] ++ [n]) = (g.getEdgeWeight a n).getD 0 + 0 from rfl]
      rw [show pathWeight g [a] = 0 from rfl]
      omega
    | cons b rest =>
      have h' : (b :: rest).getLast? = some m := by
        rw [← h]
        rfl
      rw [show pathWeight g ((a :: b :: rest) ++ [n])
          = (g.getEdgeWeight a b).getD 0 + pathWeight g ((b :: rest) ++ [n]) from rfl]
      rw [ih m n h']
      rw [show pathWeight g (a :: b :: rest)
          = (g.getEdgeWeight a b).getD 0 + pathWeight g (b :: rest) from rfl]
      rw [add_assoc]

theorem head_append_left {q1 : List Str} (h : q1 ≠ []) (l : List Str) :
    (q1 ++ l).head? = q1.head? := by
  cases q1 with
  | nil => exact absurd rfl h
  | cons a t => rfl

theorem exists_first_not_mem {visited : List Str} :
    ∀ {q : List Str} {z0 : Str}, z0 ∈ q → z0 ∉ visited →
      ∃ q1 z q2, q = q1 ++ z :: q2 ∧ (∀ x ∈ q1, x ∈ visited) ∧ z ∉ visited := by
  intro q
  induction q with
  | nil =>
    intro z0 hz0 hn
    exact absurd hz0 (List.not_mem_nil z0)
  | cons a q ih =>
    intro z0 hz0 hz0n
    by_cases ha : a ∈ visited
    · have hz0q : z0 ∈ q := by
        rcases List.mem_cons.mp hz0 with hh | hh
        · exact absurd (hh ▸ ha) hz0n
        · exact hh
      obtain ⟨q1, z, q2, heq, h1, h2⟩ := ih hz0q hz0n
      refine ⟨a :: q1, z, q2, by rw [heq]; rfl, ?_, h2⟩
      intro x hx
      rcases List.mem_cons.mp hx with hh | hh
      · exact hh ▸ ha
      · exact h1 x hh
    · exact ⟨[], a, q, rfl, by simp, ha⟩

/-! ### `getMinNode` specification -/

theorem getMinLoop_spec (dist : Str → Option Int) (visited : List Str) :
    ∀ (l : List Str) (best : Option Str) (bestD : Option Int),
      bestD = Option.bind best dist →
      (∀ b, best = some b → b ∉ visited ∧ (dist b).isSome = true) →
      (∀ b, getMinLoop dist visited l best bestD = some b →
          (b ∈ l ∨ best = some b) ∧ b ∉ visited ∧ (dist b).isSome = true)
      ∧ (∀ u ∈ l, u ∉ visited →
          jsLt (dist u) (Option.bind (getMinLoop dist visited l best bestD) dist) = false)
      ∧ jsLt bestD (Option.bind (getMinLoop dist visited l best bestD) dist) = false
      ∧ (getMinLoop dist visited l best bestD = none →
          best = none ∧ ∀ u ∈ l, u ∉ visited → dist u = none) := by
  intro l
  induction l with
  | nil =>
    intro best bestD hbd hok
    rw [show getMinLoop dist visited [] best bestD = best from rfl]
    refine ⟨?_, ?_, ?_, ?_⟩
    · intro b hb
      exact ⟨Or.inr hb, hok b hb⟩
    · intro u hu
      exact absurd hu (List.not_mem_nil u)
    · rw [hbd]
      cases best with
      | none => rfl
      | some b =>
        rw [show Option.bind (some b) dist = dist b from rfl]
        cases hd : dist b with
        | none => rfl
        | some d => simp [jsLt]
    · intro hnone
      exact ⟨hnone, fun u hu hunv => absurd hu (List.not_mem_nil u)⟩
  | cons id rest ih =>
    intro best bestD hbd hok
    rw [show getMinLoop dist visited (id :: rest) best bestD
        = if !(visited.contains id) && jsLt (dist id) bestD then
            getMinLoop dist visited rest (some id) (dist id)
          else getMinLoop dist visited rest best bestD from rfl]
    by_cases hvc : visited.contains id = true
    · have hcondf : (!(visited.contains id) && jsLt (dist id) bestD) = false := by
        rw [hvc]
        rfl
      rw [if_neg (show ¬ ((!(visited.contains id) && jsLt (dist id) bestD) = true) from by
        rw [hcondf]
        exact Bool.false_ne_true)]
      obtain ⟨c1, c2, c3, c4⟩ := ih best bestD hbd hok
      refine ⟨?_, ?_, c3, ?_⟩
      · intro b hb
        obtain ⟨hmem, h2, h3⟩ := c1 b hb
        rcases hmem with hmem | hmem
        · exact ⟨Or.inl (List.mem_cons_of_mem _ hmem), h2, h3⟩
        · exact ⟨Or.inr hmem, h2, h3⟩
      · intro u hu hunv
        rcases List.mem_cons.mp hu with hu | hu
        · subst hu
          exact absurd ((str_contains_iff visited u).mp hvc) hunv
        · exact c2 u hu hunv
      · intro hnone
        obtain ⟨hb, hrest⟩ := c4 hnone
        refine ⟨hb, ?_⟩
        intro u hu hunv
        rcases List.mem_cons.mp hu with hu | hu
        · subst hu
          exact absurd ((str_contains_iff visited u).mp hvc) hunv
        · exact hrest u hu hunv
    · have hvc' : visited.contains id = false := by
        rcases Bool.eq_false_or_eq_true (visited.contains id) with h2 | h2
        · exact absurd h2 hvc
        · exact h2
      have hidnv : id ∉ visited := str_not_contains visited id hvc'
      by_cases hlt : jsLt (dist id) bestD = true
      · rw [if_pos (show (!(visited.contains id) && jsLt (dist id) bestD) = true from by
          rw [hvc', hlt]
          rfl)]
        have hidsome : (dist id).isSome = true := by
          cases hd : dist id with
          | none => rw [hd] at hlt; simp [jsLt] at hlt
          | some d => rfl
        obtain ⟨c1, c2, c3, c4⟩ := ih (some id) (dist id)
          (show dist id = Option.bind (some id) dist from rfl)
          (fun b hb => by
            have hib : id = b := Option.some_inj.mp hb
            rw [← hib]
            exact ⟨hidnv, hidsome⟩)
        refine ⟨?_, ?_, ?_, ?_⟩
        · intro b hb
          obtain ⟨hmem, h2, h3⟩ := c1 b hb
          rcases hmem with hmem | hmem
          · exact ⟨Or.inl (List.mem_cons_of_mem _ hmem), h2, h3⟩
          · have hib : id = b := Option.some_inj.mp hmem
            exact ⟨Or.inl (hib ▸ List.mem_cons_self id rest), h2, h3⟩
        · intro u hu hunv
          rcases List.mem_cons.mp hu with hu | hu
          · subst hu
            exact c3
          · exact c2 u hu hunv
        · exact jsLt_false_of_false_of_true c3 hlt
        · intro hnone
          exact absurd (c4 hnone).1 (Option.some_ne_none id)
      · have hlt' : jsLt (dist id) bestD = false := by
          rcases Bool.eq_false_or_eq_true (jsLt (dist id) bestD) with h2 | h2
          · exact absurd h2 hlt
          · exact h2
        have hcondf : (!(visited.contains id) && jsLt (dist id) bestD) = false := by
          rw [hvc', hlt']
          rfl
        rw [if_neg (show ¬ ((!(visited.contains id) && jsLt (dist id) bestD) = true) from by
          rw [hcondf]
          exact Bool.false_ne_true)]
        obtain ⟨c1, c2, c3, c4⟩ := ih best bestD hbd hok
        refine ⟨?_, ?_, c3, ?_⟩
        · intro b hb
          obtain ⟨hmem, h2, h3⟩ := c1 b hb
          rcases hmem with hmem | hmem
          · exact ⟨Or.inl (List.mem_cons_of_mem _ hmem), h2, h3⟩
          · exact ⟨Or.inr hmem, h2, h3⟩
        · intro u hu hunv
          rcases List.mem_cons.mp hu with hu | hu
          · subst hu
            exact jsLt_trans_false hlt' c3
          · exact c2 u hu hunv
        · intro hnone
          obtain ⟨hb, hrest⟩ := c4 hnone
          refine ⟨hb, ?_⟩
          intro u hu hunv
          rcases List.mem_cons.mp hu with hu | hu
          · subst hu
            rw [hb] at hbd
            rw [show Option.bind none dist = none from rfl] at hbd
            rw [hbd] at hlt'
            cases hd : dist u with
            | none => rfl
            | some d => rw [hd] at hlt'; simp [jsLt] at hlt'
          · exact hrest u hu hunv

theorem getMinNode_some (nodeIds : List Str) (dist : Str → Option Int)
    (visited : List Str) (c : Str)
    (h : getMinNode nodeIds dist visited = some c) :
    c ∈ nodeIds ∧ c ∉ visited ∧ (dist c).isSome = true
      ∧ ∀ u ∈ nodeIds, u ∉ visited → jsLt (dist u) (dist c) = false := by
  obtain ⟨c1, c2, c3, c4⟩ := getMinLoop_spec dist visited nodeIds none none rfl
    (fun b hb => Option.noConfusion hb)
  rw [getMinNode] at h
  obtain ⟨hmem, hnv, hsome⟩ := c1 c h
  refine ⟨?_, hnv, hsome, ?_⟩
  · rcases hmem with hmem | hmem
    · exact hmem
    · exact absurd hmem (Option.noConfusion)
  · intro u hu hunv
    have := c2 u hu hunv
    rw [h] at this
    rw [show Option.bind (some c) dist = dist c from rfl] at this
    exact this

theorem getMinNode_none (nodeIds : List Str) (dist : Str → Option Int)
    (visited : List Str) (h : getMinNode nodeIds dist visited = none) :
    ∀ u ∈ nodeIds, u ∉ visited → dist u = none := by
  obtain ⟨c1, c2, c3, c4⟩ := getMinLoop_spec dist visited nodeIds none none rfl
    (fun b hb => Option.noConfusion hb)
  rw [getMinNode] at h
  exact (c4 h).2

/-! ### `relaxNeighbors` specification -/

theorem updFn_self {γ : Type} (f : Str → γ) (k : Str) (v : γ) : updFn f k v k = v := by
  simp [updFn]

theorem updFn_ne {γ : Type} (f : Str → γ) {k x : Str} (v : γ) (h : x ≠ k) :
    updFn f k v x = f x := by
  simp [updFn, h]

theorem relaxNeighbors_spec (current : Str) (cd : Int) (visited : List Str) :
    ∀ (nbrs : List (Str × Int)) (dist : Str → Option Int) (prev : Str → Option Str),
      (jsKeys nbrs).Nodup →
      (∀ x, x ∉ jsKeys nbrs →
        (relaxNeighbors nbrs current cd dist prev visited).1 x = dist x ∧
        (relaxNeighbors nbrs current cd dist prev visited).2 x = prev x)
      ∧ (∀ x, x ∈ visited →
        (relaxNeighbors nbrs current cd dist prev visited).1 x = dist x ∧
        (relaxNeighbors nbrs current cd dist prev visited).2 x = prev x)
      ∧ (∀ x, ((relaxNeighbors nbrs current cd dist prev visited).1 x = dist x ∧
              (relaxNeighbors nbrs current cd dist prev visited).2 x = prev x)
          ∨ ∃ w, (x, w) ∈ nbrs ∧ x ∉ visited ∧
              (relaxNeighbors nbrs current cd dist prev visited).1 x = some (cd + w) ∧
              (relaxNeighbors nbrs current cd dist prev visited).2 x = some current ∧
              jsLt (some (cd + w)) (dist x) = true)
      ∧ (∀ x w, (x, w) ∈ nbrs → x ∉ visited →
          jsLt (some (cd + w)) ((relaxNeighbors nbrs current cd dist prev visited).1 x)
            = false) := by
  intro nbrs
  induction nbrs with
  | nil =>
    intro dist prev hnd
    refine ⟨fun x hx => ⟨rfl, rfl⟩, fun x hx => ⟨rfl, rfl⟩, fun x => Or.inl ⟨rfl, rfl⟩,
      fun x w hw => absurd hw (List.not_mem_nil _)⟩
  | cons nb rest ih =>
    intro dist prev hnd
    have hnbk : nb.1 ∉ jsKeys rest := by
      simp only [jsKeys, List.map_cons, List.nodup_cons] at hnd
      exact hnd.1
    have hnd' : (jsKeys rest).Nodup := by
      simp only [jsKeys, List.map_cons, List.nodup_cons] at hnd
      exact hnd.2
    by_cases hvc : visited.contains nb.1 = true
    · have he : relaxNeighbors (nb :: rest) current cd dist prev visited
          = relaxNeighbors rest current cd dist prev visited := by
        rw [relaxNeighbors, relaxNeighbors, List.foldl_cons]
        dsimp only
        rw [if_pos hvc]
      rw [he]
      obtain ⟨c1, c2, c3, c4⟩ := ih dist prev hnd'
      refine ⟨?_, c2, ?_, ?_⟩
      · intro x hx
        exact c1 x (fun hh => hx (List.mem_cons_of_mem _ hh))
      · intro x
        rcases c3 x with hc | ⟨w, hw, h2, h3, h4, h5⟩
        · exact Or.inl hc
        · exact Or.inr ⟨w, List.mem_cons_of_mem _ hw, h2, h3, h4, h5⟩
      · intro x w hw hxnv
        rcases List.mem_cons.mp hw with hw | hw
        · exfalso
          have : x ∈ visited := by
            have := (str_contains_iff visited nb.1).mp hvc
            rw [show x = nb.1 from congrArg Prod.fst hw]
            exact this
          exact hxnv this
        · exact c4 x w hw hxnv
    · have hvc' : visited.contains nb.1 = false := by
        rcases Bool.eq_false_or_eq_true (visited.contains nb.1) with h2 | h2
        · exact absurd h2 hvc
        · exact h2
      have hnbnv : nb.1 ∉ visited := str_not_contains visited nb.1 hvc'
      by_cases hj : jsLt (some (cd + nb.2)) (dist nb.1) = true
      · have he : relaxNeighbors (nb :: rest) current cd dist prev visited
            = relaxNeighbors rest current cd (updFn dist nb.1 (some (cd + nb.2)))
                (updFn prev nb.1 (some current)) visited := by
          rw [relaxNeighbors, relaxNeighbors, List.foldl_cons]
          dsimp only
          rw [if_neg (show ¬ (visited.contains nb.1 = true) from by
            rw [hvc']
            exact Bool.false_ne_true), if_pos hj]
        rw [he]
        obtain ⟨c1, c2, c3, c4⟩ := ih (updFn dist nb.1 (some (cd + nb.2)))
          (updFn prev nb.1 (some current)) hnd'
        refine ⟨?_, ?_, ?_, ?_⟩
        · intro x hx
          have hx1 : ¬ x = nb.1 := fun hh => hx (by rw [hh]; exact List.mem_cons_self _ _)
          have hx2 : x ∉ jsKeys rest := fun hh => hx (List.mem_cons_of_mem _ hh)
          obtain ⟨e1, e2⟩ := c1 x hx2
          exact ⟨e1.trans (updFn_ne dist _ hx1), e2.trans (updFn_ne prev _ hx1)⟩
        · intro x hx
          have hx1 : ¬ x = nb.1 := fun hh => hnbnv (hh ▸ hx)
          obtain ⟨e1, e2⟩ := c2 x hx
          exact ⟨e1.trans (updFn_ne dist _ hx1), e2.trans (updFn_ne prev _ hx1)⟩
        · intro x
          rcases c3 x with ⟨e1, e2⟩ | ⟨w, hw, h2, h3, h4, h5⟩
          · by_cases hx1 : x = nb.1
            · refine Or.inr ⟨nb.2, ?_, ?_, ?_, ?_, ?_⟩
              · rw [hx1]
                exact (Prod.mk.eta) ▸ List.mem_cons_self nb rest
              · rw [hx1]
                exact hnbnv
              · rw [e1, hx1, updFn_self]
              · rw [e2, hx1, updFn_self]
              · rw [hx1]
                exact hj
            · exact Or.inl ⟨e1.trans (updFn_ne dist _ hx1),
                e2.trans (updFn_ne prev _ hx1)⟩
          · have hx1 : ¬ x = nb.1 := by
              intro hh
              exact hnbk (hh ▸ List.mem_map.mpr ⟨(x, w), hw, rfl⟩)
            refine Or.inr ⟨w, List.mem_cons_of_mem _ hw, h2, h3, h4, ?_⟩
            rw [updFn_ne dist _ hx1] at h5
            exact h5
        · intro x w hw hxnv
          rcases List.mem_cons.mp hw with hw | hw
          · have hx1 : x = nb.1 := congrArg Prod.fst hw
            have hw1 : w = nb.2 := congrArg Prod.snd hw
            have hxk : x ∉ jsKeys rest := by
              rw [hx1]
              exact hnbk
            obtain ⟨e1, e2⟩ := c1 x hxk
            rw [e1, hx1, updFn_self, hw1]
            simp [jsLt]
          · exact c4 x w hw hxnv
      · have hj' : jsLt (some (cd + nb.2)) (dist nb.1) = false := by
          rcases Bool.eq_false_or_eq_true (jsLt (some (cd + nb.2)) (dist nb.1)) with h2 | h2
          · exact absurd h2 hj
          · exact h2
        have he : relaxNeighbors (nb :: rest) current cd dist prev visited
            = relaxNeighbors rest current cd dist prev visited := by
          rw [relaxNeighbors, relaxNeighbors, List.foldl_cons]
          dsimp only
          rw [if_neg (show ¬ (visited.contains nb.1 = true) from by
            rw [hvc']
            exact Bool.false_ne_true), if_neg (show ¬ (jsLt (some (cd + nb.2))
              (dist nb.1) = true) from by
            rw [hj']
            exact Bool.false_ne_true)]
        rw [he]
        obtain ⟨c1, c2, c3, c4⟩ := ih dist prev hnd'
        refine ⟨?_, c2, ?_, ?_⟩
        · intro x hx
          exact c1 x (fun hh => hx (List.mem_cons_of_mem _ hh))
        · intro x
          rcases c3 x with hc | ⟨w, hw, h2, h3, h4, h5⟩
          · exact Or.inl hc
          · exact Or.inr ⟨w, List.mem_cons_of_mem _ hw, h2, h3, h4, h5⟩
        · intro x w hw hxnv
          rcases List.mem_cons.mp hw with hw | hw
          · have hx1 : x = nb.1 := congrArg Prod.fst hw
            have hw1 : w = nb.2 := congrArg Prod.snd hw
            have hxk : x ∉ jsKeys rest := by
              rw [hx1]
              exact hnbk
            obtain ⟨e1, e2⟩ := c1 x hxk
            rw [e1, hx1, hw1]
            exact hj'
          · exact c4 x w hw hxnv

/-! ### The extracted-node optimality argument -/

theorem mem_of_getLast?W {l : List Str} {a : Str} (h : l.getLast? = some a) : a ∈ l := by
  induction l with
  | nil => simp at h
  | cons b l ih =>
    cases l with
    | nil =>
      simp at h
      rw [h]
      exact List.mem_cons_self _ _
    | cons c l' =>
      rw [List.getLast?_cons_cons] at h
      exact List.mem_cons_of_mem _ (ih h)

theorem getLast?_cons_ne_none (a : Str) (l : List Str) : (a :: l).getLast? ≠ none := by
  induction l generalizing a with
  | nil => simp
  | cons b l ih =>
    rw [List.getLast?_cons_cons]
    exact ih b

theorem chainOk_last_edge {ν W : Type} (g : Graph ν W) :
    ∀ (q1 : List Str) (v z : Str), chainOk g (q1 ++ [z]) → q1.getLast? = some v →
      (g.getEdgeWeight v z).isSome = true := by
  intro q1
  induction q1 with
  | nil =>
    intro v z h hl
    simp at hl
  | cons a q1 ih =>
    intro v z h hl
    cases q1 with
    | nil =>
      simp at hl
      rw [← hl]
      exact h.1
    | cons b q1' =>
      have hl' : (b :: q1').getLast? = some v := by
        rw [← hl]
        rfl
      exact ih v z h.2 hl'

theorem jsLt_some_false {x : Int} {o : Option Int}
    (h : jsLt (some x) o = false) : ∃ y, o = some y ∧ y ≤ x := by
  cases o with
  | none => simp [jsLt] at h
  | some y =>
    refine ⟨y, rfl, ?_⟩
    simp only [jsLt, decide_eq_false_iff_not, not_lt] at h
    exact h

theorem prevPath_congr {prev P : Str → Option Str} {s n : Str} {p : List Str}
    (h : PrevPath prev s n p) (hagree : ∀ x ∈ p, P x = prev x) : PrevPath P s n p := by
  induction h with
  | base hs =>
    exact PrevPath.base ((hagree s (List.mem_cons_self _ _)).trans hs)
  | step hm hn ih =>
    refine PrevPath.step (ih ?_) ?_
    · intro x hx
      exact hagree x (List.mem_append.mpr (Or.inl hx))
    · rename_i m n' p'
      exact (hagree n' (List.mem_append.mpr (Or.inr (List.mem_cons_self _ _)))).trans hn

theorem min_optimal {ν : Type} (g : Graph ν Int) (s : Str)
    (dist : Str → Option Int) (prev : Str → Option Str) (visited : List Str)
    (hwf : g.wellFormed) (hpos : g.positiveWeights)
    (hinv : DijkInv g s dist prev visited)
    {current : Str} {cd : Int}
    (hcd : dist current = some cd)
    (hnv : current ∉ visited)
    (hmin : ∀ u ∈ jsKeys g.nodes, u ∉ visited → jsLt (dist u) (dist current) = false) :
    ∀ q, isPath g s current q → cd ≤ pathWeight g q := by
  obtain ⟨hvnd, hvids, hds, hps, hvsome, hpath, hrelax, hminO, hopt⟩ := hinv
  rintro q ⟨hq, hqh, hql⟩
  have hcur_q : current ∈ q := mem_of_getLast?W hql
  obtain ⟨q1, z, q2, heq, hq1v, hznv⟩ := exists_first_not_mem hcur_q hnv
  subst heq
  have hzids : z ∈ jsKeys g.nodes :=
    chainOk_mem_nodes g hwf _ hq z (List.mem_append.mpr (Or.inr (List.mem_cons_self _ _)))
  have hsuffix : chainOk g (z :: q2) := chainOk_suffix g q1 z q2 hq
  have hsufw : 0 ≤ pathWeight g (z :: q2) := pathWeight_nonneg g hpos _ hsuffix
  have hsplitw := pathWeight_append g q1 z q2
  -- a finite distance at z bounded by the weight of the visited prefix
  have hz : ∃ dz, dist z = some dz ∧ dz ≤ pathWeight g (q1 ++ [z]) := by
    cases q1 with
    | nil =>
      have hzs : z = s := by
        simp at hqh
        exact hqh
      subst hzs
      exact ⟨0, hds, by rw [show pathWeight g ([] ++ [z]) = 0 from rfl]⟩
    | cons a q1'' =>
      cases hlast : (a :: q1'').getLast? with
      | none => exact absurd hlast (getLast?_cons_ne_none _ _)
      | some v =>
        have hvv : v ∈ visited := hq1v v (mem_of_getLast?W hlast)
        have hchain_pz : chainOk g ((a :: q1'') ++ [z]) := chainOk_prefix g hwf _ z q2 hq
        have hedge : (g.getEdgeWeight v z).isSome = true :=
          chainOk_last_edge g _ v z hchain_pz hlast
        obtain ⟨wz, hwz⟩ := Option.isSome_iff_exists.mp hedge
        have hchain_p : chainOk g (a :: q1'') := by
          have hd : (a :: q1'').dropLast ++ [v] = a :: q1'' := by
            have := List.dropLast_append_getLast (l := a :: q1'') (by simp)
            rw [show (a :: q1'').getLast (by simp) = v from by
              have h2 := List.getLast?_eq_getLast (a :: q1'') (by simp)
              rw [h2] at hlast
              exact Option.some_inj.mp hlast] at this
            exact this
          have hc2 : chainOk g ((a :: q1'').dropLast ++ v :: [z]) := by
            rw [show (a :: q1'').dropLast ++ v :: [z]
                = ((a :: q1'').dropLast ++ [v]) ++ [z] from by
              rw [List.append_assoc]
              rfl]
            rw [hd]
            exact hchain_pz
          have := chainOk_prefix g hwf (a :: q1'').dropLast v [z] hc2
          rw [hd] at this
          exact this
        have hpathv : isPath g s v (a :: q1'') := by
          refine ⟨hchain_p, ?_, hlast⟩
          rw [← head_append_left (by simp : (a :: q1'') ≠ []) (z :: q2)]
          exact hqh
        obtain ⟨dv, hdv⟩ := Option.isSome_iff_exists.mp (hvsome v hvv)
        have hoptv : dv ≤ pathWeight g (a :: q1'') := hopt v hvv dv hdv _ hpathv
        obtain ⟨dz, hdz, hdzle⟩ := hrelax v hvv dv hdv z wz hwz
        refine ⟨dz, hdz, ?_⟩
        have hw : pathWeight g ((a :: q1'') ++ [z])
            = pathWeight g (a :: q1'') + wz := by
          rw [pathWeight_concat g _ v z hlast, hwz, Option.getD_some]
        rw [hw]
        omega
  obtain ⟨dz, hdz, hdzle⟩ := hz
  have hcdz : cd ≤ dz := by
    have := hmin z hzids hznv
    rw [hdz, hcd] at this
    simp only [jsLt, decide_eq_false_iff_not, not_lt] at this
    exact this
  rw [hsplitw]
  omega

/-! ### One Dijkstra iteration preserves the invariant -/

theorem dijkInv_step {ν : Type} (g : Graph ν Int) (s : Str)
    (hwf : g.wellFormed) (hpos : g.positiveWeights)
    (dist : Str → Option Int) (prev : Str → Option Str) (visited : List Str)
    (hinv : DijkInv g s dist prev visited)
    (current : Str) (cd : Int)
    (hcur : getMinNode (Graph.getAllNodeIds g) dist visited = some current)
    (hcd : dist current = some cd) :
    DijkInv g s
      (relaxNeighbors (g.getNeighbors current) current cd dist prev
        (current :: visited)).1
      (relaxNeighbors (g.getNeighbors current) current cd dist prev
        (current :: visited)).2
      (current :: visited) := by
  obtain ⟨hcid, hcnv, hcsome, hmin⟩ :=
    getMinNode_some (Graph.getAllNodeIds g) dist visited current hcur
  have hoptC : ∀ q, isPath g s current q → cd ≤ pathWeight g q :=
    min_optimal g s dist prev visited hwf hpos hinv hcd hcnv hmin
  obtain ⟨hvnd, hvids, hds, hps, hvsome, hpath, hrelax, hminO, hopt⟩ := hinv
  have hnbrnd : (jsKeys (g.getNeighbors current)).Nodup := by
    rw [Graph.getNeighbors]
    cases hj : jsGet g.adjacencyList current with
    | none => simp [jsKeys]
    | some entry => exact (hwf.2.2 (current, entry) (mem_of_jsGet_eq_some hj)).2.1
  obtain ⟨r1, r2, r3, r4⟩ := relaxNeighbors_spec current cd (current :: visited)
    (g.getNeighbors current) dist prev hnbrnd
  have hedge_of_mem : ∀ x w, (x, w) ∈ g.getNeighbors current →
      g.getEdgeWeight current x = some w :=
    fun x w hm => jsGet_eq_of_mem_nodup hnbrnd hm
  have hmem_of_edge : ∀ x w, g.getEdgeWeight current x = some w →
      (x, w) ∈ g.getNeighbors current :=
    fun x w h => mem_of_jsGet_eq_some h
  have hcd0 : 0 ≤ cd := by
    obtain ⟨pc, hPPc, hchc, hhc, hlc, hwc, hndc, hintc⟩ := hpath current cd hcd
    rw [← hwc]
    exact pathWeight_nonneg g hpos pc hchc
  -- the source is never relaxed
  have hsfix : (relaxNeighbors (g.getNeighbors current) current cd dist prev
        (current :: visited)).1 s = dist s
      ∧ (relaxNeighbors (g.getNeighbors current) current cd dist prev
        (current :: visited)).2 s = prev s := by
    rcases r3 s with hc | ⟨w, hw, hnv2, hset, hpset, himpr⟩
    · exact hc
    · exfalso
      have hwpos : 0 < w := edge_pos g hpos (hedge_of_mem s w hw)
      rw [hds] at himpr
      simp only [jsLt, decide_eq_true_eq] at himpr
      omega
  refine ⟨List.nodup_cons.mpr ⟨hcnv, hvnd⟩, ?_, ?_, ?_, ?_, ?_, ?_, ?_, ?_⟩
  · intro v hv
    rcases List.mem_cons.mp hv with hv | hv
    · exact hv ▸ hcid
    · exact hvids v hv
  · rw [hsfix.1]
    exact hds
  · rw [hsfix.2]
    exact hps
  · intro v hv
    rcases List.mem_cons.mp hv with hv | hv
    · rw [(r2 v (hv ▸ List.mem_cons_self current visited)).1, hv, hcd]
      rfl
    · rw [(r2 v (List.mem_cons_of_mem _ hv)).1]
      exact hvsome v hv
  · -- path witnesses
    intro n w hn
    rcases r3 n with ⟨e1, e2⟩ | ⟨w', hw', hnv2, hset, hpset, himpr⟩
    · rw [e1] at hn
      obtain ⟨p, hPP, hch, hh, hl, hwp, hndp, hint⟩ := hpath n w hn
      have hagree : ∀ x ∈ p,
          (relaxNeighbors (g.getNeighbors current) current cd dist prev
            (current :: visited)).2 x = prev x := by
        intro x hx
        have hsplit : p.dropLast ++ [p.getLast (prevPath_ne_nil hPP)] = p :=
          List.dropLast_append_getLast (prevPath_ne_nil hPP)
        have hlastn : p.getLast (prevPath_ne_nil hPP) = n := by
          have h2 := List.getLast?_eq_getLast p (prevPath_ne_nil hPP)
          rw [h2] at hl
          exact Option.some_inj.mp hl
        rw [← hsplit] at hx
        rcases List.mem_append.mp hx with hx | hx
        · exact (r2 x (List.mem_cons_of_mem _ (hint x hx))).2
        · have hxn : x = n := by
            rw [← hlastn]
            simp at hx
            exact hx
          rw [hxn]
          exact e2
      exact ⟨p, prevPath_congr hPP hagree, hch, hh, hl, hwp, hndp,
        fun x hx => List.mem_cons_of_mem _ (hint x hx)⟩
    · -- updated through the edge current → n
      have hwn : w = cd + w' := by
        rw [hn] at hset
        exact Option.some_inj.mp hset
      obtain ⟨pc, hPPc, hchc, hhc, hlc, hwc, hndc, hintc⟩ := hpath current cd hcd
      have hpcmem : ∀ x ∈ pc, x ∈ current :: visited := by
        intro x hx
        have hsplit : pc.dropLast ++ [pc.getLast (prevPath_ne_nil hPPc)] = pc :=
          List.dropLast_append_getLast (prevPath_ne_nil hPPc)
        have hlastc : pc.getLast (prevPath_ne_nil hPPc) = current := by
          have h2 := List.getLast?_eq_getLast pc (prevPath_ne_nil hPPc)
          rw [h2] at hlc
          exact Option.some_inj.mp hlc
        rw [← hsplit] at hx
        rcases List.mem_append.mp hx with hx | hx
        · exact List.mem_cons_of_mem _ (hintc x hx)
        · have hxc : x = current := by
            rw [← hlastc]
            simp at hx
            exact hx
          rw [hxc]
          exact List.mem_cons_self _ _
      have hagree : ∀ x ∈ pc,
          (relaxNeighbors (g.getNeighbors current) current cd dist prev
            (current :: visited)).2 x = prev x :=
        fun x hx => (r2 x (hpcmem x hx)).2
      have hedge : g.getEdgeWeight current n = some w' := hedge_of_mem n w' hw'
      have hnpc : n ∉ pc := fun hh => hnv2 (hpcmem n hh)
      refine ⟨pc ++ [n], PrevPath.step (prevPath_congr hPPc hagree) hpset, ?_, ?_, ?_,
        ?_, ?_, ?_⟩
      · exact chainOk_concat g hwf pc current n hchc hlc (by rw [hedge]; rfl)
      · rw [head_append_left (prevPath_ne_nil hPPc)]
        exact hhc
      · exact List.getLast?_concat pc
      · rw [pathWeight_concat g pc current n hlc, hedge, Option.getD_some, hwc, hwn]
      · rw [List.nodup_append]
        exact ⟨hndc, List.nodup_singleton n, fun x hx hx2 => hnpc (by
          rw [show x = n from by simpa using hx2] at hx
          exact hx)⟩
      · intro x hx
        rw [List.dropLast_concat] at hx
        exact hpcmem x hx
  · -- relaxed edges out of the enlarged visited set
    intro v hv dv hdv u wuv hedge
    rcases List.mem_cons.mp hv with hv | hv
    · -- v = current
      have hvmem : v ∈ current :: visited := by
        rw [hv]
        exact List.mem_cons_self _ _
      rw [hv] at hedge
      have hdvcd : dv = cd := by
        rw [(r2 v hvmem).1, hv, hcd] at hdv
        exact (Option.some_inj.mp hdv).symm
      by_cases hu : u ∈ current :: visited
      · rw [(r2 u hu).1]
        rcases List.mem_cons.mp hu with hu | hu
        · refine ⟨cd, by rw [hu]; exact hcd, ?_⟩
          have hwpos : 0 < wuv := edge_pos g hpos hedge
          omega
        · obtain ⟨du, hdu⟩ := Option.isSome_iff_exists.mp (hvsome u hu)
          refine ⟨du, hdu, ?_⟩
          have := hminO u hu current hcid hcnv
          rw [hcd, hdu] at this
          simp only [jsLt, decide_eq_false_iff_not, not_lt] at this
          have hwpos : 0 < wuv := edge_pos g hpos hedge
          omega
      · have := r4 u wuv (hmem_of_edge u wuv hedge) hu
        obtain ⟨du, hdu, hle⟩ := jsLt_some_false this
        refine ⟨du, hdu, ?_⟩
        omega
    · -- old visited node
      have hdv' : dist v = some dv := by
        rw [← (r2 v (List.mem_cons_of_mem _ hv)).1]
        exact hdv
      obtain ⟨du, hdu, hdule⟩ := hrelax v hv dv hdv' u wuv hedge
      rcases r3 u with ⟨e1, e2⟩ | ⟨w', hw', hnv2, hset, hpset, himpr⟩
      · rw [e1]
        exact ⟨du, hdu, hdule⟩
      · rw [hdu] at himpr
        simp only [jsLt, decide_eq_true_eq] at himpr
        exact ⟨cd + w', hset, by omega⟩
  · -- visited distances stay below unvisited ones
    intro v hv u huids hunv
    have hunv' : u ∉ visited := fun hh => hunv (List.mem_cons_of_mem _ hh)
    have hDu : ∀ P : Option Int → Prop,
        ((relaxNeighbors (g.getNeighbors current) current cd dist prev
          (current :: visited)).1 u = dist u → P (dist u)) →
        (∀ w', (u, w') ∈ g.getNeighbors current →
          jsLt (some (cd + w')) (dist u) = true →
          (relaxNeighbors (g.getNeighbors current) current cd dist prev
            (current :: visited)).1 u = some (cd + w') → P (some (cd + w'))) →
        P ((relaxNeighbors (g.getNeighbors current) current cd dist prev
          (current :: visited)).1 u) := by
      intro P h1 h2
      rcases r3 u with ⟨e1, e2⟩ | ⟨w', hw', hnv2, hset, hpset, himpr⟩
      · rw [e1]
        exact h1 e1
      · rw [hset]
        exact h2 w' hw' himpr hset
    rcases List.mem_cons.mp hv with hv | hv
    · subst hv
      rw [(r2 v (List.mem_cons_self _ _)).1, hcd]
      refine hDu (fun o => jsLt o (some cd) = false) ?_ ?_
      · intro _
        have := hmin u huids hunv'
        rw [hcd] at this
        exact this
      · intro w' hw' himpr _
        have hwpos : 0 < w' := edge_pos g hpos (hedge_of_mem u w' hw')
        simp only [jsLt, decide_eq_false_iff_not, not_lt]
        omega
    · rw [(r2 v (List.mem_cons_of_mem _ hv)).1]
      obtain ⟨dv, hdv⟩ := Option.isSome_iff_exists.mp (hvsome v hv)
      rw [hdv]
      have hvu : jsLt (dist u) (some dv) = false := by
        have := hminO v hv u huids hunv'
        rw [hdv] at this
        exact this
      refine hDu (fun o => jsLt o (some dv) = false) ?_ ?_
      · intro _
        exact hvu
      · intro w' hw' himpr _
        have hdvcd : dv ≤ cd := by
          have := hminO v hv current hcid hcnv
          rw [hdv, hcd] at this
          simp only [jsLt, decide_eq_false_iff_not, not_lt] at this
          exact this
        have hwpos : 0 < w' := edge_pos g hpos (hedge_of_mem u w' hw')
        simp only [jsLt, decide_eq_false_iff_not, not_lt]
        omega
  · -- optimality of visited distances
    intro v hv dv hdv q hq
    rcases List.mem_cons.mp hv with hv | hv
    · have hvmem : v ∈ current :: visited := by
        rw [hv]
        exact List.mem_cons_self _ _
      have hdvcd : dv = cd := by
        rw [(r2 v hvmem).1, hv, hcd] at hdv
        exact (Option.some_inj.mp hdv).symm
      rw [hdvcd]
      rw [hv] at hq
      exact hoptC q hq
    · have hdv' : dist v = some dv := by
        rw [← (r2 v (List.mem_cons_of_mem _ hv)).1]
        exact hdv
      exact hopt v hv dv hdv' q hq

/-! ### The fueled loop meets its specification -/

theorem subset_of_le_length {l1 l2 : List Str} (hnd1 : l1.Nodup) (hnd2 : l2.Nodup)
    (hsub : ∀ x ∈ l1, x ∈ l2) (hlen : l2.length ≤ l1.length) : ∀ x ∈ l2, x ∈ l1 := by
  have h1 : l1.toFinset ⊆ l2.toFinset := by
    intro x hx
    rw [List.mem_toFinset] at hx ⊢
    exact hsub x hx
  have hc1 : l1.toFinset.card = l1.length := List.toFinset_card_of_nodup hnd1
  have hc2 : l2.toFinset.card = l2.length := List.toFinset_card_of_nodup hnd2
  have heq : l1.toFinset = l2.toFinset := Finset.eq_of_subset_of_card_le h1 (by omega)
  intro x hx
  rw [← List.mem_toFinset, ← heq, List.mem_toFinset] at hx
  exact hx

theorem length_le_of_nodup_subset {l1 l2 : List Str} (hnd : l1.Nodup)
    (hsub : ∀ x ∈ l1, x ∈ l2) : l1.length ≤ l2.length := by
  have h1 : l1.toFinset ⊆ l2.toFinset := by
    intro x hx
    rw [List.mem_toFinset] at hx ⊢
    exact hsub x hx
  have hc1 : l1.toFinset.card = l1.length := List.toFinset_card_of_nodup hnd
  have := Finset.card_le_card h1
  have h2 := l2.toFinset_card_le
  omega

theorem dijkstraLoop_spec {ν : Type} (g : Graph ν Int) (s : Str) (endId : Option Str)
    (hwf : g.wellFormed) (hpos : g.positiveWeights) :
    ∀ (fuel : Nat) (dist : Str → Option Int) (prev : Str → Option Str)
      (visited : List Str),
      DijkInv g s dist prev visited →
      (jsKeys g.nodes).length ≤ visited.length + fuel →
      ∃ visited',
        DijkInv g s (dijkstraLoop g endId fuel dist prev visited).1
          (dijkstraLoop g endId fuel dist prev visited).2 visited'
        ∧ ((∀ u ∈ jsKeys g.nodes, u ∉ visited' →
              (dijkstraLoop g endId fuel dist prev visited).1 u = none)
          ∨ (∃ e, endId = some e ∧
              ∃ de, (dijkstraLoop g endId fuel dist prev visited).1 e = some de ∧
                ∀ q, isPath g s e q → de ≤ pathWeight g q)) := by
  intro fuel
  induction fuel with
  | zero =>
    intro dist prev visited hinv hlen
    refine ⟨visited, hinv, Or.inl ?_⟩
    intro u hu hunv
    exfalso
    apply hunv
    exact subset_of_le_length hinv.1 hwf.1 (hinv.2.1) hlen u hu
  | succ fuel ih =>
    intro dist prev visited hinv hlen
    cases hmn : getMinNode (Graph.getAllNodeIds g) dist visited with
    | none =>
      have hred : dijkstraLoop g endId (fuel + 1) dist prev visited = (dist, prev) := by
        rw [dijkstraLoop, hmn]
      rw [hred]
      exact ⟨visited, hinv, Or.inl (getMinNode_none _ _ _ hmn)⟩
    | some current =>
      have hfacts := getMinNode_some (Graph.getAllNodeIds g) dist visited current hmn
      obtain ⟨cd, hcd⟩ := Option.isSome_iff_exists.mp hfacts.2.2.1
      by_cases hend : endReached endId current = true
      · have hred : dijkstraLoop g endId (fuel + 1) dist prev visited = (dist, prev) := by
          rw [dijkstraLoop, hmn]
          dsimp only
          rw [if_pos hend]
        rw [hred]
        have hE : ∃ e, endId = some e ∧ e = current := by
          cases endId with
          | none => simp [endReached] at hend
          | some e =>
            refine ⟨e, rfl, ?_⟩
            simp only [endReached, Bool.and_eq_true, beq_iff_eq] at hend
            exact hend.2
        obtain ⟨e, hEid, hec⟩ := hE
        refine ⟨visited, hinv, Or.inr ⟨e, hEid, cd, by rw [hec]; exact hcd, ?_⟩⟩
        intro q hq
        rw [hec] at hq
        exact min_optimal g s dist prev visited hwf hpos hinv hcd hfacts.2.1
          hfacts.2.2.2 q hq
      · have hred : dijkstraLoop g endId (fuel + 1) dist prev visited
            = dijkstraLoop g endId fuel
                (relaxNeighbors (g.getNeighbors current) current cd dist prev
                  (current :: visited)).1
                (relaxNeighbors (g.getNeighbors current) current cd dist prev
                  (current :: visited)).2
                (current :: visited) := by
          rw [dijkstraLoop, hmn]
          dsimp only
          rw [if_neg hend, hcd]
        rw [hred]
        have hinv' := dijkInv_step g s hwf hpos dist prev visited hinv current cd hmn hcd
        have hlen' : (jsKeys g.nodes).length ≤ (current :: visited).length + fuel := by
          rw [List.length_cons]
          omega
        exact ih _ _ _ hinv' hlen'

theorem dijkInv_init {ν : Type} (g : Graph ν Int) (s : Str)
    (hs : g.hasNode s = true) :
    DijkInv g s (fun n => if n = s then some 0 else none) (fun _ => none) [] := by
  refine ⟨List.nodup_nil, fun v hv => absurd hv (List.not_mem_nil v), ?_, rfl,
    fun v hv => absurd hv (List.not_mem_nil v), ?_,
    fun v hv => absurd hv (List.not_mem_nil v),
    fun v hv => absurd hv (List.not_mem_nil v),
    fun v hv => absurd hv (List.not_mem_nil v)⟩
  · show (if s = s then (some 0 : Option Int) else none) = some 0
    rw [if_pos rfl]
  · intro n w hn
    have hn' : (if n = s then (some 0 : Option Int) else none) = some w := hn
    by_cases hns : n = s
    · rw [if_pos hns] at hn'
      have hw0 : w = 0 := (Option.some_inj.mp hn').symm
      subst hns
      refine ⟨[n], PrevPath.base rfl, ?_, rfl, rfl, ?_, List.nodup_singleton n, ?_⟩
      · exact hs
      · rw [hw0]
        rfl
      · intro x hx
        simp at hx
    · rw [if_neg hns] at hn'
      exact Option.noConfusion hn'

theorem exhausted_reachable {ν : Type} (g : Graph ν Int) (s : Str)
    (dist : Str → Option Int) (prev : Str → Option Str) (visited : List Str)
    (hwf : g.wellFormed) (hinv : DijkInv g s dist prev visited)
    (hexh : ∀ u ∈ jsKeys g.nodes, u ∉ visited → dist u = none) :
    ∀ n q, isPath g s n q → (dist n).isSome = true := by
  obtain ⟨hvnd, hvids, hds, hps, hvsome, hpath, hrelax, hminO, hopt⟩ := hinv
  rintro n q ⟨hq, hqh, hql⟩
  by_cases hn : n ∈ visited
  · exact hvsome n hn
  · exfalso
    have hnq : n ∈ q := mem_of_getLast?W hql
    obtain ⟨q1, z, q2, heq, hq1v, hznv⟩ := exists_first_not_mem hnq hn
    subst heq
    have hzids : z ∈ jsKeys g.nodes :=
      chainOk_mem_nodes g hwf _ hq z (List.mem_append.mpr (Or.inr (List.mem_cons_self _ _)))
    have hznone : dist z = none := hexh z hzids hznv
    cases q1 with
    | nil =>
      have hzs : z = s := by
        simp at hqh
        exact hqh
      rw [hzs, hds] at hznone
      exact Option.noConfusion hznone
    | cons a q1'' =>
      cases hlast : (a :: q1'').getLast? with
      | none => exact absurd hlast (getLast?_cons_ne_none _ _)
      | some v =>
        have hvv : v ∈ visited := hq1v v (mem_of_getLast?W hlast)
        have hchain_pz : chainOk g ((a :: q1'') ++ [z]) := chainOk_prefix g hwf _ z q2 hq
        have hedge : (g.getEdgeWeight v z).isSome = true :=
          chainOk_last_edge g _ v z hchain_pz hlast
        obtain ⟨wz, hwz⟩ := Option.isSome_iff_exists.mp hedge
        obtain ⟨dv, hdv⟩ := Option.isSome_iff_exists.mp (hvsome v hvv)
        obtain ⟨dz, hdz, hle⟩ := hrelax v hvv dv hdv z wz hwz
        rw [hznone] at hdz
        exact Option.noConfusion hdz

theorem jsGet_filterMap_keyed {γ : Type} (F : Str → Option γ) :
    ∀ (ids : List Str), ids.Nodup → ∀ e : Str,
      jsGet (ids.filterMap (fun n => Option.map (fun v => (n, v)) (F n))) e
        = if e ∈ ids then F e else none := by
  intro ids
  induction ids with
  | nil =>
    intro hnd e
    simp [jsGet]
  | cons a rest ih =>
    intro hnd e
    rw [List.filterMap_cons]
    have hand : a ∉ rest ∧ rest.Nodup := List.nodup_cons.mp hnd
    cases hFa : F a with
    | none =>
      rw [show Option.map (fun v => (a, v)) (none : Option γ)
          = (none : Option (Str × γ)) from rfl]
      dsimp only
      rw [ih hand.2 e]
      by_cases hea : e = a
      · subst hea
        rw [if_neg hand.1, if_pos (List.mem_cons_self _ _), hFa]
      · by_cases her : e ∈ rest
        · rw [if_pos her, if_pos (List.mem_cons_of_mem _ her)]
        · rw [if_neg her, if_neg (by
            intro hh
            rcases List.mem_cons.mp hh with hh | hh
            · exact hea hh
            · exact her hh)]
    | some v =>
      rw [show Option.map (fun v => (a, v)) (some v) = some (a, v) from rfl]
      dsimp only
      rw [show jsGet ((a, v) :: rest.filterMap
            (fun n => Option.map (fun v => (n, v)) (F n))) e
          = if a = e then some v
            else jsGet (rest.filterMap (fun n => Option.map (fun v => (n, v)) (F n))) e
          from rfl]
      by_cases hea : a = e
      · rw [if_pos hea, ← hea, if_pos (List.mem_cons_self _ _), hFa]
      · rw [if_neg hea, ih hand.2 e]
        by_cases her : e ∈ rest
        · rw [if_pos her, if_pos (List.mem_cons_of_mem _ her)]
        · rw [if_neg her, if_neg (by
            intro hh
            rcases List.mem_cons.mp hh with hh | hh
            · exact hea hh.symm
            · exact her hh)]

theorem dijkstra_eq {ν : Type} (g : Graph ν Int) (startId : Str) (endId : Option Str)
    (hs : g.hasNode startId = true) :
    g.dijkstra startId endId
      = (jsKeys g.nodes).filterMap (fun n =>
          match (dijkstraLoop g endId (g.nodes.length + 1)
              (fun m => if m = startId then some 0 else none) (fun _ => none) []).1 n with
          | none => none
          | some d => some (n, d,
              buildPath (dijkstraLoop g endId (g.nodes.length + 1)
                (fun m => if m = startId then some 0 else none) (fun _ => none) []).2
                g.nodes.length n)) := by
  rw [Graph.dijkstra, if_pos hs]
  dsimp only
  rw [Graph.getAllNodeIds]
  simp only [show (@OfNat.ofNat Int 0 (@Zero.toOfNat0 Int (@CommMonoidWithZero.toZero Int
    (@CommSemiring.toCommMonoidWithZero Int Int.instCommSemiring)))) = (0 : Int) from rfl]
  congr 1
  funext n
  cases (dijkstraLoop g endId (g.nodes.length + 1)
      (fun m => if m = startId then some 0 else none) (fun _ => none) []).1 n
  · rfl
  · rfl

theorem dijkstra_post {ν : Type} (g : Graph ν Int) (s : Str) (endId : Option Str)
    (hwf : g.wellFormed) (hpos : g.positiveWeights) (hs : g.hasNode s = true) :
    ∃ DIST : Str → Option Int, ∃ BP : Str → List Str,
      g.dijkstra s endId = (jsKeys g.nodes).filterMap (fun n =>
          match DIST n with
          | none => none
          | some d => some (n, d, BP n))
      ∧ (∀ n d, DIST n = some d →
          isPath g s n (BP n) ∧ pathWeight g (BP n) = d)
      ∧ (endId = none →
          (∀ n q, isPath g s n q → (DIST n).isSome = true)
          ∧ (∀ n, n ∈ jsKeys g.nodes → ∀ d, DIST n = some d →
              ∀ q, isPath g s n q → d ≤ pathWeight g q))
      ∧ (∀ e, endId = some e →
          (∀ q, isPath g s e q → (DIST e).isSome = true)
          ∧ (e ∈ jsKeys g.nodes → ∀ d, DIST e = some d →
              ∀ q, isPath g s e q → d ≤ pathWeight g q)) := by
  have hlen : (jsKeys g.nodes).length ≤ ([] : List Str).length + (g.nodes.length + 1) := by
    rw [show (jsKeys g.nodes).length = g.nodes.length from List.length_map _ _]
    simp
  obtain ⟨V', hinv', hstop⟩ := dijkstraLoop_spec g s endId hwf hpos (g.nodes.length + 1)
    (fun m => if m = s then some 0 else none) (fun _ => none) [] (dijkInv_init g s hs) hlen
  refine ⟨(dijkstraLoop g endId (g.nodes.length + 1)
      (fun m => if m = s then some 0 else none) (fun _ => none) []).1,
    buildPath (dijkstraLoop g endId (g.nodes.length + 1)
      (fun m => if m = s then some 0 else none) (fun _ => none) []).2 g.nodes.length,
    dijkstra_eq g s endId hs, ?_, ?_, ?_⟩
  · intro n d hd
    obtain ⟨p, hPP, hch, hh, hl, hw, hnd, hint⟩ := hinv'.2.2.2.2.2.1 n d hd
    have hplen : p.length ≤ g.nodes.length := by
      have hsub : ∀ x ∈ p, x ∈ jsKeys g.nodes := chainOk_mem_nodes g hwf p hch
      have := length_le_of_nodup_subset hnd hsub
      rw [show (jsKeys g.nodes).length = g.nodes.length from List.length_map _ _] at this
      exact this
    have hbp := buildPath_eq hPP g.nodes.length (by omega)
    rw [hbp]
    exact ⟨⟨hch, hh, hl⟩, hw⟩
  · intro hEnone
    rcases hstop with hexh | ⟨e, hEid, _⟩
    · constructor
      · intro n q hq
        exact exhausted_reachable g s _ _ V' hwf hinv' hexh n q hq
      · intro n hnids d hd q hq
        have hnv : n ∈ V' := by
          by_contra hnv
          rw [hexh n hnids hnv] at hd
          exact Option.noConfusion hd
        exact hinv'.2.2.2.2.2.2.2.2 n hnv d hd q hq
    · rw [hEnone] at hEid
      exact Option.noConfusion hEid
  · intro e hEe
    rcases hstop with hexh | ⟨e0, hEid, de, hde, hopte⟩
    · constructor
      · intro q hq
        exact exhausted_reachable g s _ _ V' hwf hinv' hexh e q hq
      · intro heids d hd q hq
        have hnv : e ∈ V' := by
          by_contra hnv
          rw [hexh e heids hnv] at hd
          exact Option.noConfusion hd
        exact hinv'.2.2.2.2.2.2.2.2 e hnv d hd q hq
    · have hee0 : e0 = e := by
        rw [hEe] at hEid
        exact (Option.some_inj.mp hEid).symm
      subst hee0
      constructor
      · intro q hq
        rw [hde]
        rfl
      · intro heids d hd q hq
        have hdde : d = de := by
          rw [hde] at hd
          exact (Option.some_inj.mp hd).symm
        rw [hdde]
        exact hopte q hq

/-- C4 (counterexample): with all-positive weights and an `end` node supplied,
`dijkstra("s", "e")` on `dijkCounterGraph` reports for the *other* node `x`
the entry `(10, [s, x])`, although `[s, e, x]` is a path of total weight `2 <
10`: the early exit leaves non-`end` entries non-optimal, so the "also holds
for the early-terminating variant" part of the claim is false as stated for
every reported node. -/
theorem claim_C4_counterexample :
    jsGet (dijkCounterGraph.dijkstra (str "s") (some (str "e"))) (str "x")
      = some (10, [str "s", str "x"])
    ∧ chainOk dijkCounterGraph [str "s", str "e", str "x"]
    ∧ pathWeight dijkCounterGraph [str "s", str "e", str "x"] = 2
    ∧ (2 : Int) < 10 :=
  ⟨by decide,
   ⟨by decide, by decide, (by decide : dijkCounterGraph.hasNode (str "x") = true)⟩,
   by decide, by decide⟩

/-- C4 (amended): on a well-formed graph with all-positive integer weights and
a present start node, `dijkstra` returns exactly the finite-distance entries;
every reported entry carries a genuine path from the start to the node whose
summed edge weights equal the reported distance; when no `end` node is given,
every reachable node is reported and every reported distance is minimal over
all paths; when an `end` node is given, the same completeness and minimality
hold for the `end` node's own entry (other entries keep path-soundness but may
be non-minimal, per the counterexample). -/
theorem claim_C4_dijkstra_correctness {ν : Type} (g : Graph ν Int) (s : Str)
    (endId : Option Str) (hwf : g.wellFormed) (hpos : g.positiveWeights)
    (hs : g.hasNode s = true) :
    ∃ DIST : Str → Option Int, ∃ BP : Str → List Str,
      g.dijkstra s endId = (jsKeys g.nodes).filterMap (fun n =>
          match DIST n with
          | none => none
          | some d => some (n, d, BP n))
      ∧ (∀ n d, DIST n = some d →
          isPath g s n (BP n) ∧ pathWeight g (BP n) = d)
      ∧ (endId = none →
          (∀ n q, isPath g s n q → (DIST n).isSome = true)
          ∧ (∀ n, n ∈ jsKeys g.nodes → ∀ d, DIST n = some d →
              ∀ q, isPath g s n q → d ≤ pathWeight g q))
      ∧ (∀ e, endId = some e →
          (∀ q, isPath g s e q → (DIST e).isSome = true)
          ∧ (e ∈ jsKeys g.nodes → ∀ d, DIST e = some d →
              ∀ q, isPath g s e q → d ≤ pathWeight g q)) :=
  dijkstra_post g s endId hwf hpos hs

/-- C4 (witness): the amended theorem applies to the concrete single-node
graph `dijkWitnessGraph` with start `"s"` and no `end` node. -/
theorem claim_C4_witness :
    dijkWitnessGraph.wellFormed ∧ dijkWitnessGraph.positiveWeights
    ∧ dijkWitnessGraph.hasNode (str "s") = true
    ∧ (∃ DIST : Str → Option Int, ∃ BP : Str → List Str,
      dijkWitnessGraph.dijkstra (str "s") none
        = (jsKeys dijkWitnessGraph.nodes).filterMap (fun n =>
          match DIST n with
          | none => none
          | some d => some (n, d, BP n))
      ∧ (∀ n d, DIST n = some d →
          isPath dijkWitnessGraph (str "s") n (BP n)
            ∧ pathWeight dijkWitnessGraph (BP n) = d)
      ∧ ((none : Option Str) = none →
          (∀ n q, isPath dijkWitnessGraph (str "s") n q → (DIST n).isSome = true)
          ∧ (∀ n, n ∈ jsKeys dijkWitnessGraph.nodes → ∀ d, DIST n = some d →
              ∀ q, isPath dijkWitnessGraph (str "s") n q → d ≤ pathWeight dijkWitnessGraph q))
      ∧ (∀ e, (none : Option Str) = some e →
          (∀ q, isPath dijkWitnessGraph (str "s") e q → (DIST e).isSome = true)
          ∧ (e ∈ jsKeys dijkWitnessGraph.nodes → ∀ d, DIST e = some d →
              ∀ q, isPath dijkWitnessGraph (str "s") e q →
                d ≤ pathWeight dijkWitnessGraph q))) :=
  ⟨by unfold Graph.wellFormed; decide,
   by unfold Graph.positiveWeights; decide,
   by decide,
   claim_C4_dijkstra_correctness dijkWitnessGraph (str "s") none
     (by unfold Graph.wellFormed; decide)
     (by unfold Graph.positiveWeights; decide)
     (by decide)⟩

/-! ### Trie enumeration lemmas (claim C2) -/

theorem trieWFList_mem {β : Type} {l : List (Char × TrieNode β)} (h : trieWFList l)
    {c : Char} {n : TrieNode β} (hm : (c, n) ∈ l) : trieWF n := by
  induction l with
  | nil => cases hm
  | cons p rest ih =>
    obtain ⟨pc, pn⟩ := p
    rcases List.mem_cons.mp hm with heq | hm
    · injection heq with h1 h2
      subst h2
      exact h.1
    · exact ih h.2 hm

theorem trieWFList_jsSet {β : Type} {l : List (Char × TrieNode β)} (h : trieWFList l)
    (c : Char) {m : TrieNode β} (hm : trieWF m) : trieWFList (jsSet l c m) := by
  induction l with
  | nil => exact ⟨hm, trivial⟩
  | cons p rest ih =>
    obtain ⟨pc, pn⟩ := p
    by_cases hc : pc = c
    · rw [show jsSet ((pc, pn) :: rest) c m = (c, m) :: rest from by simp [jsSet, hc]]
      exact ⟨hm, h.2⟩
    · rw [show jsSet ((pc, pn) :: rest) c m = (pc, pn) :: jsSet rest c m from by
        simp [jsSet, hc]]
      exact ⟨h.1, ih h.2⟩

theorem jsKeys_jsDel_sublist {κ γ : Type} [DecidableEq κ] (l : List (κ × γ)) (k : κ) :
    List.Sublist (jsKeys (jsDel l k)) (jsKeys l) := by
  induction l with
  | nil => exact List.Sublist.refl _
  | cons p rest ih =>
    obtain ⟨pk, pv⟩ := p
    by_cases h : pk = k
    · rw [show jsDel ((pk, pv) :: rest) k = jsDel rest k from by simp [jsDel, h]]
      exact ih.trans (List.sublist_cons_self _ _)
    · rw [show jsDel ((pk, pv) :: rest) k = (pk, pv) :: jsDel rest k from by
        simp [jsDel, h]]
      exact ih.cons₂ pk

theorem trieWFList_jsDel {β : Type} {l : List (Char × TrieNode β)} (h : trieWFList l)
    (c : Char) : trieWFList (jsDel l c) := by
  induction l with
  | nil => exact trivial
  | cons p rest ih =>
    obtain ⟨pc, pn⟩ := p
    by_cases hc : pc = c
    · rw [show jsDel ((pc, pn) :: rest) c = jsDel rest c from by simp [jsDel, hc]]
      exact ih h.2
    · rw [show jsDel ((pc, pn) :: rest) c = (pc, pn) :: jsDel rest c from by
        simp [jsDel, hc]]
      exact ⟨h.1, ih h.2⟩

theorem trieWF_empty {β : Type} : trieWF (TrieNode.empty : TrieNode β) :=
  ⟨List.nodup_nil, trivial⟩

theorem trieWF_insertW {β : Type} (w : Str) : ∀ (n : TrieNode β), trieWF n → ∀ v : β,
    trieWF (insertW n w v) := by
  induction w with
  | nil =>
    intro n hn v
    cases n with
    | mk ch e vv => exact ⟨hn.1, hn.2⟩
  | cons c cs ih =>
    intro n hn v
    cases n with
    | mk ch e vv =>
      have hchild : trieWF ((jsGet ch c).getD TrieNode.empty) := by
        cases hg : jsGet ch c with
        | none => exact trieWF_empty
        | some m =>
          have hm := mem_of_jsGet_eq_some hg
          exact trieWFList_mem hn.2 hm
      exact ⟨nodup_jsKeys_jsSet _ _ _ hn.1, trieWFList_jsSet hn.2 c (ih _ hchild v)⟩

theorem trieWF_deleteW {β : Type} (w : Str) : ∀ (n : TrieNode β), trieWF n →
    trieWF (deleteW n w).1 := by
  induction w with
  | nil =>
    intro n hn
    cases n with
    | mk ch e v =>
      cases e
      · exact hn
      · exact ⟨hn.1, hn.2⟩
  | cons c cs ih =>
    intro n hn
    cases n with
    | mk ch e v =>
      cases hg : jsGet ch c with
      | none =>
        simp only [deleteW, hg]
        exact hn
      | some child =>
        have hwfc : trieWF child := trieWFList_mem hn.2 (mem_of_jsGet_eq_some hg)
        simp only [deleteW, hg]
        by_cases hr : (deleteW child cs).2.1 = true
        · rw [if_pos hr]
          exact ⟨(jsKeys_jsDel_sublist ch c).nodup hn.1, trieWFList_jsDel hn.2 c⟩
        · rw [if_neg hr]
          exact ⟨nodup_jsKeys_jsSet _ _ _ hn.1, trieWFList_jsSet hn.2 c (ih child hwfc)⟩

theorem trieSize_le_of_mem {β : Type} {l : List (Char × TrieNode β)} {c : Char}
    {n : TrieNode β} (h : (c, n) ∈ l) : trieSize n ≤ trieSizeList l := by
  induction l with
  | nil => cases h
  | cons p rest ih =>
    obtain ⟨pc, pn⟩ := p
    rcases List.mem_cons.mp h with heq | h
    · injection heq with h1 h2
      subst h2
      show trieSize n ≤ trieSize n + trieSizeList rest
      exact Nat.le_add_right _ _
    · exact le_trans (ih h) (by
        show trieSizeList rest ≤ trieSize pn + trieSizeList rest
        exact Nat.le_add_left _ _)

theorem trieSize_lt {β : Type} {ch : List (Char × TrieNode β)} {c : Char}
    {n : TrieNode β} (h : (c, n) ∈ ch) (e : Bool) (v : Option β) :
    trieSize n < trieSize (.mk ch e v) :=
  lt_of_le_of_lt (trieSize_le_of_mem h)
    (by show trieSizeList ch < 1 + trieSizeList ch; omega)

theorem mem_collectWordsList {β : Type} (l : List (Char × TrieNode β)) (b : β) :
    b ∈ collectWordsList l ↔ ∃ c n, (c, n) ∈ l ∧ b ∈ collectWords n := by
  induction l with
  | nil =>
    show b ∈ ([] : List β) ↔ _
    simp
  | cons p rest ih =>
    obtain ⟨pc, pn⟩ := p
    rw [show collectWordsList ((pc, pn) :: rest)
        = collectWords pn ++ collectWordsList rest from rfl]
    rw [List.mem_append, ih]
    constructor
    · rintro (hb | ⟨c, n, hm, hb⟩)
      · exact ⟨pc, pn, List.mem_cons_self _ _, hb⟩
      · exact ⟨c, n, List.mem_cons_of_mem _ hm, hb⟩
    · rintro ⟨c, n, hm, hb⟩
      rcases List.mem_cons.mp hm with heq | hm
      · injection heq with h1 h2
        subst h2
        exact Or.inl hb
      · exact Or.inr ⟨c, n, hm, hb⟩

theorem mem_collectWords_bounded {β : Type} :
    ∀ (N : Nat) (n : TrieNode β), trieSize n ≤ N → trieWF n →
      ∀ b : β, (b ∈ collectWords n ↔ ∃ w, searchW n w = some b) := by
  intro N
  induction N with
  | zero =>
    intro n hsz
    exfalso
    cases n with
    | mk ch e v =>
      have h1 : 1 + trieSizeList ch ≤ 0 := hsz
      omega
  | succ N ih =>
    intro n hsz hwf b
    cases n with
    | mk ch e v =>
      rw [show collectWords (.mk ch e v)
            = (if e = true then v.toList else []) ++ collectWordsList ch from rfl,
        List.mem_append, mem_collectWordsList]
      constructor
      · rintro (hb | ⟨c, n', hm, hb⟩)
        · refine ⟨[], ?_⟩
          rw [searchW_nil]
          by_cases he : e = true
          · rw [if_pos he] at hb
            have hv : v = some b := by
              cases v with
              | none => simp at hb
              | some x =>
                have hbx : b = x := by simpa using hb
                rw [hbx]
            rw [show (TrieNode.mk ch e v).isEndOfWord = e from rfl, he, if_pos rfl]
            exact hv
          · rw [if_neg he] at hb
            cases hb
        · have hwfn' : trieWF n' := trieWFList_mem hwf.2 hm
          have hsz' : trieSize n' ≤ N := by
            have hlt := trieSize_lt hm e v
            have hle : trieSize (TrieNode.mk ch e v) ≤ N + 1 := hsz
            omega
          obtain ⟨w', hw'⟩ := (ih n' hsz' hwfn' b).mp hb
          refine ⟨c :: w', ?_⟩
          rw [searchW_cons]
          have hg : jsGet (TrieNode.mk ch e v).children c = some n' :=
            jsGet_eq_of_mem_nodup hwf.1 hm
          rw [hg]
          exact hw'
      · rintro ⟨w, hw⟩
        cases w with
        | nil =>
          rw [searchW_nil] at hw
          by_cases he : e = true
          · left
            rw [if_pos he]
            have hv : (TrieNode.mk ch e v).value = some b := by
              rw [show (TrieNode.mk ch e v).isEndOfWord = e from rfl, he, if_pos rfl] at hw
              exact hw
            have hv' : v = some b := hv
            rw [hv']
            simp
          · exfalso
            rw [show (TrieNode.mk ch e v).isEndOfWord = e from rfl] at hw
            rw [if_neg he] at hw
            exact Option.noConfusion hw
        | cons c cs =>
          rw [searchW_cons] at hw
          cases hg : jsGet (TrieNode.mk ch e v).children c with
          | none =>
            rw [hg] at hw
            exact absurd hw (by intro hh; exact Option.noConfusion hh)
          | some child =>
            rw [hg] at hw
            have hw' : searchW child cs = some b := hw
            have hm : (c, child) ∈ ch := mem_of_jsGet_eq_some hg
            have hwfc : trieWF child := trieWFList_mem hwf.2 hm
            have hsz' : trieSize child ≤ N := by
              have hlt := trieSize_lt hm e v
              have hle : trieSize (TrieNode.mk ch e v) ≤ N + 1 := hsz
              omega
            right
            exact ⟨c, child, hm, (ih child hsz' hwfc b).mpr ⟨cs, hw'⟩⟩

theorem mem_collectWords {β : Type} (n : TrieNode β) (hwf : trieWF n) (b : β) :
    b ∈ collectWords n ↔ ∃ w, searchW n w = some b :=
  mem_collectWords_bounded (trieSize n) n le_rfl hwf b

/-! ### Insertion-order list lemmas (claim C2) -/

theorem removeBy_sublist {T : Type} (l : List T) (p : T → Bool) :
    List.Sublist (removeBy l p) l := by
  induction l with
  | nil => exact List.Sublist.refl _
  | cons x rest ih =>
    by_cases h : p x = true
    · rw [show removeBy (x :: rest) p = rest from by simp [removeBy, h]]
      exact List.sublist_cons_self _ _
    · rw [show removeBy (x :: rest) p = x :: removeBy rest p from by simp [removeBy, h]]
      exact ih.cons₂ x

theorem mem_removeBy {T : Type} {l : List T} {b : T} (hb : b ∈ l) (p : T → Bool)
    (hpb : p b = false) : b ∈ removeBy l p := by
  induction l with
  | nil => cases hb
  | cons x rest ih =>
    by_cases h : p x = true
    · rw [show removeBy (x :: rest) p = rest from by simp [removeBy, h]]
      rcases List.mem_cons.mp hb with rfl | hb
      · rw [hpb] at h
        exact absurd h (by simp)
      · exact hb
    · rw [show removeBy (x :: rest) p = x :: removeBy rest p from by simp [removeBy, h]]
      rcases List.mem_cons.mp hb with rfl | hb
      · exact List.mem_cons_self _ _
      · exact List.mem_cons_of_mem _ (ih hb)

theorem not_mem_removeBy_self {l : List Book} {book : Book}
    (hnd : (l.map Book.id).Nodup) (p : Book → Bool)
    (hp : ∀ y, p y = true ↔ y.id = book.id) :
    book ∉ removeBy l p := by
  induction l with
  | nil => simp [removeBy]
  | cons x rest ih =>
    rw [List.map_cons, List.nodup_cons] at hnd
    by_cases h : p x = true
    · rw [show removeBy (x :: rest) p = rest from by simp [removeBy, h]]
      intro hmem
      have hxid : x.id = book.id := (hp x).mp h
      exact hnd.1 (by
        rw [hxid]
        exact List.mem_map.mpr ⟨book, hmem, rfl⟩)
    · rw [show removeBy (x :: rest) p = x :: removeBy rest p from by simp [removeBy, h]]
      intro hmem
      rcases List.mem_cons.mp hmem with heq | hmem
      · exact h (heq ▸ (hp book).mpr rfl)
      · exact ih hnd.2 hmem

theorem key_inj_of_nodup {γ : Type} {f : Book → γ} {L : List Book}
    (hnd : (L.map f).Nodup) {a b : Book} (ha : a ∈ L) (hb : b ∈ L) (hab : f a = f b) :
    a = b :=
  List.inj_on_of_nodup_map hnd ha hb hab

theorem map_id_replace (L : List Book) (bid : Str) (nb : Book) (hid : nb.id = bid) :
    ((L.map (fun b => if b.id == bid then nb else b)).map Book.id) = L.map Book.id := by
  rw [List.map_map]
  apply List.map_congr_left
  intro b hb
  by_cases h : (b.id == bid) = true
  · simp only [Function.comp, if_pos h]
    rw [hid]
    exact (beq_iff_eq.mp h).symm
  · simp only [Function.comp, if_neg h]

theorem replace_eq_self (L : List Book) (bid : Str) (nb : Book)
    (h : ∀ b ∈ L, b.id ≠ bid) :
    L.map (fun b => if b.id == bid then nb else b) = L := by
  induction L with
  | nil => rfl
  | cons x rest ih =>
    rw [List.map_cons]
    have hx : ¬ (x.id == bid) = true := by
      simpa using h x (List.mem_cons_self _ _)
    rw [if_neg hx, ih (fun b hb => h b (List.mem_cons_of_mem _ hb))]

theorem mem_map_replace_elim {γ : Type} {L : List Book} {bid : Str} {nb : Book}
    {f : Book → γ} {x : γ}
    (hx : x ∈ (L.map (fun b => if b.id == bid then nb else b)).map f) :
    x ∈ L.map f ∨ x = f nb := by
  rw [List.map_map] at hx
  obtain ⟨b, hb, hfb⟩ := List.mem_map.mp hx
  by_cases h : (b.id == bid) = true
  · right
    rw [← hfb]
    simp [Function.comp, h]
  · left
    exact List.mem_map.mpr ⟨b, hb, by simpa [Function.comp, h] using hfb⟩

theorem nodup_map_replace (bid : Str) (nb : Book) (key : Book → Str) (hid : nb.id = bid) :
    ∀ L : List Book, (L.map Book.id).Nodup →
      (∀ b ∈ L, b.id ≠ bid → key b ≠ key nb) → (L.map key).Nodup →
      ((L.map (fun b => if b.id == bid then nb else b)).map key).Nodup := by
  intro L
  induction L with
  | nil =>
    intro _ _ _
    simp
  | cons x rest ih =>
    intro hidnd hfresh hkeynd
    rw [List.map_cons, List.nodup_cons] at hidnd hkeynd
    rw [List.map_cons, List.map_cons]
    by_cases h : (x.id == bid) = true
    · rw [if_pos h]
      have hxid : x.id = bid := beq_iff_eq.mp h
      have hrest : rest.map (fun b => if b.id == bid then nb else b) = rest :=
        replace_eq_self rest bid nb (fun b hb hbid =>
          hidnd.1 (by
            rw [hxid, ← hbid]
            exact List.mem_map.mpr ⟨b, hb, rfl⟩))
      rw [hrest, List.nodup_cons]
      refine ⟨?_, hkeynd.2⟩
      intro hc
      obtain ⟨b, hb, hkb⟩ := List.mem_map.mp hc
      have hbid : b.id ≠ bid := fun hh =>
        hidnd.1 (by
          rw [hxid, ← hh]
          exact List.mem_map.mpr ⟨b, hb, rfl⟩)
      exact hfresh b (List.mem_cons_of_mem _ hb) hbid hkb
    · rw [if_neg h, List.nodup_cons]
      constructor
      · intro hc
        rcases mem_map_replace_elim hc with hc | hc
        · exact hkeynd.1 hc
        · have hxid : x.id ≠ bid := by simpa using h
          exact hfresh x (List.mem_cons_self _ _) hxid hc
      · exact ih hidnd.2 (fun b hb => hfresh b (List.mem_cons_of_mem _ hb)) hkeynd.2

/-! ### Index-agreement transfer lemmas (claim C2) -/

theorem searchW_insertW_if {β : Type} (n : TrieNode β) (w w' : Str) (v : β) :
    searchW (insertW n w v) w' = if w' = w then some v else searchW n w' := by
  by_cases h : w' = w
  · subst h
    rw [if_pos rfl]
    exact searchW_insertW n w' v
  · rw [if_neg h]
    exact searchW_insertW_ne n v h

theorem searchW_deleteW_if {β : Type} (n : TrieNode β) (w w' : Str) :
    searchW (deleteW n w).1 w' = if w' = w then none else searchW n w' := by
  by_cases h : w' = w
  · subst h
    rw [if_pos rfl]
    exact searchW_deleteW_self n w'
  · rw [if_neg h]
    exact searchW_deleteW_ne n h

theorem treeAgrees_insert_fresh {t : AVLNode Str Book} {L : List Book} {key : Book → Str}
    (ht : OrderedT t) (hag : treeAgrees t L key) (nb : Book)
    (hfresh : ∀ b ∈ L, key b ≠ key nb) :
    treeAgrees (insertNode t (key nb) nb) (L ++ [nb]) key := by
  constructor
  · intro b hb
    rcases List.mem_append.mp hb with hb | hb
    · obtain ⟨v, hv, hvid⟩ := hag.1 b hb
      refine ⟨v, ?_, hvid⟩
      rw [searchNode_insertNode t ht, if_neg (hfresh b hb)]
      exact hv
    · have hbe : b = nb := by simpa using hb
      subst hbe
      refine ⟨b, ?_, rfl⟩
      rw [searchNode_insertNode t ht, if_pos rfl]
  · intro k v hv
    rw [searchNode_insertNode t ht] at hv
    by_cases hk : k = key nb
    · rw [if_pos hk] at hv
      have hvnb : v = nb := by
        injection hv with hh
        exact hh.symm
      refine ⟨nb, List.mem_append.mpr (Or.inr (List.mem_cons_self _ _)), hk.symm, ?_⟩
      rw [hvnb]
    · rw [if_neg hk] at hv
      obtain ⟨b, hb, hkb, hid⟩ := hag.2 k v hv
      exact ⟨b, List.mem_append.mpr (Or.inl hb), hkb, hid⟩

theorem treeAgrees_delete {t : AVLNode Str Book} {L : List Book} {key : Book → Str}
    (ht : OrderedT t) (hag : treeAgrees t L key) {book : Book} (hbook : book ∈ L)
    (hidnd : (L.map Book.id).Nodup) (hkeynd : (L.map key).Nodup) :
    treeAgrees (deleteNode t (key book)) (removeBy L (fun b => b.id == book.id)) key := by
  constructor
  · intro b hb
    have hbL : b ∈ L := (removeBy_sublist L _).subset hb
    have hbnot : b ≠ book := by
      intro hbe
      subst hbe
      exact not_mem_removeBy_self hidnd _ (fun y => by simp) hb
    have hkey : key b ≠ key book := fun hk => hbnot (key_inj_of_nodup hkeynd hbL hbook hk)
    obtain ⟨v, hv, hvid⟩ := hag.1 b hbL
    refine ⟨v, ?_, hvid⟩
    rw [searchNode_deleteNode t ht, if_neg hkey]
    exact hv
  · intro k v hv
    rw [searchNode_deleteNode t ht] at hv
    by_cases hk : k = key book
    · rw [if_pos hk] at hv
      exact Option.noConfusion hv
    · rw [if_neg hk] at hv
      obtain ⟨b, hb, hkb, hid⟩ := hag.2 k v hv
      have hbnot : b ≠ book := fun hbe => hk (by rw [← hkb, hbe])
      have hbid : (fun y : Book => y.id == book.id) b = false := by
        have hne : b.id ≠ book.id := fun hh => hbnot (key_inj_of_nodup hidnd hb hbook hh)
        simpa using hne
      exact ⟨b, mem_removeBy hb _ hbid, hkb, hid⟩

theorem treeAgrees_replace_samekey {t : AVLNode Str Book} {L : List Book}
    {key : Book → Str}
    (hag : treeAgrees t L key) {book : Book} (hbook : book ∈ L)
    (hidnd : (L.map Book.id).Nodup) {nb : Book} (hid : nb.id = book.id)
    (hkey : key nb = key book) :
    treeAgrees t (L.map (fun b => if b.id == book.id then nb else b)) key := by
  constructor
  · intro b' hb'
    obtain ⟨b, hb, hbe⟩ := List.mem_map.mp hb'
    by_cases h : (b.id == book.id) = true
    · rw [if_pos h] at hbe
      subst hbe
      obtain ⟨v, hv, hvid⟩ := hag.1 book hbook
      refine ⟨v, ?_, ?_⟩
      · rw [hkey]
        exact hv
      · rw [hid]
        exact hvid
    · rw [if_neg h] at hbe
      subst hbe
      exact hag.1 b hb
  · intro k v hv
    obtain ⟨b, hb, hkb, hbid⟩ := hag.2 k v hv
    by_cases h : b.id = book.id
    · refine ⟨nb, ?_, ?_, ?_⟩
      · exact List.mem_map.mpr ⟨book, hbook, by simp⟩
      · have hbb : b = book := key_inj_of_nodup hidnd hb hbook h
        rw [hkey, ← hbb]
        exact hkb
      · rw [hid, ← h]
        exact hbid
    · refine ⟨b, ?_, hkb, hbid⟩
      exact List.mem_map.mpr ⟨b, hb, by rw [if_neg (by simpa using h)]⟩

theorem treeAgrees_rekey {t : AVLNode Str Book} {L : List Book} {key : Book → Str}
    (ht : OrderedT t) (hag : treeAgrees t L key) {book : Book} (hbook : book ∈ L)
    (hidnd : (L.map Book.id).Nodup) (hkeynd : (L.map key).Nodup)
    {nb : Book} (hid : nb.id = book.id)
    (hfresh : ∀ b ∈ L, b.id ≠ book.id → key b ≠ key nb) :
    treeAgrees (insertNode (deleteNode t (key book)) (key nb) nb)
      (L.map (fun b => if b.id == book.id then nb else b)) key := by
  have htd : OrderedT (deleteNode t (key book)) := orderedT_deleteNode t ht _
  constructor
  · intro b' hb'
    obtain ⟨b, hb, hbe⟩ := List.mem_map.mp hb'
    by_cases h : (b.id == book.id) = true
    · rw [if_pos h] at hbe
      subst hbe
      refine ⟨nb, ?_, rfl⟩
      rw [searchNode_insertNode _ htd, if_pos rfl]
    · rw [if_neg h] at hbe
      subst hbe
      have hbid : b.id ≠ book.id := by simpa using h
      have hk1 : key b ≠ key nb := hfresh b hb hbid
      have hbnb : b ≠ book := fun he => hbid (by rw [he])
      have hk2 : key b ≠ key book := fun hk => hbnb (key_inj_of_nodup hkeynd hb hbook hk)
      obtain ⟨v, hv, hvid⟩ := hag.1 b hb
      refine ⟨v, ?_, hvid⟩
      rw [searchNode_insertNode _ htd, if_neg hk1, searchNode_deleteNode t ht, if_neg hk2]
      exact hv
  · intro k v hv
    rw [searchNode_insertNode _ htd] at hv
    by_cases hk : k = key nb
    · rw [if_pos hk] at hv
      have hvnb : v = nb := by
        injection hv with hh
        exact hh.symm
      refine ⟨nb, List.mem_map.mpr ⟨book, hbook, by simp⟩, hk.symm, ?_⟩
      rw [hvnb]
    · rw [if_neg hk, searchNode_deleteNode t ht] at hv
      by_cases hk2 : k = key book
      · rw [if_pos hk2] at hv
        exact Option.noConfusion hv
      · rw [if_neg hk2] at hv
        obtain ⟨b, hb, hkb, hbid⟩ := hag.2 k v hv
        have hbnb : b ≠ book := fun he => hk2 (by rw [← hkb, he])
        have hbid' : ¬ (b.id == book.id) = true := by
          simp only [beq_iff_eq]
          exact fun hh => hbnb (key_inj_of_nodup hidnd hb hbook hh)
        refine ⟨b, ?_, hkb, hbid⟩
        exact List.mem_map.mpr ⟨b, hb, by rw [if_neg hbid']⟩

theorem trieAgrees_insert_fresh {n : TrieNode Book} {L : List Book} {key : Book → Str}
    (hag : trieAgrees n L key) (nb : Book)
    (hfresh : ∀ b ∈ L, key b ≠ key nb) :
    trieAgrees (insertW n (key nb) nb) (L ++ [nb]) key := by
  constructor
  · intro b hb
    rcases List.mem_append.mp hb with hb | hb
    · obtain ⟨v, hv, hvid⟩ := hag.1 b hb
      refine ⟨v, ?_, hvid⟩
      rw [searchW_insertW_if, if_neg (hfresh b hb)]
      exact hv
    · have hbe : b = nb := by simpa using hb
      subst hbe
      refine ⟨b, ?_, rfl⟩
      rw [searchW_insertW_if, if_pos rfl]
  · intro k v hv
    rw [searchW_insertW_if] at hv
    by_cases hk : k = key nb
    · rw [if_pos hk] at hv
      have hvnb : v = nb := by
        injection hv with hh
        exact hh.symm
      refine ⟨nb, List.mem_append.mpr (Or.inr (List.mem_cons_self _ _)), hk.symm, ?_⟩
      rw [hvnb]
    · rw [if_neg hk] at hv
      obtain ⟨b, hb, hkb, hid⟩ := hag.2 k v hv
      exact ⟨b, List.mem_append.mpr (Or.inl hb), hkb, hid⟩

theorem trieAgrees_delete {n : TrieNode Book} {L : List Book} {key : Book → Str}
    (hag : trieAgrees n L key) {book : Book} (hbook : book ∈ L)
    (hidnd : (L.map Book.id).Nodup) (hkeynd : (L.map key).Nodup) :
    trieAgrees (deleteW n (key book)).1 (removeBy L (fun b => b.id == book.id)) key := by
  constructor
  · intro b hb
    have hbL : b ∈ L := (removeBy_sublist L _).subset hb
    have hbnot : b ≠ book := by
      intro hbe
      subst hbe
      exact not_mem_removeBy_self hidnd _ (fun y => by simp) hb
    have hkey : key b ≠ key book := fun hk => hbnot (key_inj_of_nodup hkeynd hbL hbook hk)
    obtain ⟨v, hv, hvid⟩ := hag.1 b hbL
    refine ⟨v, ?_, hvid⟩
    rw [searchW_deleteW_if, if_neg hkey]
    exact hv
  · intro k v hv
    rw [searchW_deleteW_if] at hv
    by_cases hk : k = key book
    · rw [if_pos hk] at hv
      exact Option.noConfusion hv
    · rw [if_neg hk] at hv
      obtain ⟨b, hb, hkb, hid⟩ := hag.2 k v hv
      have hbnot : b ≠ book := fun hbe => hk (by rw [← hkb, hbe])
      have hbid : (fun y : Book => y.id == book.id) b = false := by
        have hne : b.id ≠ book.id := fun hh => hbnot (key_inj_of_nodup hidnd hb hbook hh)
        simpa using hne
      exact ⟨b, mem_removeBy hb _ hbid, hkb, hid⟩

theorem trieAgrees_replace_samekey {n : TrieNode Book} {L : List Book}
    {key : Book → Str}
    (hag : trieAgrees n L key) {book : Book} (hbook : book ∈ L)
    (hidnd : (L.map Book.id).Nodup) {nb : Book} (hid : nb.id = book.id)
    (hkey : key nb = key book) :
    trieAgrees n (L.map (fun b => if b.id == book.id then nb else b)) key := by
  constructor
  · intro b' hb'
    obtain ⟨b, hb, hbe⟩ := List.mem_map.mp hb'
    by_cases h : (b.id == book.id) = true
    · rw [if_pos h] at hbe
      subst hbe
      obtain ⟨v, hv, hvid⟩ := hag.1 book hbook
      refine ⟨v, ?_, ?_⟩
      · rw [hkey]
        exact hv
      · rw [hid]
        exact hvid
    · rw [if_neg h] at hbe
      subst hbe
      exact hag.1 b hb
  · intro k v hv
    obtain ⟨b, hb, hkb, hbid⟩ := hag.2 k v hv
    by_cases h : b.id = book.id
    · refine ⟨nb, ?_, ?_, ?_⟩
      · exact List.mem_map.mpr ⟨book, hbook, by simp⟩
      · have hbb : b = book := key_inj_of_nodup hidnd hb hbook h
        rw [hkey, ← hbb]
        exact hkb
      · rw [hid, ← h]
        exact hbid
    · refine ⟨b, ?_, hkb, hbid⟩
      exact List.mem_map.mpr ⟨b, hb, by rw [if_neg (by simpa using h)]⟩

theorem trieAgrees_rekey {n : TrieNode Book} {L : List Book} {key : Book → Str}
    (hag : trieAgrees n L key) {book : Book} (hbook : book ∈ L)
    (hidnd : (L.map Book.id).Nodup) (hkeynd : (L.map key).Nodup)
    {nb : Book} (hid : nb.id = book.id)
    (hfresh : ∀ b ∈ L, b.id ≠ book.id → key b ≠ key nb) :
    trieAgrees (insertW (deleteW n (key book)).1 (key nb) nb)
      (L.map (fun b => if b.id == book.id then nb else b)) key := by
  constructor
  · intro b' hb'
    obtain ⟨b, hb, hbe⟩ := List.mem_map.mp hb'
    by_cases h : (b.id == book.id) = true
    · rw [if_pos h] at hbe
      subst hbe
      refine ⟨nb, ?_, rfl⟩
      rw [searchW_insertW_if, if_pos rfl]
    · rw [if_neg h] at hbe
      subst hbe
      have hbid : b.id ≠ book.id := by simpa using h
      have hk1 : key b ≠ key nb := hfresh b hb hbid
      have hbnb : b ≠ book := fun he => hbid (by rw [he])
      have hk2 : key b ≠ key book := fun hk => hbnb (key_inj_of_nodup hkeynd hb hbook hk)
      obtain ⟨v, hv, hvid⟩ := hag.1 b hb
      refine ⟨v, ?_, hvid⟩
      rw [searchW_insertW_if, if_neg hk1, searchW_deleteW_if, if_neg hk2]
      exact hv
  · intro k v hv
    rw [searchW_insertW_if] at hv
    by_cases hk : k = key nb
    · rw [if_pos hk] at hv
      have hvnb : v = nb := by
        injection hv with hh
        exact hh.symm
      refine ⟨nb, List.mem_map.mpr ⟨book, hbook, by simp⟩, hk.symm, ?_⟩
      rw [hvnb]
    · rw [if_neg hk, searchW_deleteW_if] at hv
      by_cases hk2 : k = key book
      · rw [if_pos hk2] at hv
        exact Option.noConfusion hv
      · rw [if_neg hk2] at hv
        obtain ⟨b, hb, hkb, hbid⟩ := hag.2 k v hv
        have hbnb : b ≠ book := fun he => hk2 (by rw [← hkb, he])
        have hbid' : ¬ (b.id == book.id) = true := by
          simp only [beq_iff_eq]
          exact fun hh => hbnb (key_inj_of_nodup hidnd hb hbook hh)
        refine ⟨b, ?_, hkb, hbid⟩
        exact List.mem_map.mpr ⟨b, hb, by rw [if_neg hbid']⟩

/-! ### Book-store state characterizations (claim C2) -/

theorem findBookById_some {s : BookServiceV2} {id : Str} {book : Book}
    (h : s.findBookById id = some book) : book ∈ s.insertionOrder ∧ book.id = id := by
  constructor
  · exact List.mem_of_find?_eq_some h
  · have hp := List.find?_some h
    simpa using hp

theorem findBookById_none {s : BookServiceV2} {id : Str}
    (h : s.findBookById id = none) : ∀ b ∈ s.insertionOrder, b.id ≠ id := by
  intro b hb
  have hp := List.find?_eq_none.mp h b hb
  simpa using hp

theorem addBook_state (s : BookServiceV2) (data : CreateBookDTO) (newId : Str) :
    (s.addBook data newId).2 =
      { booksByISBN := s.booksByISBN.insert (mkBook data newId).isbn (mkBook data newId)
        booksByTitle := s.booksByTitle.insert (mkBook data newId).titulo (mkBook data newId)
        booksByAuthor :=
          s.booksByAuthor.insert (mkBook data newId).autor (mkBook data newId)
        insertionOrder := s.insertionOrder ++ [mkBook data newId] } := rfl

theorem deleteBook_state (s : BookServiceV2) (id : Str) (book : Book)
    (hf : s.findBookById id = some book) :
    (s.deleteBook id).2 =
      { booksByISBN := (s.booksByISBN.delete book.isbn).1
        booksByTitle := (s.booksByTitle.delete book.titulo).1
        booksByAuthor := (s.booksByAuthor.delete book.autor).1
        insertionOrder := removeBy s.insertionOrder (fun b => b.id == book.id) } := by
  rw [BookServiceV2.deleteBook.eq_def, hf, (findBookById_some hf).2]

theorem deleteBook_state_none (s : BookServiceV2) (id : Str)
    (hf : s.findBookById id = none) : (s.deleteBook id).2 = s := by
  rw [BookServiceV2.deleteBook.eq_def, hf]

theorem updateBook_state (s : BookServiceV2) (id : Str) (u : BookUpdate) (book : Book)
    (hf : s.findBookById id = some book) :
    (s.updateBook id u).2 =
      { booksByISBN :=
          match u.isbn with
          | some ni =>
              if jsTruthy ni && ni != book.isbn then
                ((s.booksByISBN.delete book.isbn).1).insert ni (applyBookUpdate book u)
              else s.booksByISBN
          | none => s.booksByISBN
        booksByTitle :=
          match u.titulo with
          | some nt =>
              if jsTruthy nt && nt != book.titulo then
                ((s.booksByTitle.delete book.titulo).1).insert nt (applyBookUpdate book u)
              else s.booksByTitle
          | none => s.booksByTitle
        booksByAuthor :=
          match u.autor with
          | some na =>
              if jsTruthy na && na != book.autor then
                ((s.booksByAuthor.delete book.autor).1).insert na (applyBookUpdate book u)
              else s.booksByAuthor
          | none => s.booksByAuthor
        insertionOrder := s.insertionOrder.map
          (fun b => if b.id == book.id then applyBookUpdate book u else b) } := by
  rw [BookServiceV2.updateBook.eq_def, hf, (findBookById_some hf).2]

theorem updateBook_state_none (s : BookServiceV2) (id : Str) (u : BookUpdate)
    (hf : s.findBookById id = none) : (s.updateBook id u).2 = s := by
  rw [BookServiceV2.updateBook.eq_def, hf]

/-! ### Store-invariant preservation (claim C2) -/

theorem storeInv_clear : storeInv BookServiceV2.clearState := by
  refine ⟨trivial, trieWF_empty, trieWF_empty, List.nodup_nil, List.nodup_nil,
    List.nodup_nil, List.nodup_nil, ⟨?_, ?_⟩, ⟨?_, ?_⟩, ⟨?_, ?_⟩⟩
  · intro b hb
    cases hb
  · intro k v hv
    exact Option.noConfusion hv
  · intro b hb
    cases hb
  · intro w v hv
    rw [searchW_of_no_children BookServiceV2.clearState.booksByTitle.root rfl rfl] at hv
    exact Option.noConfusion hv
  · intro b hb
    cases hb
  · intro w v hv
    rw [searchW_of_no_children BookServiceV2.clearState.booksByAuthor.root rfl rfl] at hv
    exact Option.noConfusion hv

theorem storeInv_add {s : BookServiceV2} (hinv : storeInv s) {data : CreateBookDTO}
    {newId : Str} (hok : bookOpOk s (.add data newId)) :
    storeInv (s.addBook data newId).2 := by
  obtain ⟨hord, hwfT, hwfA, hndid, hndisbn, hndtit, hndaut, hagT, hagTit, hagAut⟩ := hinv
  obtain ⟨hfid, hfisbn, hftit, hfaut⟩ := hok
  rw [addBook_state]
  refine ⟨?_, ?_, ?_, ?_, ?_, ?_, ?_, ?_, ?_, ?_⟩
  · exact orderedT_insertNode _ hord _ _
  · exact trieWF_insertW _ _ hwfT _
  · exact trieWF_insertW _ _ hwfA _
  · rw [List.map_append]
    refine List.Nodup.append hndid (List.nodup_singleton _) ?_
    intro a ha hb
    have hae : a = (mkBook data newId).id := by simpa using hb
    obtain ⟨b, hbmem, hbk⟩ := List.mem_map.mp ha
    exact hfid b hbmem (hbk.symm.symm.trans hae)
  · rw [List.map_append]
    refine List.Nodup.append hndisbn (List.nodup_singleton _) ?_
    intro a ha hb
    have hae : a = (mkBook data newId).isbn := by simpa using hb
    obtain ⟨b, hbmem, hbk⟩ := List.mem_map.mp ha
    exact hfisbn b hbmem (hbk.symm.symm.trans hae)
  · rw [List.map_append]
    refine List.Nodup.append hndtit (List.nodup_singleton _) ?_
    intro a ha hb
    have hae : a = titleKey (mkBook data newId) := by simpa using hb
    obtain ⟨b, hbmem, hbk⟩ := List.mem_map.mp ha
    exact hftit b hbmem (hbk.symm.symm.trans hae)
  · rw [List.map_append]
    refine List.Nodup.append hndaut (List.nodup_singleton _) ?_
    intro a ha hb
    have hae : a = autorKey (mkBook data newId) := by simpa using hb
    obtain ⟨b, hbmem, hbk⟩ := List.mem_map.mp ha
    exact hfaut b hbmem (hbk.symm.symm.trans hae)
  · exact treeAgrees_insert_fresh hord hagT (mkBook data newId) (fun b hb => hfisbn b hb)
  · exact trieAgrees_insert_fresh hagTit (mkBook data newId) (fun b hb => hftit b hb)
  · exact trieAgrees_insert_fresh hagAut (mkBook data newId) (fun b hb => hfaut b hb)

theorem storeInv_delete {s : BookServiceV2} (hinv : storeInv s) (id : Str) :
    storeInv (s.deleteBook id).2 := by
  cases hf : s.findBookById id with
  | none =>
    rw [deleteBook_state_none s id hf]
    exact hinv
  | some book =>
    obtain ⟨hord, hwfT, hwfA, hndid, hndisbn, hndtit, hndaut, hagT, hagTit, hagAut⟩ := hinv
    have hbook : book ∈ s.insertionOrder := (findBookById_some hf).1
    rw [deleteBook_state s id book hf]
    refine ⟨?_, ?_, ?_, ?_, ?_, ?_, ?_, ?_, ?_, ?_⟩
    · exact orderedT_deleteNode _ hord _
    · exact trieWF_deleteW _ _ hwfT
    · exact trieWF_deleteW _ _ hwfA
    · exact ((removeBy_sublist _ _).map _).nodup hndid
    · exact ((removeBy_sublist _ _).map _).nodup hndisbn
    · exact ((removeBy_sublist _ _).map _).nodup hndtit
    · exact ((removeBy_sublist _ _).map _).nodup hndaut
    · exact treeAgrees_delete hord hagT hbook hndid hndisbn
    · exact trieAgrees_delete hagTit hbook hndid hndtit
    · exact trieAgrees_delete hagAut hbook hndid hndaut

theorem storeInv_update {s : BookServiceV2} (hinv : storeInv s) (id : Str) (u : BookUpdate)
    (hok : bookOpOk s (.update id u)) : storeInv (s.updateBook id u).2 := by
  cases hf : s.findBookById id with
  | none =>
    rw [updateBook_state_none s id u hf]
    exact hinv
  | some book =>
    obtain ⟨hord, hwfT, hwfA, hndid, hndisbn, hndtit, hndaut, hagT, hagTit, hagAut⟩ := hinv
    have hbook : book ∈ s.insertionOrder := (findBookById_some hf).1
    have hokm : (match s.findBookById id with
       | none => True
       | some book =>
          (∀ ni, u.isbn = some ni → ni ≠ book.isbn →
            jsTruthy ni = true ∧ ∀ b ∈ s.insertionOrder, b.id ≠ book.id → b.isbn ≠ ni)
          ∧ (∀ nt, u.titulo = some nt → nt ≠ book.titulo →
            jsTruthy nt = true ∧ ∀ b ∈ s.insertionOrder, b.id ≠ book.id →
              titleKey b ≠ Trie.normalize nt)
          ∧ (∀ na, u.autor = some na → na ≠ book.autor →
            jsTruthy na = true ∧ ∀ b ∈ s.insertionOrder, b.id ≠ book.id →
              autorKey b ≠ Trie.normalize na)) := hok
    rw [hf] at hokm
    obtain ⟨hcisbn, hctit, hcaut⟩ := hokm
    have hid : (applyBookUpdate book u).id = book.id := rfl
    rw [updateBook_state s id u book hf]
    refine ⟨?_, ?_, ?_, ?_, ?_, ?_, ?_, ?_, ?_, ?_⟩
    · cases hui : u.isbn with
      | none => exact hord
      | some ni =>
        dsimp only
        by_cases hc : (jsTruthy ni && ni != book.isbn) = true
        · rw [if_pos hc]
          exact orderedT_insertNode _ (orderedT_deleteNode _ hord _) _ _
        · rw [if_neg hc]
          exact hord
    · cases hut : u.titulo with
      | none => exact hwfT
      | some nt =>
        dsimp only
        by_cases hc : (jsTruthy nt && nt != book.titulo) = true
        · rw [if_pos hc]
          exact trieWF_insertW _ _ (trieWF_deleteW _ _ hwfT) _
        · rw [if_neg hc]
          exact hwfT
    · cases hua : u.autor with
      | none => exact hwfA
      | some na =>
        dsimp only
        by_cases hc : (jsTruthy na && na != book.autor) = true
        · rw [if_pos hc]
          exact trieWF_insertW _ _ (trieWF_deleteW _ _ hwfA) _
        · rw [if_neg hc]
          exact hwfA
    · rw [map_id_replace _ _ _ hid]
      exact hndid
    · refine nodup_map_replace book.id _ Book.isbn hid s.insertionOrder hndid ?_ hndisbn
      intro b hb hbne
      cases hui : u.isbn with
      | none =>
        have hnbi : (applyBookUpdate book u).isbn = book.isbn := by
          simp [applyBookUpdate, hui]
        rw [hnbi]
        exact fun hh => hbne (by rw [key_inj_of_nodup hndisbn hb hbook hh])
      | some ni =>
        by_cases hc : ni = book.isbn
        · have hnbi : (applyBookUpdate book u).isbn = book.isbn := by
            simp [applyBookUpdate, hui, hc]
          rw [hnbi]
          exact fun hh => hbne (by rw [key_inj_of_nodup hndisbn hb hbook hh])
        · have hnbi : (applyBookUpdate book u).isbn = ni := by
            simp [applyBookUpdate, hui]
          rw [hnbi]
          exact (hcisbn ni hui hc).2 b hb hbne
    · refine nodup_map_replace book.id _ titleKey hid s.insertionOrder hndid ?_ hndtit
      intro b hb hbne
      cases hut : u.titulo with
      | none =>
        have hnbt : titleKey (applyBookUpdate book u) = titleKey book := by
          simp [titleKey, applyBookUpdate, hut]
        rw [hnbt]
        exact fun hh => hbne (by rw [key_inj_of_nodup hndtit hb hbook hh])
      | some nt =>
        by_cases hc : nt = book.titulo
        · have hnbt : titleKey (applyBookUpdate book u) = titleKey book := by
            simp [titleKey, applyBookUpdate, hut, hc]
          rw [hnbt]
          exact fun hh => hbne (by rw [key_inj_of_nodup hndtit hb hbook hh])
        · have hnbt : titleKey (applyBookUpdate book u) = Trie.normalize nt := by
            simp [titleKey, applyBookUpdate, hut]
          rw [hnbt]
          exact (hctit nt hut hc).2 b hb hbne
    · refine nodup_map_replace book.id _ autorKey hid s.insertionOrder hndid ?_ hndaut
      intro b hb hbne
      cases hua : u.autor with
      | none =>
        have hnba : autorKey (applyBookUpdate book u) = autorKey book := by
          simp [autorKey, applyBookUpdate, hua]
        rw [hnba]
        exact fun hh => hbne (by rw [key_inj_of_nodup hndaut hb hbook hh])
      | some na =>
        by_cases hc : na = book.autor
        · have hnba : autorKey (applyBookUpdate book u) = autorKey book := by
            simp [autorKey, applyBookUpdate, hua, hc]
          rw [hnba]
          exact fun hh => hbne (by rw [key_inj_of_nodup hndaut hb hbook hh])
        · have hnba : autorKey (applyBookUpdate book u) = Trie.normalize na := by
            simp [autorKey, applyBookUpdate, hua]
          rw [hnba]
          exact (hcaut na hua hc).2 b hb hbne
    · cases hui : u.isbn with
      | none =>
        have hkey : Book.isbn (applyBookUpdate book u) = Book.isbn book := by
          simp [applyBookUpdate, hui]
        exact treeAgrees_replace_samekey hagT hbook hndid hid hkey
      | some ni =>
        dsimp only
        by_cases hc : (jsTruthy ni && ni != book.isbn) = true
        · rw [if_pos hc]
          have hni : ni ≠ book.isbn := by
            have h2 := (Bool.and_eq_true _ _).mp hc
            exact bne_iff_ne.mp h2.2
          have hnbi : Book.isbn (applyBookUpdate book u) = ni := by
            simp [applyBookUpdate, hui]
          rw [← hnbi]
          refine treeAgrees_rekey hord hagT hbook hndid hndisbn hid ?_
          intro b hb hbne
          rw [hnbi]
          exact (hcisbn ni hui hni).2 b hb hbne
        · rw [if_neg hc]
          by_cases hni : ni = book.isbn
          · have hkey : Book.isbn (applyBookUpdate book u) = Book.isbn book := by
              simp [applyBookUpdate, hui, hni]
            exact treeAgrees_replace_samekey hagT hbook hndid hid hkey
          · exact absurd (by
              rw [(hcisbn ni hui hni).1, Bool.true_and]
              exact bne_iff_ne.mpr hni) hc
    · cases hut : u.titulo with
      | none =>
        have hkey : titleKey (applyBookUpdate book u) = titleKey book := by
          simp [titleKey, applyBookUpdate, hut]
        exact trieAgrees_replace_samekey hagTit hbook hndid hid hkey
      | some nt =>
        dsimp only
        by_cases hc : (jsTruthy nt && nt != book.titulo) = true
        · rw [if_pos hc]
          have hnt : nt ≠ book.titulo := by
            have h2 := (Bool.and_eq_true _ _).mp hc
            exact bne_iff_ne.mp h2.2
          have hnbt : titleKey (applyBookUpdate book u) = Trie.normalize nt := by
            simp [titleKey, applyBookUpdate, hut]
          have hroot : ((s.booksByTitle.delete book.titulo).1.insert nt
              (applyBookUpdate book u)).root
              = insertW (deleteW s.booksByTitle.root (titleKey book)).1
                (titleKey (applyBookUpdate book u)) (applyBookUpdate book u) := by
            rw [hnbt]
            rfl
          rw [hroot]
          refine trieAgrees_rekey hagTit hbook hndid hndtit hid ?_
          intro b hb hbne
          rw [hnbt]
          exact (hctit nt hut hnt).2 b hb hbne
        · rw [if_neg hc]
          by_cases hnt : nt = book.titulo
          · have hkey : titleKey (applyBookUpdate book u) = titleKey book := by
              simp [titleKey, applyBookUpdate, hut, hnt]
            exact trieAgrees_replace_samekey hagTit hbook hndid hid hkey
          · exact absurd (by
              rw [(hctit nt hut hnt).1, Bool.true_and]
              exact bne_iff_ne.mpr hnt) hc
    · cases hua : u.autor with
      | none =>
        have hkey : autorKey (applyBookUpdate book u) = autorKey book := by
          simp [autorKey, applyBookUpdate, hua]
        exact trieAgrees_replace_samekey hagAut hbook hndid hid hkey
      | some na =>
        dsimp only
        by_cases hc : (jsTruthy na && na != book.autor) = true
        · rw [if_pos hc]
          have hna : na ≠ book.autor := by
            have h2 := (Bool.and_eq_true _ _).mp hc
            exact bne_iff_ne.mp h2.2
          have hnba : autorKey (applyBookUpdate book u) = Trie.normalize na := by
            simp [autorKey, applyBookUpdate, hua]
          have hroot : ((s.booksByAuthor.delete book.autor).1.insert na
              (applyBookUpdate book u)).root
              = insertW (deleteW s.booksByAuthor.root (autorKey book)).1
                (autorKey (applyBookUpdate book u)) (applyBookUpdate book u) := by
            rw [hnba]
            rfl
          rw [hroot]
          refine trieAgrees_rekey hagAut hbook hndid hndaut hid ?_
          intro b hb hbne
          rw [hnba]
          exact (hcaut na hua hna).2 b hb hbne
        · rw [if_neg hc]
          by_cases hna : na = book.autor
          · have hkey : autorKey (applyBookUpdate book u) = autorKey book := by
              simp [autorKey, applyBookUpdate, hua, hna]
            exact trieAgrees_replace_samekey hagAut hbook hndid hid hkey
          · exact absurd (by
              rw [(hcaut na hua hna).1, Bool.true_and]
              exact bne_iff_ne.mpr hna) hc

theorem storeInv_applyBookOp {s : BookServiceV2} (hinv : storeInv s) {op : BookOp}
    (hok : bookOpOk s op) : storeInv (applyBookOp s op) := by
  cases op with
  | add data newId => exact storeInv_add hinv hok
  | update id u => exact storeInv_update hinv id u hok
  | delete id => exact storeInv_delete hinv id

theorem storeInv_applyBookOps : ∀ (ops : List BookOp) (s : BookServiceV2),
    storeInv s → opsOk s ops → storeInv (applyBookOps s ops) := by
  intro ops
  induction ops with
  | nil =>
    intro s hinv _
    exact hinv
  | cons op rest ih =>
    intro s hinv hok
    exact ih (applyBookOp s op) (storeInv_applyBookOp hinv hok.1) hok.2

theorem treeAgrees_ids {t : AVLNode Str Book} {L : List Book} {key : Book → Str}
    (ht : OrderedT t) (hag : treeAgrees t L key) (i : Str) :
    i ∈ (inOrderN t).map Book.id ↔ i ∈ L.map Book.id := by
  constructor
  · intro hi
    obtain ⟨v, hv, hvid⟩ := List.mem_map.mp hi
    rw [inOrderN_eq_map_snd] at hv
    obtain ⟨p, hp, hps⟩ := List.mem_map.mp hv
    have hsn : searchNode t p.1 = some p.2 := (searchNode_mem t ht p.1 p.2).mpr hp
    obtain ⟨b, hb, hkb, hbid⟩ := hag.2 p.1 p.2 hsn
    exact List.mem_map.mpr ⟨b, hb, by rw [hbid, hps, hvid]⟩
  · intro hi
    obtain ⟨b, hb, hbid⟩ := List.mem_map.mp hi
    obtain ⟨v, hv, hvid⟩ := hag.1 b hb
    have hmem := (searchNode_mem t ht (key b) v).mp hv
    refine List.mem_map.mpr ⟨v, ?_, by rw [hvid, hbid]⟩
    rw [inOrderN_eq_map_snd]
    exact List.mem_map.mpr ⟨(key b, v), hmem, rfl⟩

theorem trieAgrees_ids {n : TrieNode Book} {L : List Book} {key : Book → Str}
    (hwf : trieWF n) (hag : trieAgrees n L key) (i : Str) :
    i ∈ (collectWords n).map Book.id ↔ i ∈ L.map Book.id := by
  constructor
  · intro hi
    obtain ⟨v, hv, hvid⟩ := List.mem_map.mp hi
    obtain ⟨w, hw⟩ := (mem_collectWords n hwf v).mp hv
    obtain ⟨b, hb, hkb, hbid⟩ := hag.2 w v hw
    exact List.mem_map.mpr ⟨b, hb, by rw [hbid, hvid]⟩
  · intro hi
    obtain ⟨b, hb, hbid⟩ := List.mem_map.mp hi
    obtain ⟨v, hv, hvid⟩ := hag.1 b hb
    refine List.mem_map.mpr ⟨v, ?_, by rw [hvid, hbid]⟩
    exact (mem_collectWords n hwf v).mpr ⟨key b, hv⟩

/-! ### Claim C2: index consistency -/

/-- C2 (counterexample): adding two books with distinct ISBNs, distinct
authors, but the *same* title leaves the title trie with a single stored id
(the second insert silently overwrites the first at the shared normalized
key), while `getAll` enumerates both ids: the three indices do *not* agree on
the set of live entities for arbitrary operation sequences. -/
theorem claim_C2_counterexample :
    bookStoreSameTitle.getAllBooks.map Book.id = [str "B1", str "B2"]
    ∧ bookStoreSameTitle.booksByTitle.getAllWords.map Book.id = [str "B2"]
    ∧ str "B1" ∉ bookStoreSameTitle.booksByTitle.getAllWords.map Book.id
    ∧ str "B1" ∈ bookStoreSameTitle.getAllBooks.map Book.id :=
  ⟨by decide, by decide, by decide, by decide⟩

/-- C2 (amended): for every sequence of add/update/delete operations on the
book store in which natural keys stay collision-free -- each added book has a
fresh id, a fresh ISBN, a fresh normalized title and a fresh normalized
author, and each update that changes an indexed field supplies a truthy value
that collides with no other live entity's key -- the three indices agree at
every point on the set of live entity ids: the ids enumerable via `getAll`
(the insertion-order list), via the ISBN tree's in-order traversal, and via
each prefix trie's `getAllWords` are the same set. -/
theorem claim_C2_index_consistency (ops : List BookOp)
    (h : opsOk BookServiceV2.clearState ops) :
    ∀ i : Str,
      (i ∈ (applyBookOps BookServiceV2.clearState ops).getAllBooks.map Book.id ↔
        i ∈ (applyBookOps BookServiceV2.clearState ops).getAllBooksSorted.map Book.id)
      ∧ (i ∈ (applyBookOps BookServiceV2.clearState ops).getAllBooks.map Book.id ↔
        i ∈ ((applyBookOps BookServiceV2.clearState
          ops).booksByTitle.getAllWords).map Book.id)
      ∧ (i ∈ (applyBookOps BookServiceV2.clearState ops).getAllBooks.map Book.id ↔
        i ∈ ((applyBookOps BookServiceV2.clearState
          ops).booksByAuthor.getAllWords).map Book.id) := by
  obtain ⟨hord, hwfT, hwfA, hndid, h1, h2, h3, hagT, hagTit, hagAut⟩ :=
    storeInv_applyBookOps ops BookServiceV2.clearState storeInv_clear h
  intro i
  exact ⟨(treeAgrees_ids hord hagT i).symm, (trieAgrees_ids hwfT hagTit i).symm,
    (trieAgrees_ids hwfA hagAut i).symm⟩

/-- C2 (witness): the amended theorem applies to the concrete scenario
`c2WitnessOps` (two collision-free adds followed by a delete). -/
theorem claim_C2_witness :
    opsOk BookServiceV2.clearState c2WitnessOps
    ∧ ∀ i : Str,
      (i ∈ (applyBookOps BookServiceV2.clearState c2WitnessOps).getAllBooks.map Book.id ↔
        i ∈ (applyBookOps BookServiceV2.clearState
          c2WitnessOps).getAllBooksSorted.map Book.id)
      ∧ (i ∈ (applyBookOps BookServiceV2.clearState
          c2WitnessOps).getAllBooks.map Book.id ↔
        i ∈ ((applyBookOps BookServiceV2.clearState
          c2WitnessOps).booksByTitle.getAllWords).map Book.id)
      ∧ (i ∈ (applyBookOps BookServiceV2.clearState
          c2WitnessOps).getAllBooks.map Book.id ↔
        i ∈ ((applyBookOps BookServiceV2.clearState
          c2WitnessOps).booksByAuthor.getAllWords).map Book.id) :=
  ⟨⟨⟨by decide, by decide, by decide, by decide⟩,
    ⟨by decide, by decide, by decide, by decide⟩, trivial, trivial⟩,
   claim_C2_index_consistency c2WitnessOps
    ⟨⟨by decide, by decide, by decide, by decide⟩,
     ⟨by decide, by decide, by decide, by decide⟩, trivial, trivial⟩⟩
